import Mathlib

/-!
# icint: the INTCODE interpreter of nodeBCPL (`bcpl-js-console/icint.c`)

A shallow embedding of `icint.c` and theorems about it.

Conventions of the embedding.

* Every C integer is a Lean `Int`.  A `short` holds a value in `-32768 .. 32767`, a `word`
  (`unsigned short`) a value in `0 .. 65535`, a `byte` a value in `0 .. 255`.  An assignment
  to a variable of one of these types is written with `toShort`, `toWord` or `toByte`
  wherever the value assigned may lie outside the type; expressions are otherwise computed
  on mathematical integers, as C computes them after promotion to `int`.
* `m` is a function from addresses to `short` values.  Every access is checked against the
  bounds of the C array `m[WORDCOUNT]`; an access outside gives `Res.undef`.
* The bit tests and bit insertions of the source (`w & FD_BIT`, `n |= FI_BIT`, `w >> FN_BITS`,
  `d & FN_MASK`) are written with division and remainder by powers of two.
* The two bytes of a word are taken in little-endian order (byte 0 is the low half), the
  order of the hosts the source is built for.
* The host streams are lists of bytes, one per file descriptor.
-/

namespace Icint

/-! ## Constants of the source -/

@[simp] def ASC_TAB : Int := 8
@[simp] def ASC_LF : Int := 10
@[simp] def ASC_FF : Int := 12
@[simp] def ASC_CR : Int := 13
@[simp] def ASC_SPACE : Int := 32
@[simp] def ASC_DOLLAR : Int := 36
@[simp] def ASC_PERCENT : Int := 37
@[simp] def ASC_PLUS : Int := 43
@[simp] def ASC_MINUS : Int := 45
@[simp] def ASC_SLASH : Int := 47
@[simp] def ASC_0 : Int := 48
@[simp] def ASC_9 : Int := 57
@[simp] def ASC_A : Int := 65
@[simp] def ASC_C : Int := 67
@[simp] def ASC_D : Int := 68
@[simp] def ASC_F : Int := 70
@[simp] def ASC_G : Int := 71
@[simp] def ASC_I : Int := 73
@[simp] def ASC_J : Int := 74
@[simp] def ASC_K : Int := 75
@[simp] def ASC_L : Int := 76
@[simp] def ASC_N : Int := 78
@[simp] def ASC_O : Int := 79
@[simp] def ASC_P : Int := 80
@[simp] def ASC_S : Int := 83
@[simp] def ASC_T : Int := 84
@[simp] def ASC_X : Int := 88
@[simp] def ASC_Z : Int := 90

def STR_DUPLICATE_LABEL : String := "DUPLICATE LABEL"
def STR_BAD_CODE_AT_P : String := "BAD CODE AT P"
def STR_UNSET_LABEL : String := "UNSET LABEL"
def STR_BAD_CH : String := "BAD CH"
def STR_UNKNOWN_CALL : String := "UNKNOWN CALL"
def STR_UNKNOWN_EXEC : String := "UNKNOWN EXEC"
def STR_INTCODE_ERROR_AT_PC : String := "INTCODE ERROR AT PC"

@[simp] def PROGSTART : Int := 401
@[simp] def WORDCOUNT : Int := 19900
@[simp] def LABVCOUNT : Int := 500

@[simp] def FN_BITS : Nat := 8
@[simp] def FN_MASK : Int := 255
@[simp] def F0_L : Int := 0
@[simp] def F1_S : Int := 1
@[simp] def F2_A : Int := 2
@[simp] def F3_J : Int := 3
@[simp] def F4_T : Int := 4
@[simp] def F5_F : Int := 5
@[simp] def F6_K : Int := 6
@[simp] def F7_X : Int := 7
@[simp] def FI_BIT : Int := 8
@[simp] def FP_BIT : Int := 16
@[simp] def FD_BIT : Int := 32

@[simp] def K01_START : Int := 1
@[simp] def K11_SELECTINPUT : Int := 11
@[simp] def K12_SELECTOUTPUT : Int := 12
@[simp] def K13_RDCH : Int := 13
@[simp] def K14_WRCH : Int := 14
@[simp] def K16_INPUT : Int := 16
@[simp] def K17_OUTPUT : Int := 17
@[simp] def K30_STOP : Int := 30
@[simp] def K31_LEVEL : Int := 31
@[simp] def K32_LONGJUMP : Int := 32
@[simp] def K40_APTOVEC : Int := 40
@[simp] def K41_FINDOUTPUT : Int := 41
@[simp] def K42_FINDINPUT : Int := 42
@[simp] def K46_ENDREAD : Int := 46
@[simp] def K47_ENDWRITE : Int := 47
@[simp] def K60_WRITES : Int := 60
@[simp] def K62_WRITEN : Int := 62
@[simp] def K63_NEWLINE : Int := 63
@[simp] def K64_NEWPAGE : Int := 64
@[simp] def K66_PACKSTRING : Int := 66
@[simp] def K67_UNPACKSTRING : Int := 67
@[simp] def K68_WRITED : Int := 68
@[simp] def K70_READN : Int := 70
@[simp] def K71_TERMINATOR : Int := 71
@[simp] def K75_WRITEHEX : Int := 75
@[simp] def K76_WRITEF : Int := 76
@[simp] def K77_WRITEOCT : Int := 77
@[simp] def K85_GETBYTE : Int := 85
@[simp] def K86_PUTBYTE : Int := 86

@[simp] def ENDSTREAMCH : Int := -1
@[simp] def BYTESPERWORD : Int := 2

/-! ## Machine integers -/

/-- Conversion to `word` (`unsigned short`): the value modulo `2^16`. -/
def toWord (x : Int) : Int := x % 65536

/-- Conversion to `short`: the two's-complement value in `-32768 .. 32767`. -/
def toShort (x : Int) : Int := (x + 32768) % 65536 - 32768

/-- Conversion to `byte` (`unsigned char`): the value modulo `2^8`. -/
def toByte (x : Int) : Int := x % 256

/-- The test `w & bit` of the source, for `bit` a power of two: bit `bit` of `w` is set. -/
def hasBit (w bit : Int) : Bool := (w / bit) % 2 = 1

/-- The insertion `n | bit` of the source, for `bit` a power of two. -/
def orBit (n bit : Int) : Int := if hasBit n bit then n else n + bit

/-- Bitwise operation on two `short` values through their 16-bit patterns. -/
def bitop (f : Nat → Nat → Nat) (x y : Int) : Int :=
  toShort (Int.ofNat (f (toWord x).toNat (toWord y).toNat))

/-! ## State -/

/-- The global variables of `icint.c` (`m`, `lomem`, `cis`, `cos`, `sysin`, `sysprint`, `cp`,
`ch`), the registers of `interpret` (`pc`, `sp`, `a`, `b`, `w`, `d`), and the host streams: `inp fd`
is what is still to be read from file descriptor `fd`, `out fd` what has been written to it. -/
structure Machine where
  m : Int → Int
  lomem : Int
  cis : Int
  cos : Int
  sysin : Int
  sysprint : Int
  cp : Int
  ch : Int
  pc : Int
  sp : Int
  a : Int
  b : Int
  w : Int
  d : Int
  inp : Int → List Int
  out : Int → List Int

/-- Outcome of a piece of the program.
* `ok x`: it ran to its end with result `x`;
* `halted msg n s`: it called `halt(msg, n)`, which wrote its message (state `s`) and left
  the process with `exit(-1)`;
* `undef`: it did something C leaves undefined (an access outside an array);
* `timeout`: the bound given to a loop of the embedding was used up;
* `host a s`: it reached system call `a`, one of the calls that open or close host files,
  which are outside the embedding. -/
inductive Res (α : Type) where
  | ok : α → Res α
  | halted : String → Int → Machine → Res α
  | undef : Res α
  | timeout : Res α
  | host : Int → Machine → Res α

namespace Res

/-- Sequencing: every outcome but `ok` ends the computation. -/
def bind {α β : Type} (r : Res α) (f : α → Res β) : Res β :=
  match r with
  | ok x => f x
  | halted msg n s => halted msg n s
  | undef => undef
  | timeout => timeout
  | host a s => host a s

instance : Monad Res where
  pure := Res.ok
  bind := Res.bind

/-- The result of an outcome that ran to its end. -/
def get? {α : Type} : Res α → Option α
  | ok x => some x
  | _ => none

/-- The message and numeric detail of an outcome that halted. -/
def haltInfo {α : Type} : Res α → Option (String × Int)
  | halted msg n _ => some (msg, n)
  | _ => none

/-- The machine left behind by an outcome that halted. -/
def haltState {α : Type} : Res α → Option Machine
  | halted _ _ s => some s
  | _ => none

end Res

/-- One cell of a function changed. -/
def upd {β : Type} (f : Int → β) (i : Int) (x : β) : Int → β :=
  fun j => if j = i then x else f j

/-- The address is inside `m[WORDCOUNT]`. -/
def inMem (i : Int) : Prop := 0 ≤ i ∧ i < WORDCOUNT

instance (i : Int) : Decidable (inMem i) :=
  inferInstanceAs (Decidable (0 ≤ i ∧ i < WORDCOUNT))

/-- The read `m[i]`. -/
def rd (s : Machine) (i : Int) : Res Int :=
  if inMem i then Res.ok (s.m i) else Res.undef

/-- The assignment `m[i] = x`, `x` converted to `short`. -/
def wr (s : Machine) (i x : Int) : Res Machine :=
  if inMem i then Res.ok { s with m := upd s.m i (toShort x) } else Res.undef

/-- Byte `j` (0 or 1) of the word value `w`. -/
def byteOf (w j : Int) : Int := if j = 0 then toWord w % 256 else toWord w / 256

/-- The word value `w` with its byte `j` (0 or 1) replaced by the byte `c`. -/
def withByte (w j c : Int) : Int :=
  toShort (if j = 0 then toWord w / 256 * 256 + c else c * 256 + toWord w % 256)

/-- The read `((byte*)m)[i]` of the byte at byte address `i`. -/
def rdb (s : Machine) (i : Int) : Res Int :=
  if inMem (i / 2) then Res.ok (byteOf (s.m (i / 2)) (i % 2)) else Res.undef

/-- The assignment `((byte*)m)[i] = c`, `c` converted to `byte`. -/
def wrb (s : Machine) (i c : Int) : Res Machine :=
  if inMem (i / 2) then
    Res.ok { s with m := upd s.m (i / 2) (withByte (s.m (i / 2)) (i % 2) (toByte c)) }
  else Res.undef

/-! ## Streams (component B) -/

/-- The function `rdch`: one byte from the stream `cis`, `ENDSTREAMCH` at its end, a carriage
return read as a line feed. -/
def rdch (s : Machine) : Int × Machine :=
  match s.inp (s.cis - 1) with
  | [] => (ENDSTREAMCH, s)
  | c :: r => (if c = ASC_CR then ASC_LF else c, { s with inp := upd s.inp (s.cis - 1) r })

/-- The call `write(cos - 1, &c, 1)`. -/
def hostWrite (c : Int) (s : Machine) : Machine :=
  { s with out := upd s.out (s.cos - 1) (s.out (s.cos - 1) ++ [c]) }

/-- The function `newline`. -/
def newline (s : Machine) : Machine := hostWrite ASC_LF s

/-- The function `wrch`; its parameter is a `byte`. -/
def wrch (c : Int) (s : Machine) : Machine :=
  if toByte c = ASC_LF then newline s else hostWrite (toByte c) s

/-- A sequence of `wrch` calls, first element first. -/
def wrchs : List Int → Machine → Machine
  | [], s => s
  | c :: cs, s => wrchs cs (wrch c s)

/-- The function `writecstr`, the C string given as its bytes. -/
def writecstr (msg : List Int) (s : Machine) : Machine :=
  { s with out := upd s.out (s.cos - 1) (s.out (s.cos - 1) ++ msg) }

/-! ## Formatted input and output (component C) -/

/-- The loop `while (l--) wrch(*++s)` of `writes`; `p` is the byte address `s`. -/
def writesLoop : Nat → Int → Machine → Res Machine
  | 0, _, s => Res.ok s
  | l + 1, p, s => do
    let c ← rdb s (p + 1)
    writesLoop l (p + 1) (wrch c s)

/-- The function `writes`; `p` is the byte address of the packed string. -/
def writes (p : Int) (s : Machine) : Res Machine := do
  let l ← rdb s p
  writesLoop l.toNat p s

/-- The loop `do { *p++ = n % 10 + ASC_0; n /= 10; } while (n)` of `writed`.  The first
argument is the number of free cells of the buffer `s[32]`; writing past it is undefined
(`none`).  The list is the buffer from `s` to `p`. -/
def writedDigits : Nat → Int → List Int → Option (List Int)
  | 0, _, _ => none
  | room + 1, n, p =>
    if Int.tdiv n 10 ≠ 0 then writedDigits room (Int.tdiv n 10) (p ++ [Int.tmod n 10 + ASC_0])
    else some (p ++ [Int.tmod n 10 + ASC_0])

/-- The characters `writed(n, d)` passes to `wrch`, in order; `none` when the buffer
`s[32]` overflows. -/
def writedChars (n d : Int) : Option (List Int) :=
  let neg : Bool := decide (n < 0)
  let n1 := if neg then toShort (-n) else n
  match writedDigits 32 n1 [] with
  | none => none
  | some p =>
    if neg ∧ 32 ≤ p.length then none
    else
      let p1 := if neg then p ++ [ASC_MINUS] else p
      let d1 := toShort (d - p1.length)
      some (List.replicate d1.toNat ASC_SPACE ++ p1.reverse)

/-- The function `writed`. -/
def writed (n d : Int) (s : Machine) : Res Machine :=
  match writedChars n d with
  | none => Res.undef
  | some cs => Res.ok (wrchs cs s)

/-- The function `writen`. -/
def writen (n : Int) (s : Machine) : Res Machine := writed n 0 s

/-- The loop `do c = rdch(); while (c == ASC_SPACE || c == ASC_LF || c == ASC_TAB)` of
`readn`.  The bound is the length of the stream: after that many reads the stream is empty
and the read at bound 0 gives `ENDSTREAMCH`, which ends the loop. -/
def readnSkip : Nat → Machine → Int × Machine
  | 0, s => rdch s
  | k + 1, s =>
    if (rdch s).1 = ASC_SPACE ∨ (rdch s).1 = ASC_LF ∨ (rdch s).1 = ASC_TAB then
      readnSkip k (rdch s).2
    else rdch s

/-- The loop `while (c >= ASC_0 && c <= ASC_9) { sum = sum * 10 + c - ASC_0; c = rdch(); }`
of `readn`, giving `(sum, c)` and the machine.  The bound is the length of the stream before
`readn`: each turn needs a character that was read from it. -/
def readnDigits : Nat → Int → Int → Machine → Int × Int × Machine
  | 0, sum, c, s => (sum, c, s)
  | k + 1, sum, c, s =>
    if c ≥ ASC_0 ∧ c ≤ ASC_9 then
      readnDigits k (toShort (sum * 10 + c - ASC_0)) (rdch s).1 (rdch s).2
    else (sum, c, s)

/-- The function `readn`: the value read and the machine after it. -/
def readn (s : Machine) : Int × Machine :=
  let n := (s.inp (s.cis - 1)).length
  let r := readnSkip n s
  let neg : Bool := decide (r.1 = ASC_MINUS)
  let r1 := if neg ∨ r.1 = ASC_PLUS then rdch r.2 else r
  let q := readnDigits n 0 r1.1 r1.2
  let s1 := { q.2.2 with m := upd q.2.2.m K71_TERMINATOR q.2.1 }
  (if neg then toShort (-q.1) else q.1, s1)

/-- The character `strdigits[i]` of `"0123456789ABCDEF"`, `i` in `0 .. 15`. -/
def strdigits (i : Int) : Int := if i < 10 then ASC_0 + i else ASC_A + (i - 10)

/-- The recursion of `writeoct(n, d)`, `n` a `word`; the first argument is `d - 1`. -/
def writeoctRec : Nat → Int → Machine → Machine
  | 0, n, s => wrch (strdigits (n % 8)) s
  | k + 1, n, s => wrch (strdigits (n % 8)) (writeoctRec k (n / 8) s)

/-- The function `writeoct`. -/
def writeoct (n d : Int) (s : Machine) : Machine := writeoctRec (d - 1).toNat (toWord n) s

/-- The recursion of `writehex(n, d)`, `n` a `word`; the first argument is `d - 1`. -/
def writehexRec : Nat → Int → Machine → Machine
  | 0, n, s => wrch (strdigits (n % 16)) s
  | k + 1, n, s => wrch (strdigits (n % 16)) (writehexRec k (n / 16) s)

/-- The function `writehex`. -/
def writehex (n d : Int) (s : Machine) : Machine := writehexRec (d - 1).toNat (toWord n) s

/-- The function `decval`. -/
def decval (c : Int) : Int :=
  if c ≥ ASC_0 ∧ c ≤ ASC_9 then c - ASC_0
  else if c ≥ ASC_A ∧ c ≤ ASC_Z then c - ASC_A + 10
  else 0

/-- The loop of `writef`.  `p` is the byte address `s` of the format, `ss` the `byte` index
into it, `v` the address of the next argument.  A run that ends makes fewer than 256 turns
(`ss` grows each turn until it passes the length byte or wraps); the bound is 256. -/
def writefLoop : Nat → Int → Int → Int → Machine → Res Machine
  | 0, _, _, _, _ => Res.timeout
  | k + 1, p, ss, v, s => do
    let len ← rdb s p
    if ss ≤ len then
      let c ← rdb s (p + ss)
      let ss := toByte (ss + 1)
      if c ≠ ASC_PERCENT then writefLoop k p ss v (wrch c s)
      else
        let c ← rdb s (p + ss)
        let ss := toByte (ss + 1)
        if c = ASC_S then
          let x ← rd s v
          let s ← writes (2 * x) s
          writefLoop k p ss (v + 1) s
        else if c = ASC_C then
          let x ← rd s v
          writefLoop k p ss (v + 1) (wrch x s)
        else if c = ASC_O then
          let x ← rd s v
          let w ← rdb s (p + ss)
          writefLoop k p (toByte (ss + 1)) (v + 1) (writeoct x (decval w) s)
        else if c = ASC_X then
          let x ← rd s v
          let w ← rdb s (p + ss)
          writefLoop k p (toByte (ss + 1)) (v + 1) (writehex x (decval w) s)
        else if c = ASC_I then
          let x ← rd s v
          let w ← rdb s (p + ss)
          let s ← writed x (decval w) s
          writefLoop k p (toByte (ss + 1)) (v + 1) s
        else if c = ASC_N then
          let x ← rd s v
          let s ← writen x s
          writefLoop k p ss (v + 1) s
        else writefLoop k p ss v (wrch c s)
    else Res.ok s

/-- The function `writef`; `v` is the address of its argument vector. -/
def writef (v : Int) (s : Machine) : Res Machine := do
  let x ← rd s v
  writefLoop 256 (2 * x) 1 (v + 1) s

/-! ## Packed strings -/

/-- The loop `do *v++ = *s++; while (l--)` of `unpackstring`, the first argument the number
of turns left; `p` is the byte address `s`. -/
def unpackLoop : Nat → Int → Int → Machine → Res Machine
  | 0, _, _, st => Res.ok st
  | k + 1, p, v, st => do
    let c ← rdb st p
    let st ← wr st v c
    unpackLoop k (p + 1) (v + 1) st

/-- The function `unpackstring(s, v)` as `interpret` calls it: `s` is `(byte*)&m[sw]`. -/
def unpackstring (sw v : Int) (st : Machine) : Res Machine := do
  let l ← rdb st (2 * sw)
  unpackLoop (l.toNat + 1) (2 * sw) v st

/-- The loop `do *s++ = *v++; while (l--)` of `packstring`, the first argument the number of
turns left; `p` is the byte address `s`. -/
def packLoop : Nat → Int → Int → Machine → Res Machine
  | 0, _, _, st => Res.ok st
  | k + 1, v, p, st => do
    let x ← rd st v
    let st ← wrb st p x
    packLoop k (v + 1) (p + 1) st

/-- The function `packstring(v, s)` as `interpret` calls it: `s` is `(byte*)&m[sw]`.  The
result is the value returned and the machine. -/
def packstring (v sw : Int) (st : Machine) : Res (Int × Machine) := do
  let x ← rd st v
  let l := toByte x
  let n := toByte (l / BYTESPERWORD)
  let st ← wr st (sw + n) 0
  let st ← packLoop (l.toNat + 1) v (2 * sw) st
  pure (n, st)

/-! ## Assembler: reading (component E) -/

/-- Length of what is left of the current input stream. -/
def left (s : Machine) : Nat := (s.inp (s.cis - 1)).length

/-- The assignment `ch = rdch()`. -/
def rdchCh (s : Machine) : Machine := { (rdch s).2 with ch := (rdch s).1 }

/-- The loop `do ch = rdch(); while (ch != ASC_LF && ch != ENDSTREAMCH)` of `rch`.  The
bound is the length of the stream: the read made at bound 0 finds it empty. -/
def rchLine : Nat → Machine → Machine
  | 0, s => rdchCh s
  | k + 1, s =>
    if (rdchCh s).ch ≠ ASC_LF ∧ (rdchCh s).ch ≠ ENDSTREAMCH then rchLine k (rdchCh s)
    else rdchCh s

/-- The loop `while (ch == ASC_LF) ch = rdch()` of `rch`.  The bound is the length of the
stream plus one: after that many reads `ch` is `ENDSTREAMCH`. -/
def rchLFs : Nat → Machine → Machine
  | 0, s => s
  | k + 1, s => if s.ch = ASC_LF then rchLFs k (rdchCh s) else s

/-- The loop `for (...; ch == ASC_SLASH; ) { ... }` of `rch`.  The bound is the length of the
stream: each turn needs a slash read from it. -/
def rchLoop : Nat → Machine → Machine
  | 0, s => s
  | k + 1, s =>
    if s.ch = ASC_SLASH then
      let s1 := rchLine (left s) s
      rchLoop k (rchLFs (left s1 + 1) s1)
    else s

/-- The function `rch`. -/
def rch (s : Machine) : Machine := rchLoop (left s) (rdchCh s)

/-- The loop `while (ch >= ASC_0 && ch <= ASC_9) { sum = sum * 10 + ch - ASC_0; rch(); }` of
`rdn`.  The bound is the length of the stream plus one: each turn needs a digit in `ch`. -/
def rdnLoop : Nat → Int → Machine → Int × Machine
  | 0, sum, s => (sum, s)
  | k + 1, sum, s =>
    if s.ch ≥ ASC_0 ∧ s.ch ≤ ASC_9 then rdnLoop k (toShort (sum * 10 + s.ch - ASC_0)) (rch s)
    else (sum, s)

/-- The function `rdn`: the number read and the machine after it. -/
def rdn (s : Machine) : Int × Machine :=
  let neg : Bool := decide (s.ch = ASC_MINUS)
  let s1 := if neg then rch s else s
  let r := rdnLoop (left s1 + 1) 0 s1
  (if neg then toShort (-r.1) else r.1, r.2)

/-! ## Assembler: emitting, labels (components D, E) -/

/-- The function `stw`. -/
def stw (w : Int) (s : Machine) : Res Machine := do
  let s1 ← wr s s.lomem w
  pure { s1 with lomem := toShort (s.lomem + 1), cp := 0 }

/-- The function `stc`; its parameter is a `byte`. -/
def stc (c : Int) (s : Machine) : Res Machine := do
  let s1 ← (if s.cp = 0 then stw 0 s else Res.ok s)
  let s2 ← wrb s1 (2 * (s1.lomem - 1) + s1.cp) c
  let cp1 := toByte (s1.cp + 1)
  pure { s2 with cp := if cp1 = BYTESPERWORD then 0 else cp1 }

/-- Address in `m` of `labv[n]`, where `labv = &m[WORDCOUNT - LABVCOUNT]`. -/
def labv (n : Int) : Int := WORDCOUNT - LABVCOUNT + n

/-- The function `labref`. -/
def labref (n a : Int) (s : Machine) : Res Machine := do
  let k ← rd s (labv n)
  let s1 ← (if k < 0 then Res.ok s else wr s (labv n) a)
  let k1 := if k < 0 then toShort (-k) else k
  let x ← rd s1 a
  wr s1 a (x + k1)

/-- The bytes of a C string literal. -/
def cbytes (msg : String) : List Int := msg.toList.map (fun c => Int.ofNat c.toNat)

/-- The function `halt`. -/
def halt {α : Type} (msg : String) (n : Int) (s : Machine) : Res α :=
  let s1 := writecstr (cbytes msg) { s with cos := s.sysprint }
  Res.bind (if n ≠ 0 then writen n (writecstr (cbytes " #") s1) else Res.ok s1)
    (fun s2 => Res.halted msg n (newline s2))

/-- Modelled from the spec: `memclr` is declared in `icint.h`, which is not among the
sources; the spec has `Z` "clear the label table".  The call
`memclr(labv, LABVCOUNT * BYTESPERWORD)` sets the `LABVCOUNT` words of `labv` to 0. -/
def memclr (m : Int → Int) : Int → Int :=
  fun i => if labv 0 ≤ i ∧ i < labv LABVCOUNT then 0 else m i

/-- The loop `while (k > 0) { short tmp = m[k]; m[k] = lomem; k = tmp; }` of the label
definition, under a bound on its turns. -/
def chain : Nat → Int → Machine → Res Machine
  | 0, k, s => if k > 0 then Res.timeout else Res.ok s
  | f + 1, k, s =>
    if k > 0 then do
      let tmp ← rd s k
      let s1 ← wr s k s.lomem
      chain f tmp s1
    else Res.ok s

/-- The label definition of `assemble` once `n = rdn()` is read: the test for a label defined
already, the walk along the chain, the assignment of `labv[n]`; the bound being that of
`chain`. -/
def defineLabel (fuel : Nat) (n : Int) (s : Machine) : Res Machine := do
  let k ← rd s (labv n)
  if k < 0 then halt STR_DUPLICATE_LABEL n s
  else do
    let s2 ← chain fuel k s
    let s3 ← wr s2 (labv n) (-s2.lomem)
    pure { s3 with cp := 0 }

/-- The label definition of `assemble` (the statement that starts with a digit). -/
def defLabel (fuel : Nat) (s : Machine) : Res Machine :=
  defineLabel fuel (rdn s).1 (rdn s).2

/-- The loop `for (n = 0; n < LABVCOUNT; ++n) if (labv[n] > 0) halt(STR_UNSET_LABEL, n)` of
the `Z` directive, the first argument the number of turns left. -/
def unsetCheck : Nat → Int → Machine → Res Machine
  | 0, _, s => Res.ok s
  | k + 1, n, s => do
    let x ← rd s (labv n)
    if x > 0 then halt STR_UNSET_LABEL n s else unsetCheck k (n + 1) s

/-- The function code of the letters `L S A J T F K X`. -/
def fnCode (ch : Int) : Option Int :=
  if ch = ASC_L then some F0_L else if ch = ASC_S then some F1_S
  else if ch = ASC_A then some F2_A else if ch = ASC_J then some F3_J
  else if ch = ASC_T then some F4_T else if ch = ASC_F then some F5_F
  else if ch = ASC_K then some F6_K else if ch = ASC_X then some F7_X
  else none

/-- The tail of `assemble` after the `switch`, for an instruction of function code `n`: the
suffixes `I`, `P`, `G`, then a label operand or a numeric operand. -/
def asmInstr (n : Int) (s : Machine) : Res Machine := do
  let s := rch s
  let n := if s.ch = ASC_I then orBit n FI_BIT else n
  let s := if s.ch = ASC_I then rch s else s
  let n := if s.ch = ASC_P then orBit n FP_BIT else n
  let s := if s.ch = ASC_P then rch s else s
  let s := if s.ch = ASC_G then rch s else s
  if s.ch = ASC_L then do
    let s ← stw (orBit n FD_BIT) (rch s)
    let s ← stw 0 s
    labref (rdn s).1 ((rdn s).2.lomem - 1) (rdn s).2
  else
    let d := (rdn s).1
    let s := (rdn s).2
    if d % (FN_MASK + 1) = d then stw (bitop Nat.lor n (d * 2 ^ FN_BITS)) s
    else do
      let s ← stw (orBit n FD_BIT) s
      stw d s

/-- The labels of `assemble`. -/
inductive Lbl where
  | clear
  | next
  | sw

/-- The code of `assemble` from the label `sw` to its next `goto` (the label it goes to) or
to its `return` (`none`); `fuel` bounds the loop of a label definition. -/
def asmSw (fuel : Nat) (s : Machine) : Res (Option Lbl × Machine) :=
  if s.ch ≤ ASC_9 ∧ s.ch ≥ ASC_0 then do
    let s1 ← defLabel fuel s
    pure (some Lbl.sw, s1)
  else if s.ch = ASC_DOLLAR ∨ s.ch = ASC_SPACE ∨ s.ch = ASC_LF then pure (some Lbl.next, s)
  else if s.ch = ASC_C then do
    let r := rdn (rch s)
    let s1 ← stc (toByte r.1) r.2
    pure (some Lbl.sw, s1)
  else if s.ch = ASC_D then
    let s := rch s
    if s.ch = ASC_L then do
      let s ← stw 0 (rch s)
      let s ← labref (rdn s).1 ((rdn s).2.lomem - 1) (rdn s).2
      pure (some Lbl.sw, s)
    else do
      let s ← stw (rdn s).1 (rdn s).2
      pure (some Lbl.sw, s)
  else if s.ch = ASC_G then
    let n := (rdn (rch s)).1
    let s := (rdn (rch s)).2
    if s.ch = ASC_L then do
      let s ← wr (rch s) n 0
      let s ← labref (rdn s).1 n (rdn s).2
      pure (some Lbl.sw, s)
    else halt STR_BAD_CODE_AT_P s.lomem s
  else if s.ch = ASC_Z then do
    let s ← unsetCheck LABVCOUNT.toNat 0 s
    pure (some Lbl.clear, s)
  else
    match fnCode s.ch with
    | some n => do
      let s ← asmInstr n s
      pure (some Lbl.sw, s)
    | none => if s.ch ≠ ENDSTREAMCH then halt STR_BAD_CH s.ch s else pure (none, s)

/-- The control of `assemble` from one of its labels on, under a bound on the number of
labels passed. -/
def asmGo : Nat → Lbl → Machine → Res Machine
  | 0, _, _ => Res.timeout
  | f + 1, Lbl.clear, s => asmGo f Lbl.next { s with m := memclr s.m, cp := 0 }
  | f + 1, Lbl.next, s => asmGo f Lbl.sw (rch s)
  | f + 1, Lbl.sw, s => do
    let r ← asmSw f s
    match r.1 with
    | some l => asmGo f l r.2
    | none => pure r.2

/-- The function `assemble`. -/
def assemble (fuel : Nat) (s : Machine) : Res Machine := asmGo fuel Lbl.clear s

/-! ## Interpreter (component F) -/

/-- The code of `interpret` from the label `fetch` to the `switch`: the instruction word goes
to `w`, the operand to `d`, `pc` past the instruction. -/
def fetch (s : Machine) : Res Machine := do
  let x ← rd s s.pc
  let w := toWord x
  let pc1 := toWord (s.pc + 1)
  let y ← (if hasBit w FD_BIT then rd s pc1 else Res.ok 0)
  let d0 := if hasBit w FD_BIT then toWord y else w / 2 ^ FN_BITS
  let pc2 := if hasBit w FD_BIT then toWord (pc1 + 1) else pc1
  let d1 := if hasBit w FP_BIT then toWord (d0 + s.sp) else d0
  let z ← (if hasBit w FI_BIT then rd s d1 else Res.ok 0)
  let d2 := if hasBit w FI_BIT then toWord z else d1
  pure { s with w := w, d := d2, pc := pc2 }

/-- The case `K40_APTOVEC`; `v` is the address `d + 2` of the argument vector. -/
def aptovec (v : Int) (s : Machine) : Res Machine := do
  let v1 ← rd s (v + 1)
  let b := toShort (s.d + v1 + 1)
  let s1 ← wr { s with b := b } b s.sp
  let s2 ← wr s1 (b + 1) s.pc
  let s3 ← wr s2 (b + 2) s.d
  let v1 ← rd s3 (v + 1)
  let s4 ← wr s3 (b + 3) v1
  let v0 ← rd s4 v
  pure { s4 with sp := toWord b, pc := toWord v0 }

/-- The system calls of function code `K` (`a < PROGSTART`), with `d` already `d + sp`.  The
result is the machine at the next `fetch`, with `none`, or with the value `interpret` returns. -/
def syscall (s : Machine) : Res (Option Int × Machine) :=
  let v := s.d + 2
  if s.a = K11_SELECTINPUT then do
    let x ← rd s v
    pure (none, { s with cis := x })
  else if s.a = K12_SELECTOUTPUT then do
    let x ← rd s v
    pure (none, { s with cos := x })
  else if s.a = K13_RDCH then pure (none, { (rdch s).2 with a := (rdch s).1 })
  else if s.a = K14_WRCH then do
    let x ← rd s v
    pure (none, wrch x s)
  else if s.a = K16_INPUT then pure (none, { s with a := s.cis })
  else if s.a = K17_OUTPUT then pure (none, { s with a := s.cos })
  else if s.a = K30_STOP then do
    let x ← rd s v
    pure (some x, s)
  else if s.a = K31_LEVEL then pure (none, { s with a := toShort s.sp })
  else if s.a = K32_LONGJUMP then do
    let x ← rd s v
    let y ← rd s (v + 1)
    pure (none, { s with sp := toWord x, pc := toWord y })
  else if s.a = K40_APTOVEC then do
    let s1 ← aptovec v s
    pure (none, s1)
  else if s.a = K41_FINDOUTPUT ∨ s.a = K42_FINDINPUT ∨ s.a = K46_ENDREAD
      ∨ s.a = K47_ENDWRITE then Res.host s.a s
  else if s.a = K60_WRITES then do
    let x ← rd s v
    let s1 ← writes (2 * x) s
    pure (none, s1)
  else if s.a = K62_WRITEN then do
    let x ← rd s v
    let s1 ← writen x s
    pure (none, s1)
  else if s.a = K63_NEWLINE then pure (none, newline s)
  else if s.a = K64_NEWPAGE then pure (none, wrch ASC_FF s)
  else if s.a = K66_PACKSTRING then do
    let x ← rd s v
    let y ← rd s (v + 1)
    let r ← packstring x y s
    pure (none, { r.2 with a := r.1 })
  else if s.a = K67_UNPACKSTRING then do
    let x ← rd s v
    let y ← rd s (v + 1)
    let s1 ← unpackstring x y s
    pure (none, s1)
  else if s.a = K68_WRITED then do
    let x ← rd s v
    let y ← rd s (v + 1)
    let s1 ← writed x y s
    pure (none, s1)
  else if s.a = K70_READN then pure (none, { (readn s).2 with a := (readn s).1 })
  else if s.a = K75_WRITEHEX then do
    let x ← rd s v
    let y ← rd s (v + 1)
    pure (none, writehex x y s)
  else if s.a = K77_WRITEOCT then do
    let x ← rd s v
    let y ← rd s (v + 1)
    pure (none, writeoct x y s)
  else if s.a = K76_WRITEF then do
    let s1 ← writef v s
    pure (none, s1)
  else if s.a = K85_GETBYTE then do
    let x ← rd s v
    let y ← rd s (v + 1)
    let c ← rdb s (2 * x + y)
    pure (none, { s with a := c })
  else if s.a = K86_PUTBYTE then do
    let x ← rd s v
    let y ← rd s (v + 1)
    let z ← rd s (v + 2)
    let s1 ← wrb s (2 * x + y) z
    pure (none, s1)
  else halt STR_UNKNOWN_CALL s.a s

/-- The value of a C comparison: 1 when it holds, else 0. -/
def cbool (p : Bool) : Int := if p then 1 else 0

/-- The loop `for (; b--; v += 2) if (a == v[0]) { pc = v[1]; goto fetch; }` of the extended
opcode 23.  The bound is `b` as a `word`, the number of decrements that bring `b` to 0. -/
def switchLoop : Nat → Int → Machine → Res Machine
  | 0, _, s => if s.b ≠ 0 then Res.timeout else Res.ok { s with b := toShort (s.b - 1) }
  | k + 1, v, s =>
    if s.b ≠ 0 then do
      let s1 := { s with b := toShort (s.b - 1) }
      let x ← rd s1 v
      if s1.a = x then do
        let y ← rd s1 (v + 1)
        pure { s1 with pc := toWord y }
      else switchLoop k (v + 2) s1
    else Res.ok { s with b := toShort (s.b - 1) }

/-- The extended opcodes of function code `X`.  The operands of the shifts are promoted to
`int`, so a shift count from 0 to 31 is defined (from 16 on the result is 0 in 16 bits); the
`word` `d` is converted to the `short` parameter of `halt`. -/
def execX (s : Machine) : Res (Option Int × Machine) :=
  if s.d = 1 then do
    let x ← rd s s.a
    pure (none, { s with a := x })
  else if s.d = 2 then pure (none, { s with a := toShort (-s.a) })
  else if s.d = 3 then pure (none, { s with a := toShort (-s.a - 1) })
  else if s.d = 4 then do
    let x ← rd s (s.sp + 1)
    let y ← rd s s.sp
    pure (none, { s with pc := toWord x, sp := toWord y })
  else if s.d = 5 then pure (none, { s with a := toShort (s.b * s.a) })
  else if s.d = 6 then
    pure (none, if s.a ≠ 0 then { s with a := toShort (Int.tdiv s.b s.a) } else s)
  else if s.d = 7 then
    pure (none, if s.a ≠ 0 then { s with a := toShort (Int.tmod s.b s.a) } else s)
  else if s.d = 8 then pure (none, { s with a := toShort (s.b + s.a) })
  else if s.d = 9 then pure (none, { s with a := toShort (s.b - s.a) })
  else if s.d = 10 then pure (none, { s with a := toShort (-cbool (decide (s.b = s.a))) })
  else if s.d = 11 then pure (none, { s with a := toShort (-cbool (decide (s.b ≠ s.a))) })
  else if s.d = 12 then pure (none, { s with a := toShort (-cbool (decide (s.b < s.a))) })
  else if s.d = 13 then pure (none, { s with a := toShort (-cbool (decide (s.b ≥ s.a))) })
  else if s.d = 14 then pure (none, { s with a := toShort (-cbool (decide (s.b > s.a))) })
  else if s.d = 15 then pure (none, { s with a := toShort (-cbool (decide (s.b ≤ s.a))) })
  else if s.d = 16 then
    if 0 ≤ s.a ∧ s.a < 32 then pure (none, { s with a := toShort (s.b * 2 ^ s.a.toNat) })
    else Res.undef
  else if s.d = 17 then
    if 0 ≤ s.a ∧ s.a < 32 then pure (none, { s with a := toShort (toWord s.b / 2 ^ s.a.toNat) })
    else Res.undef
  else if s.d = 18 then pure (none, { s with a := bitop Nat.land s.b s.a })
  else if s.d = 19 then pure (none, { s with a := bitop Nat.lor s.b s.a })
  else if s.d = 20 then pure (none, { s with a := bitop Nat.xor s.b s.a })
  else if s.d = 21 then pure (none, { s with a := bitop Nat.xor s.b (-s.a - 1) })
  else if s.d = 22 then pure (some 0, s)
  else if s.d = 23 then do
    let x ← rd s s.pc
    let y ← rd s (s.pc + 1)
    let s1 ← switchLoop (toWord x).toNat (s.pc + 2) { s with b := x, pc := toWord y }
    pure (none, s1)
  else halt STR_UNKNOWN_EXEC (toShort s.d) s

/-- The `switch (w & F7_X)` of `interpret`, after `fetch`. -/
def exec (s : Machine) : Res (Option Int × Machine) :=
  if s.w % 8 = F0_L then pure (none, { s with b := s.a, a := toShort s.d })
  else if s.w % 8 = F1_S then do
    let s1 ← wr s s.d s.a
    pure (none, s1)
  else if s.w % 8 = F2_A then pure (none, { s with a := toShort (s.a + s.d) })
  else if s.w % 8 = F3_J then pure (none, { s with pc := s.d })
  else if s.w % 8 = F4_T then pure (none, if s.a ≠ 0 then { s with pc := s.d } else s)
  else if s.w % 8 = F5_F then pure (none, if s.a = 0 then { s with pc := s.d } else s)
  else if s.w % 8 = F6_K then
    let s := { s with d := toWord (s.d + s.sp) }
    if s.a < PROGSTART then syscall s
    else do
      let s1 ← wr s s.d s.sp
      let s2 ← wr s1 (s.d + 1) s.pc
      pure (none, { s2 with sp := s.d, pc := toWord s.a })
  else if s.w % 8 = F7_X then execX s
  else halt STR_INTCODE_ERROR_AT_PC (toShort s.pc) s

/-- One instruction: `fetch`, then the `switch`. -/
def step (s : Machine) : Res (Option Int × Machine) := do
  let s1 ← fetch s
  exec s1

/-- The loop of `interpret` from a given state, under a bound on the number of
instructions: the value `interpret` returns and the machine left. -/
def run : Nat → Machine → Res (Int × Machine)
  | 0, _ => Res.timeout
  | f + 1, s => do
    let r ← step s
    match r.1 with
    | some x => pure (x, r.2)
    | none => run f r.2

/-- The function `interpret`. -/
def interpret (fuel : Nat) (s : Machine) : Res (Int × Machine) :=
  run fuel { s with pc := toWord PROGSTART, sp := toWord s.lomem, a := 0, b := 0 }

/-- The function `init`, for the parts of it that concern `m` and `lomem` and the standard
streams (`STDIN_FILENO` is 0, `STDOUT_FILENO` is 1). -/
def init (s : Machine) : Res Machine := do
  let s := { s with m := fun i => if 0 ≤ i ∧ i < PROGSTART then i else s.m i,
                    lomem := PROGSTART }
  let s ← stw (bitop Nat.lor (orBit F0_L FI_BIT) (K01_START * 2 ^ FN_BITS)) s
  let s ← stw (bitop Nat.lor F6_K (2 * 2 ^ FN_BITS)) s
  let s ← stw (bitop Nat.lor F7_X (22 * 2 ^ FN_BITS)) s
  pure { s with cis := 1, sysin := 1, cos := 2, sysprint := 2 }

/-! ## Types of the registers -/

/-- The value is a `word`. -/
def isWord (x : Int) : Prop := 0 ≤ x ∧ x < 65536

/-- The value is a `short`. -/
def isShort (x : Int) : Prop := -32768 ≤ x ∧ x ≤ 32767

instance (x : Int) : Decidable (isWord x) :=
  inferInstanceAs (Decidable (0 ≤ x ∧ x < 65536))

instance (x : Int) : Decidable (isShort x) :=
  inferInstanceAs (Decidable (-32768 ≤ x ∧ x ≤ 32767))

/-- A machine with memory, registers and globals all zero and all streams empty: the state
of the statics of `icint.c` when the process starts. -/
def zeroMachine : Machine :=
  { m := fun _ => 0, lomem := 0, cis := 0, cos := 0, sysin := 0, sysprint := 0, cp := 0,
    ch := 0, pc := 0, sp := 0, a := 0, b := 0, w := 0, d := 0,
    inp := fun _ => [], out := fun _ => [] }

/-! ## Example machines -/

/-- A machine about to execute `K 2` at address 500 with `a = 450`, `sp = 600`. -/
def callDemo : Machine :=
  { zeroMachine with m := fun i => if i = 500 then 518 else 0, pc := 500, sp := 600, a := 450 }

/-- A machine about to execute `K 2` at address 500 with `a = 40` (APTOVEC), `sp = 600`, the
arguments `v[0] = 450` (the function) and `v[1] = k` at 604 and 605. -/
def aptovecDemo (k : Int) : Machine :=
  { zeroMachine with
    m := fun i => if i = 500 then 518 else if i = 604 then 450 else if i = 605 then k else 0,
    pc := 500, sp := 600, a := 40 }

/-- A machine about to execute `X d` at address 500 with the given `a` and `b`. -/
def xDemo (d a b : Int) : Machine :=
  { zeroMachine with m := fun i => if i = 500 then 7 + d * 256 else 0, pc := 500, sp := 600,
                     a := a, b := b }

/-- The comparison that the extended opcode `d` (10 .. 15) makes between `b` and `a`. -/
def cmpHolds (d b a : Int) : Prop :=
  if d = 10 then b = a else if d = 11 then b ≠ a else if d = 12 then b < a
  else if d = 13 then b ≥ a else if d = 14 then b > a else b ≤ a

instance (d b a : Int) : Decidable (cmpHolds d b a) :=
  inferInstanceAs (Decidable (if d = 10 then b = a else if d = 11 then b ≠ a
    else if d = 12 then b < a else if d = 13 then b ≥ a else if d = 14 then b > a else b ≤ a))

/-- A machine about to execute `K 2` at address 500 with `sp = 600` and accumulator `a`, the
arguments `p = 700`, `o`, `v` at 604, 605, 606 and the word `x` at address 700. -/
def byteDemo (a o v x : Int) : Machine :=
  { zeroMachine with
    m := fun i => if i = 500 then 518 else if i = 604 then 700 else if i = 605 then o
                  else if i = 606 then v else if i = 700 then x else 0,
    pc := 500, sp := 600, a := a }

/-- A machine with the unpacked string `3, 72, 73, 74` at addresses 700 .. 703. -/
def packDemo : Machine :=
  { zeroMachine with
    m := fun i => if i = 700 then 3 else if i = 701 then 72 else if i = 702 then 73
                  else if i = 703 then 74 else 0 }

/-- The byte at byte address `q` of a memory. -/
def getb (m : Int → Int) (q : Int) : Int := byteOf (m (q / 2)) (q % 2)

/-- The machine `s` with `cs` as what is left of its current input stream. -/
def withInput (cs : List Int) (s : Machine) : Machine :=
  { s with inp := upd s.inp (s.cis - 1) cs }

/-- The character is a decimal digit. -/
def isDigit (c : Int) : Prop := ASC_0 ≤ c ∧ c ≤ ASC_9

instance (c : Int) : Decidable (isDigit c) :=
  inferInstanceAs (Decidable (ASC_0 ≤ c ∧ c ≤ ASC_9))

/-- What follows a number in the input: the end of the stream or a character that is not a
digit. -/
def endsNumber (rest : List Int) : Prop :=
  match rest with
  | [] => True
  | c :: _ => ¬ isDigit c

/-- One turn of the digit loops of `readn`: `sum = sum * 10 + c - ASC_0`. -/
def addDigit (sum c : Int) : Int := toShort (sum * 10 + c - ASC_0)

/-- A sequence of `labref` calls for label `n`, from the addresses of a list in order. -/
def labrefs (n : Int) : List Int → Machine → Res Machine
  | [], s => Res.ok s
  | a :: as, s => labref n a s >>= labrefs n as

/-- The words of `l`, from `head` on, form a chain: each holds the address of the next and
the last holds 0. -/
def linked (m : Int → Int) (head : Int) : List Int → Prop
  | [] => head = 0
  | a :: rest => head = a ∧ linked m (m a) rest

/-- A machine with label slot 7 free, `lomem = 404` and the value `base` in word 1000. -/
def chainDemo (base : Int) : Machine :=
  { zeroMachine with m := fun i => if i = 1000 then base else 0, lomem := 404 }

/-- The state in which `loadcode` calls `assemble`: after `init`, with `cis` the handle of a
file (descriptor 3) that holds `text`. -/
def loading (text : List Int) : Res Machine := do
  let s ← init zeroMachine
  pure { s with cis := 4, inp := upd s.inp 3 text }

/-- What the assembler sees of a machine: memory `m`, `lomem = L`, `ch = c` and `rest` still
to be read from the current input stream. -/
def At (s : Machine) (m : Int → Int) (L c : Int) (rest : List Int) : Prop :=
  s.m = m ∧ s.lomem = L ∧ s.ch = c ∧ s.inp (s.cis - 1) = rest

/-- The character is one of the statement separators `$`, blank, line feed. -/
def isSep (c : Int) : Prop := c = ASC_DOLLAR ∨ c = ASC_SPACE ∨ c = ASC_LF

instance (c : Int) : Decidable (isSep c) :=
  inferInstanceAs (Decidable (c = ASC_DOLLAR ∨ c = ASC_SPACE ∨ c = ASC_LF))

/-- The memory after the definition of label `n` at `lomem = L` with the chain `l` pending. -/
def defined (m : Int → Int) (n L : Int) (l : List Int) : Int → Int :=
  fun x => if x = labv n then toShort (-L) else if x ∈ l then toShort L else m x

/-- The memory after an instruction of function code `n` with the numeric operand `d` is
emitted at `L`. -/
def emitted (m : Int → Int) (L n d : Int) : Int → Int :=
  if d % 256 = d then upd m L (toShort (bitop Nat.lor n (d * 256)))
  else upd (upd m L (toShort (orBit n FD_BIT))) (L + 1) (toShort d)

/-- The number of words of an instruction with the numeric operand `d`. -/
def instrWords (d : Int) : Int := if d % 256 = d then 1 else 2

/-- The case table of a switch, as the pairs (value, target) in the order of the table: the
words at `v`, `v + 1`, `v + 2`, ... hold the pairs of `tbl` one after the other. -/
def tableAt (m : Int → Int) (v : Int) : List (Int × Int) → Prop
  | [] => True
  | p :: t => m v = p.1 ∧ m (v + 1) = p.2 ∧ tableAt m (v + 2) t

/-- The target a switch is expected to select: that of the first pair whose value is `a`,
and the default target `dflt` when no pair has the value `a`. -/
def switchTarget (a dflt : Int) : List (Int × Int) → Int
  | [] => dflt
  | p :: t => if a = p.1 then p.2 else switchTarget a dflt t

/-- A machine about to run `X 23` at 500, with the table `3; 900; (5, 700); (7, 710);
(5, 720)` behind it and `a = 7`. -/
def switchDemo (a : Int) : Machine :=
  { zeroMachine with
    m := fun i => if i = 500 then 7 + 23 * 256 else if i = 501 then 3 else if i = 502 then 900
      else if i = 503 then 5 else if i = 504 then 700 else if i = 505 then 7
      else if i = 506 then 710 else if i = 507 then 5 else if i = 508 then 720 else 0,
    pc := 500, sp := 600, a := a }

/-- The instruction word at `pc`, as an unsigned 16-bit value. -/
def opWord (s : Machine) : Int := toWord (s.m s.pc)

/-- The raw displacement of the instruction at `pc`: the next word when `FD_BIT` is set,
else the high byte of the instruction word. -/
def rawDisp (s : Machine) : Int :=
  if hasBit (opWord s) FD_BIT then toWord (s.m (toWord (s.pc + 1))) else opWord s / 256

/-- The address just past the instruction at `pc` (one word, or two with `FD_BIT`). -/
def pastInstr (s : Machine) : Int :=
  if hasBit (opWord s) FD_BIT then toWord (toWord (s.pc + 1) + 1) else toWord (s.pc + 1)

/-- The raw displacement, plus `sp` (mod 2^16) when `FP_BIT` is set. -/
def spOperand (s : Machine) : Int :=
  if hasBit (opWord s) FP_BIT then toWord (rawDisp s + s.sp) else rawDisp s

/-- The effective operand: `spOperand`, replaced by the word it addresses when `FI_BIT` is
set. -/
def effOperand (s : Machine) : Int :=
  if hasBit (opWord s) FI_BIT then toWord (s.m (spOperand s)) else spOperand s

/-- The words the decoding of the instruction at `pc` reads are words of `m`. -/
def decodable (s : Machine) : Prop :=
  inMem s.pc ∧ (hasBit (opWord s) FD_BIT = true → inMem (toWord (s.pc + 1))) ∧
    (hasBit (opWord s) FI_BIT = true → inMem (spOperand s))

instance (s : Machine) : Decidable (decodable s) :=
  inferInstanceAs (Decidable (_ ∧ _ ∧ _))

/-- The machine after the decoding of the instruction at `pc`: `w`, `d` and `pc` are set. -/
def decoded (s : Machine) : Machine :=
  { s with w := opWord s, d := effOperand s, pc := pastInstr s }

/-- A machine about to run the instruction word `w` at 500, followed by the word 700; all
other words hold their own address plus 1; `sp = 600`, `a = 5`, `b = 9`. -/
def opDemo (w : Int) : Machine :=
  { zeroMachine with
    m := fun i => if i = 500 then w else if i = 501 then 700 else i + 1,
    pc := 500, sp := 600, a := 5, b := 9 }

/-- The flag letters after the letter of an instruction: `I`, then `P`. -/
def flagText (fi fp : Bool) : List Int :=
  (if fi then [ASC_I] else []) ++ (if fp then [ASC_P] else [])

/-- The function code with the flag bits of the flag letters or-ed in (`n |= FI_BIT`,
`n |= FP_BIT`). -/
def withFlags (n : Int) (fi fp : Bool) : Int :=
  if fp then orBit (if fi then orBit n FI_BIT else n) FP_BIT
  else (if fi then orBit n FI_BIT else n)

/-- The minus sign of a numeric operand, if it has one. -/
def signText (neg : Bool) : List Int := if neg then [ASC_MINUS] else []

/-- The value `rdn` reads from an optional minus sign and the digits `ds`. -/
def operand (neg : Bool) (ds : List Int) : Int :=
  if neg then toShort (-(ds.foldl addDigit 0)) else ds.foldl addDigit 0

/-- A machine in the middle of an assembly: `lomem = 404`, the character `c` in `ch` and
`text` still to be read from the input stream. -/
def asmDemo (c : Int) (text : List Int) : Machine :=
  { zeroMachine with lomem := 404, cis := 1, ch := c, inp := upd zeroMachine.inp 0 text }

/-- The outcome is not a halt. -/
def Res.noHalt {α : Type} : Res α → Prop
  | Res.halted _ _ _ => False
  | _ => True

/-- The numbers of the system calls that the `switch (a)` of function code `K` dispatches. -/
def dispatched : List Int :=
  [11, 12, 13, 14, 16, 17, 30, 31, 32, 40, 41, 42, 46, 47, 60, 62, 63, 64, 66, 67, 68, 70, 75,
    76, 77, 85, 86]

/-- A machine about to run `K 2` at 500 with the accumulator `a`; `sp = 600`. -/
def callTo (a : Int) : Machine :=
  { zeroMachine with m := fun i => if i = 500 then 518 else 0, pc := 500, sp := 600, a := a }

/-- The machine `interpret` starts from: `pc = PROGSTART`, `sp = lomem`, `a = b = 0`. -/
def entry (s : Machine) : Machine :=
  { s with pc := toWord PROGSTART, sp := toWord s.lomem, a := 0, b := 0 }

/-- An image with the bootstrap at 401 .. 403, a start routine at 404 that returns at once
(`X 4`), its address in the global slot 1 and `lomem = 405`. -/
def bootDemo : Machine :=
  { zeroMachine with
    m := fun i => if i = 1 then 404 else if 0 ≤ i ∧ i < 401 then i else if i = 401 then 264
      else if i = 402 then 518 else if i = 403 then 5639 else if i = 404 then 1031 else 0,
    lomem := 405 }

/-- The machine `t` is `s` after some reading: only `ch` and the input streams differ. -/
def reads (s t : Machine) : Prop := ∃ c i, t = { s with ch := c, inp := i }

/-- A machine at the digit `7` of a definition of label 7, `lomem = 410`, with the label
slot of 7 holding `k` and a reference to label 7 pending at 405. -/
def labelDemo (k : Int) : Machine :=
  { zeroMachine with
    m := fun i => if i = labv 7 then k else 0,
    lomem := 410, cis := 1, ch := 55, inp := upd zeroMachine.inp 0 [32], sysprint := 2 }

/-- The invariant of the emitting state of the assembler: `cp` is 0 or 1 and `lomem` is at
least the 404 that `init` leaves. -/
def asmInv (s : Machine) : Prop := (s.cp = 0 ∨ s.cp = 1) ∧ 404 ≤ s.lomem

instance (s : Machine) : Decidable (asmInv s) :=
  inferInstanceAs (Decidable (_ ∧ _))

/-- The machine `t` has the `lomem` and `cp` of `s`. -/
def keeps (s t : Machine) : Prop := t.lomem = s.lomem ∧ t.cp = s.cp

/-- The suffix letter `G` of an instruction, which the assembler skips. -/
def gText (fg : Bool) : List Int := if fg then [ASC_G] else []

/-- An instruction statement with a numeric operand: a function letter, the suffix letters
`I`, `P`, `G` it has, the minus sign and the digits of the operand (there may be none), and
the separators that follow, one at least. -/
structure Stmt where
  letter : Int
  fi : Bool
  fp : Bool
  fg : Bool
  neg : Bool
  digits : List Int
  sep : Int
  more : List Int

/-- The statement is well formed: a function letter, digits, separators. -/
def Stmt.ok (i : Stmt) : Prop :=
  (∃ n, fnCode i.letter = some n) ∧ (∀ c ∈ i.digits, isDigit c) ∧ isSep i.sep ∧
    ∀ c ∈ i.more, isSep c

/-- The characters of a statement. -/
def Stmt.text (i : Stmt) : List Int :=
  i.letter :: (flagText i.fi i.fp ++ (gText i.fg ++ (signText i.neg ++
    (i.digits ++ i.sep :: i.more))))

/-- The number of words a statement emits. -/
def Stmt.words (i : Stmt) : Int := instrWords (operand i.neg i.digits)

/-- The number of labels of `assemble` passed for a statement: `sw` for the instruction,
then `sw` and `next` for each separator. -/
def Stmt.steps (i : Stmt) : Nat := 3 + 2 * i.more.length

/-- The characters of a sequence of statements. -/
def stmtsText : List Stmt → List Int
  | [] => []
  | i :: is => i.text ++ stmtsText is

/-- The number of words a sequence of statements emits. -/
def stmtsWords : List Stmt → Int
  | [] => 0
  | i :: is => i.words + stmtsWords is

/-- The number of labels of `assemble` passed for a sequence of statements. -/
def stmtsSteps : List Stmt → Nat
  | [] => 0
  | i :: is => i.steps + stmtsSteps is

/-- The forward-reference input: `JL10`, a blank, a sequence of instruction statements with
numeric operands, and the tail `10 S 0 $`. -/
def forwardText (mid : List Stmt) : List Int :=
  cbytes "JL10 " ++ (stmtsText mid ++ cbytes "10 S 0 $")

@[simp] theorem Res.pure_eq {α : Type} (x : α) : (pure x : Res α) = Res.ok x := rfl

@[simp] theorem Res.ok_bind {α β : Type} (x : α) (f : α → Res β) :
    (Res.ok x >>= f) = f x := rfl

@[simp] theorem Res.undef_bind {α β : Type} (f : α → Res β) :
    (Res.undef >>= f) = Res.undef := rfl

@[simp] theorem Res.timeout_bind {α β : Type} (f : α → Res β) :
    (Res.timeout >>= f) = Res.timeout := rfl

@[simp] theorem Res.halted_bind {α β : Type} (msg : String) (n : Int) (s : Machine)
    (f : α → Res β) : (Res.halted msg n s >>= f) = Res.halted msg n s := rfl

@[simp] theorem Res.host_bind {α β : Type} (n : Int) (s : Machine) (f : α → Res β) :
    (Res.host n s >>= f) = Res.host n s := rfl

theorem Res.bind_eq_ok {α β : Type} {r : Res α} {f : α → Res β} {y : β} :
    (r >>= f) = Res.ok y ↔ ∃ x, r = Res.ok x ∧ f x = Res.ok y := by
  cases r <;> simp [bind, Res.bind]

theorem toWord_toShort (x : Int) : toWord (toShort x) = toWord x := by
  unfold toWord toShort; omega

theorem toShort_toWord (x : Int) : toShort (toWord x) = toShort x := by
  unfold toWord toShort; omega

theorem toWord_of_isWord {x : Int} (h : isWord x) : toWord x = x := by
  unfold isWord at h; unfold toWord; omega

theorem toShort_of_isShort {x : Int} (h : isShort x) : toShort x = x := by
  unfold isShort at h; unfold toShort; omega

theorem isWord_toWord (x : Int) : isWord (toWord x) := by
  unfold isWord toWord; omega

theorem isShort_toShort (x : Int) : isShort (toShort x) := by
  unfold isShort toShort; omega

@[simp] theorem upd_same {β : Type} (f : Int → β) (i : Int) (x : β) : upd f i x i = x := by
  simp [upd]

theorem upd_other {β : Type} (f : Int → β) {i j : Int} (x : β) (h : j ≠ i) :
    upd f i x j = f j := by
  simp [upd, h]

theorem rd_ok {s : Machine} {i : Int} (h : inMem i) : rd s i = Res.ok (s.m i) := by
  simp [rd, h]

theorem wr_ok {s : Machine} {i : Int} (x : Int) (h : inMem i) :
    wr s i x = Res.ok { s with m := upd s.m i (toShort x) } := by
  simp [wr, h]

/-- What `fetch` does: it sets `w`, `d` and `pc` and nothing else. -/
theorem fetch_shape {s s1 : Machine} (h : fetch s = Res.ok s1) :
    s1 = { s with w := s1.w, d := s1.d, pc := s1.pc } := by
  unfold fetch at h
  simp only [Res.bind_eq_ok, Res.pure_eq, Res.ok.injEq] at h
  obtain ⟨x, -, y, -, z, -, rfl⟩ := h
  rfl

theorem fetch_m {s s1 : Machine} (h : fetch s = Res.ok s1) : s1.m = s.m := by
  rw [fetch_shape h]

theorem fetch_sp {s s1 : Machine} (h : fetch s = Res.ok s1) : s1.sp = s.sp := by
  rw [fetch_shape h]

theorem fetch_a {s s1 : Machine} (h : fetch s = Res.ok s1) : s1.a = s.a := by
  rw [fetch_shape h]

theorem fetch_b {s s1 : Machine} (h : fetch s = Res.ok s1) : s1.b = s.b := by
  rw [fetch_shape h]

theorem fetch_pc_isWord {s s1 : Machine} (h : fetch s = Res.ok s1) : isWord s1.pc := by
  unfold fetch at h
  simp only [Res.bind_eq_ok, Res.pure_eq, Res.ok.injEq] at h
  obtain ⟨x, -, y, -, z, -, rfl⟩ := h
  show isWord (if _ then _ else _)
  split <;> exact isWord_toWord _

theorem step_eq_exec {s s1 : Machine} (hf : fetch s = Res.ok s1) : step s = exec s1 := by
  simp only [step, hf, Res.ok_bind]

/-- The `K` instruction with `a ≥ PROGSTART`: the call frame. -/
theorem exec_call {s1 : Machine} (hk : s1.w % 8 = F6_K)
    (ha : PROGSTART ≤ s1.a) (hd : inMem (toWord (s1.d + s1.sp)))
    (hd1 : inMem (toWord (s1.d + s1.sp) + 1)) :
    exec s1 = Res.ok (none,
      { s1 with
        m := upd (upd s1.m (toWord (s1.d + s1.sp)) (toShort s1.sp))
          (toWord (s1.d + s1.sp) + 1) (toShort s1.pc),
        d := toWord (s1.d + s1.sp), sp := toWord (s1.d + s1.sp), pc := toWord s1.a }) := by
  simp only [PROGSTART] at ha
  have hna : ¬ s1.a < 401 := by omega
  unfold exec
  rw [hk]
  simp [hna, wr, hd, hd1]

/-- The instruction `X 4`: the return. -/
theorem exec_return {t1 : Machine} (hx : t1.w % 8 = F7_X)
    (h4 : t1.d = 4) (h0 : inMem t1.sp) (h1 : inMem (t1.sp + 1)) :
    exec t1 = Res.ok (none,
      { t1 with pc := toWord (t1.m (t1.sp + 1)), sp := toWord (t1.m t1.sp) }) := by
  unfold exec
  rw [hx]
  simp [execX, h4, rd, h0, h1]

/-! ## C3: call and return -/

/-- C3. A `K` instruction executed with `a ≥ PROGSTART` and effective frame address
`d = (displacement + sp) mod 2^16` (`d` and `d + 1` inside memory) stores the old `sp` at
`m[d]` and the address of the next instruction at `m[d + 1]` (as 16-bit words) and sets
`sp = d`, `pc = a`; and `X 4` executed in any state that has `sp = d` and the same two link
words restores `sp` and `pc` to the old `sp` and to the address after the `K`. -/
theorem call_return_round_trip (s s1 : Machine)
    (hf : fetch s = Res.ok s1) (hk : s1.w % 8 = F6_K)
    (ha : PROGSTART ≤ s.a) (hsa : isShort s.a) (hsp : isWord s.sp)
    (hd : inMem (toWord (s1.d + s.sp))) (hd1 : inMem (toWord (s1.d + s.sp) + 1)) :
    ∃ s2, step s = Res.ok (none, s2) ∧
      toWord (s2.m (toWord (s1.d + s.sp))) = s.sp ∧
      toWord (s2.m (toWord (s1.d + s.sp) + 1)) = s1.pc ∧
      s2.sp = toWord (s1.d + s.sp) ∧ s2.pc = s.a ∧
      ∀ t t1 : Machine, fetch t = Res.ok t1 → t1.w % 8 = F7_X → t1.d = 4 →
        t.sp = s2.sp → t.m s2.sp = s2.m s2.sp → t.m (s2.sp + 1) = s2.m (s2.sp + 1) →
        ∃ t2, step t = Res.ok (none, t2) ∧ t2.sp = s.sp ∧ t2.pc = s1.pc := by
  have hpc := fetch_pc_isWord hf
  have hne : toWord (s1.d + s.sp) ≠ toWord (s1.d + s.sp) + 1 := by omega
  have hwa : toWord s.a = s.a := by
    simp only [PROGSTART] at ha; unfold isShort at hsa; unfold toWord; omega
  have e0 : toWord (upd (upd s.m (toWord (s1.d + s.sp)) (toShort s.sp))
      (toWord (s1.d + s.sp) + 1) (toShort s1.pc) (toWord (s1.d + s.sp))) = s.sp := by
    rw [upd_other _ _ hne, upd_same, toWord_toShort, toWord_of_isWord hsp]
  have e1 : toWord (upd (upd s.m (toWord (s1.d + s.sp)) (toShort s.sp))
      (toWord (s1.d + s.sp) + 1) (toShort s1.pc) (toWord (s1.d + s.sp) + 1)) = s1.pc := by
    rw [upd_same, toWord_toShort, toWord_of_isWord hpc]
  have hsp1 : s1.sp = s.sp := fetch_sp hf
  have ha1 : s1.a = s.a := fetch_a hf
  have hm1 : s1.m = s.m := fetch_m hf
  refine ⟨_, (step_eq_exec hf).trans (exec_call hk (ha1 ▸ ha) (hsp1 ▸ hd) (hsp1 ▸ hd1)), ?_, ?_, ?_,
    ?_, ?_⟩
  · simpa only [hsp1, hm1] using e0
  · simpa only [hsp1, hm1] using e1
  · simp only [hsp1]
  · simp only [ha1, hwa]
  intro t t1 htf hx h4 htsp hm0 hm1'
  simp only [hsp1, hm1] at htsp hm0 hm1'
  have htsp1 : t1.sp = t.sp := fetch_sp htf
  have htm : t1.m = t.m := fetch_m htf
  refine ⟨_, (step_eq_exec htf).trans (exec_return hx h4
    (by rw [htsp1, htsp]; exact hd) (by rw [htsp1, htsp]; exact hd1)), ?_, ?_⟩
  · show toWord (t1.m t1.sp) = s.sp
    rw [htm, htsp1, htsp, hm0]; exact e0
  · show toWord (t1.m (t1.sp + 1)) = s1.pc
    rw [htm, htsp1, htsp, hm1']; exact e1

/-- Witness of C3: `K 2` at address 500 with `a = 450`, `sp = 600`. -/
theorem call_return_round_trip_witness :
    ∃ s2, step callDemo = Res.ok (none, s2) ∧
      toWord (s2.m 602) = 600 ∧ toWord (s2.m 603) = 501 ∧ s2.sp = 602 ∧ s2.pc = 450 ∧
      ∀ t t1 : Machine, fetch t = Res.ok t1 → t1.w % 8 = F7_X → t1.d = 4 →
        t.sp = s2.sp → t.m s2.sp = s2.m s2.sp → t.m (s2.sp + 1) = s2.m (s2.sp + 1) →
        ∃ t2, step t = Res.ok (none, t2) ∧ t2.sp = 600 ∧ t2.pc = 501 :=
  call_return_round_trip callDemo { callDemo with w := 518, d := 2, pc := 501 }
      rfl (by decide) (by decide) (by decide) (by decide) (by decide) (by decide)

/-! ## C4, C5: APTOVEC -/

/-- The `K` instruction with `a < PROGSTART`: the system calls. -/
theorem exec_syscall {s1 : Machine} (hk : s1.w % 8 = F6_K) (ha : s1.a < PROGSTART) :
    exec s1 = syscall { s1 with d := toWord (s1.d + s1.sp) } := by
  simp only [PROGSTART] at ha
  unfold exec
  rw [hk]
  simp [ha]

/-- The system call 40 with every address it touches inside memory. -/
theorem syscall_aptovec {s : Machine} (ha : s.a = K40_APTOVEC)
    (h2 : inMem (s.d + 2)) (h3 : inMem (s.d + 3))
    (hb : inMem (toShort (s.d + s.m (s.d + 3) + 1)))
    (hb3 : inMem (toShort (s.d + s.m (s.d + 3) + 1) + 3)) :
    ∃ m3 m4, 
      m3 = upd (upd (upd s.m (toShort (s.d + s.m (s.d + 3) + 1)) (toShort s.sp))
            (toShort (s.d + s.m (s.d + 3) + 1) + 1) (toShort s.pc))
            (toShort (s.d + s.m (s.d + 3) + 1) + 2) (toShort s.d) ∧
      m4 = upd m3 (toShort (s.d + s.m (s.d + 3) + 1) + 3) (toShort (m3 (s.d + 3))) ∧
      syscall s = Res.ok (none,
        { s with m := m4, b := toShort (s.d + s.m (s.d + 3) + 1),
                 sp := toWord (toShort (s.d + s.m (s.d + 3) + 1)),
                 pc := toWord (m4 (s.d + 2)) }) := by
  have hb1 : inMem (toShort (s.d + s.m (s.d + 3) + 1) + 1) := by
    unfold inMem at *; omega
  have hb2 : inMem (toShort (s.d + s.m (s.d + 3) + 1) + 2) := by
    unfold inMem at *; omega
  have e3 : s.d + 2 + 1 = s.d + 3 := by ring
  refine ⟨_, _, rfl, rfl, ?_⟩
  unfold syscall
  simp [ha, aptovec, rd, wr, h2, h3, hb, hb1, hb2, hb3, e3]

/-- The unwinding of APTOVEC, stated on the machine after `fetch`. -/
theorem aptovec_unwind_exec (s1 : Machine) (hk : s1.w % 8 = F6_K)
    (ha : s1.a = K40_APTOVEC) (hsp : isWord s1.sp) (hpc : isWord s1.pc)
    (h2 : inMem (toWord (s1.d + s1.sp) + 2)) (h3 : inMem (toWord (s1.d + s1.sp) + 3))
    (hb : inMem (toShort (toWord (s1.d + s1.sp) + s1.m (toWord (s1.d + s1.sp) + 3) + 1)))
    (hb3 : inMem (toShort (toWord (s1.d + s1.sp) + s1.m (toWord (s1.d + s1.sp) + 3) + 1) + 3)) :
    ∃ s2, exec s1 = Res.ok (none, s2) ∧
      ∀ t t1 : Machine, fetch t = Res.ok t1 → t1.w % 8 = F7_X → t1.d = 4 →
        t.sp = s2.sp → t.m s2.sp = s2.m s2.sp → t.m (s2.sp + 1) = s2.m (s2.sp + 1) →
        ∃ t2, step t = Res.ok (none, t2) ∧ t2.sp = s1.sp ∧ t2.pc = s1.pc := by
  have hlt : s1.a < PROGSTART := by rw [ha]; decide
  obtain ⟨m3, m4, e3, e4, hs⟩ := syscall_aptovec (s := { s1 with d := toWord (s1.d + s1.sp) })
    ha h2 h3 hb hb3
  simp only at e3 e4 hs
  generalize hB : toShort (toWord (s1.d + s1.sp) + s1.m (toWord (s1.d + s1.sp) + 3) + 1) = B
    at e3 e4 hs hb hb3
  have hBw : toWord B = B := by
    unfold inMem at hb; unfold toWord; simp only [WORDCOUNT] at hb; omega
  have n1 : B ≠ B + 1 := by omega
  have n2 : B ≠ B + 2 := by omega
  have n3 : B ≠ B + 3 := by omega
  have n12 : B + 1 ≠ B + 2 := by omega
  have n13 : B + 1 ≠ B + 3 := by omega
  have e0 : toWord (m4 B) = s1.sp := by
    rw [e4, upd_other _ _ n3, e3, upd_other _ _ n2, upd_other _ _ n1, upd_same, toWord_toShort,
      toWord_of_isWord hsp]
  have e1 : toWord (m4 (B + 1)) = s1.pc := by
    rw [e4, upd_other _ _ n13, e3, upd_other _ _ n12, upd_same, toWord_toShort,
      toWord_of_isWord hpc]
  have hb1 : inMem (B + 1) := by unfold inMem at *; omega
  refine ⟨_, (exec_syscall hk hlt).trans hs, ?_⟩
  intro t t1 htf hx h4 htsp hm0 hm1'
  simp only [hBw] at htsp hm0 hm1'
  have htsp1 : t1.sp = t.sp := fetch_sp htf
  have htm : t1.m = t.m := fetch_m htf
  refine ⟨_, (step_eq_exec htf).trans (exec_return hx h4
    (by rw [htsp1, htsp]; exact hb) (by rw [htsp1, htsp]; exact hb1)), ?_, ?_⟩
  · show toWord (t1.m t1.sp) = s1.sp
    rw [htm, htsp1, htsp, hm0]; exact e0
  · show toWord (t1.m (t1.sp + 1)) = s1.pc
    rw [htm, htsp1, htsp, hm1']; exact e1

/-- C4. When `K` is executed with `a = 40` (APTOVEC) and every address it touches inside
memory, `X 4` executed in the state produced, or in any state with the same `sp` and the same
two link words `m[sp]`, `m[sp + 1]`, sets `sp` and `pc` to the values they had when the call
was dispatched: the caller's `sp` and the address of the instruction after the `K`.  (The
vector size need not be nonnegative for this.) -/
theorem aptovec_unwind (s s1 : Machine) (hf : fetch s = Res.ok s1) (hk : s1.w % 8 = F6_K)
    (ha : s.a = K40_APTOVEC) (hsp : isWord s.sp)
    (h2 : inMem (toWord (s1.d + s.sp) + 2)) (h3 : inMem (toWord (s1.d + s.sp) + 3))
    (hb : inMem (toShort (toWord (s1.d + s.sp) + s.m (toWord (s1.d + s.sp) + 3) + 1)))
    (hb3 : inMem (toShort (toWord (s1.d + s.sp) + s.m (toWord (s1.d + s.sp) + 3) + 1) + 3)) :
    ∃ s2, step s = Res.ok (none, s2) ∧
      ∀ t t1 : Machine, fetch t = Res.ok t1 → t1.w % 8 = F7_X → t1.d = 4 →
        t.sp = s2.sp → t.m s2.sp = s2.m s2.sp → t.m (s2.sp + 1) = s2.m (s2.sp + 1) →
        ∃ t2, step t = Res.ok (none, t2) ∧ t2.sp = s.sp ∧ t2.pc = s1.pc := by
  rw [step_eq_exec hf]
  rw [← fetch_sp hf] at hsp h2 h3 hb hb3 ⊢
  rw [← fetch_m hf] at hb hb3
  rw [← fetch_a hf] at ha
  exact aptovec_unwind_exec s1 hk ha hsp (fetch_pc_isWord hf) h2 h3 hb hb3

/-- Witness of C4: APTOVEC at address 500 with `sp = 600` and vector size 0. -/
theorem aptovec_unwind_witness :
    ∃ s2, step (aptovecDemo 0) = Res.ok (none, s2) ∧
      ∀ t t1 : Machine, fetch t = Res.ok t1 → t1.w % 8 = F7_X → t1.d = 4 →
        t.sp = s2.sp → t.m s2.sp = s2.m s2.sp → t.m (s2.sp + 1) = s2.m (s2.sp + 1) →
        ∃ t2, step t = Res.ok (none, t2) ∧ t2.sp = 600 ∧ t2.pc = 501 :=
  aptovec_unwind (aptovecDemo 0) { aptovecDemo 0 with w := 518, d := 2, pc := 501 }
    rfl (by decide) (by decide) (by decide) (by decide) (by decide) (by decide) (by decide)


/-- C5, at vector size 0.  With `d = 602`, `f = 450`, `k = 0` the new frame is at
`b' = 603` and its link words cover the arguments: the step leaves `pc = 501` (the return
address, not `f = 450`) and `m[b' + 3] = 602` (the value of `d`, not `k = 0`). -/
theorem aptovec_small_vector :
    (step (aptovecDemo 0)).get?.map
        (fun r => (r.2.sp, r.2.pc, r.2.m 603, r.2.m 604, r.2.m 605, r.2.m 606))
      = some (603, 501, 600, 501, 602, 602) := by
  decide

/-- The effect of APTOVEC for a vector size of 3 or more, stated on the machine after `fetch`. -/
theorem aptovec_effect_exec (s1 : Machine) (hk : s1.w % 8 = F6_K)
    (ha : s1.a = K40_APTOVEC) (hsp : isWord s1.sp) (hpc : isWord s1.pc)
    (h3k : 3 ≤ s1.m (toWord (s1.d + s1.sp) + 3))
    (hb3 : inMem (toWord (s1.d + s1.sp) + s1.m (toWord (s1.d + s1.sp) + 3) + 1 + 3)) :
    ∃ s2, exec s1 = Res.ok (none, s2) ∧
      toWord (s2.m (toWord (s1.d + s1.sp) + s1.m (toWord (s1.d + s1.sp) + 3) + 1)) = s1.sp ∧
      toWord (s2.m (toWord (s1.d + s1.sp) + s1.m (toWord (s1.d + s1.sp) + 3) + 1 + 1)) = s1.pc ∧
      s2.m (toWord (s1.d + s1.sp) + s1.m (toWord (s1.d + s1.sp) + 3) + 1 + 2)
        = toWord (s1.d + s1.sp) ∧
      s2.m (toWord (s1.d + s1.sp) + s1.m (toWord (s1.d + s1.sp) + 3) + 1 + 3)
        = s1.m (toWord (s1.d + s1.sp) + 3) ∧
      s2.sp = toWord (s1.d + s1.sp) + s1.m (toWord (s1.d + s1.sp) + 3) + 1 ∧
      s2.pc = toWord (s1.m (toWord (s1.d + s1.sp) + 2)) := by
  have hlt : s1.a < PROGSTART := by rw [ha]; decide
  have hD : 0 ≤ toWord (s1.d + s1.sp) := by unfold toWord; omega
  generalize hDe : toWord (s1.d + s1.sp) = D at *
  generalize hke : s1.m (D + 3) = k at *
  simp only [inMem, WORDCOUNT] at hb3
  have hB : toShort (D + k + 1) = D + k + 1 := by unfold toShort; omega
  obtain ⟨m3, m4, e3, e4, hs⟩ := syscall_aptovec (s := { s1 with d := toWord (s1.d + s1.sp) })
    ha (by simp only [hDe, inMem, WORDCOUNT]; omega) (by simp only [hDe, inMem, WORDCOUNT]; omega)
    (by simp only [hDe, hke, hB, inMem, WORDCOUNT]; omega)
    (by simp only [hDe, hke, hB, inMem, WORDCOUNT]; omega)
  simp only [hDe, hke, hB] at e3 e4 hs
  have hm3 : m3 (D + 3) = k := by
    rw [e3, upd_other _ _ (by omega), upd_other _ _ (by omega), upd_other _ _ (by omega), hke]
  have hkS : toShort k = k := by unfold toShort; omega
  have hDS : toShort D = D := by unfold toShort; omega
  have hBw : toWord (D + k + 1) = D + k + 1 := by unfold toWord; omega
  have hx := exec_syscall hk hlt
  rw [hDe] at hx
  refine ⟨_, hx.trans hs, ?_, ?_, ?_, ?_, hBw, ?_⟩
  · show toWord (m4 (D + k + 1)) = s1.sp
    rw [e4, upd_other _ _ (by omega), e3, upd_other _ _ (by omega), upd_other _ _ (by omega),
      upd_same, toWord_toShort, toWord_of_isWord hsp]
  · show toWord (m4 (D + k + 1 + 1)) = s1.pc
    rw [e4, upd_other _ _ (by omega), e3, upd_other _ _ (by omega), upd_same, toWord_toShort,
      toWord_of_isWord hpc]
  · show m4 (D + k + 1 + 2) = D
    rw [e4, upd_other _ _ (by omega), e3, upd_same, hDS]
  · show m4 (D + k + 1 + 3) = k
    rw [e4, upd_same, hm3, hkS]
  · show toWord (m4 (D + 2)) = toWord (s1.m (D + 2))
    rw [e4, upd_other _ _ (by omega), e3, upd_other _ _ (by omega), upd_other _ _ (by omega),
      upd_other _ _ (by omega)]

/-- The effect of APTOVEC for a vector size `k ≥ 3`, where the new frame lies past the
arguments: with `d` the effective frame address, `f = m[d + 2]`, `k = m[d + 3]` and
`b' = d + k + 1`, the step leaves `m[b'] = sp`, `m[b' + 1] = pc` (as 16-bit words),
`m[b' + 2] = d`, `m[b' + 3] = k`, `sp = b'` and `pc = f`. -/
theorem aptovec_effect (s s1 : Machine) (hf : fetch s = Res.ok s1) (hk : s1.w % 8 = F6_K)
    (ha : s.a = K40_APTOVEC) (hsp : isWord s.sp)
    (h3k : 3 ≤ s.m (toWord (s1.d + s.sp) + 3))
    (hb3 : inMem (toWord (s1.d + s.sp) + s.m (toWord (s1.d + s.sp) + 3) + 1 + 3)) :
    ∃ s2, step s = Res.ok (none, s2) ∧
      toWord (s2.m (toWord (s1.d + s.sp) + s.m (toWord (s1.d + s.sp) + 3) + 1)) = s.sp ∧
      toWord (s2.m (toWord (s1.d + s.sp) + s.m (toWord (s1.d + s.sp) + 3) + 1 + 1)) = s1.pc ∧
      s2.m (toWord (s1.d + s.sp) + s.m (toWord (s1.d + s.sp) + 3) + 1 + 2)
        = toWord (s1.d + s.sp) ∧
      s2.m (toWord (s1.d + s.sp) + s.m (toWord (s1.d + s.sp) + 3) + 1 + 3)
        = s.m (toWord (s1.d + s.sp) + 3) ∧
      s2.sp = toWord (s1.d + s.sp) + s.m (toWord (s1.d + s.sp) + 3) + 1 ∧
      s2.pc = toWord (s.m (toWord (s1.d + s.sp) + 2)) := by
  rw [step_eq_exec hf]
  rw [← fetch_sp hf] at hsp h3k hb3 ⊢
  rw [← fetch_m hf] at h3k hb3 ⊢
  rw [← fetch_a hf] at ha
  exact aptovec_effect_exec s1 hk ha hsp (fetch_pc_isWord hf) h3k hb3

/-- APTOVEC at address 500 with `sp = 600` and vector size 3. -/
theorem aptovec_effect_witness :
    ∃ s2, step (aptovecDemo 3) = Res.ok (none, s2) ∧
      toWord (s2.m 606) = 600 ∧ toWord (s2.m 607) = 501 ∧ s2.m 608 = 602 ∧ s2.m 609 = 3 ∧
      s2.sp = 606 ∧ s2.pc = 450 :=
  aptovec_effect (aptovecDemo 3) { aptovecDemo 3 with w := 518, d := 2, pc := 501 }
    rfl (by decide) (by decide) (by decide) (by decide) (by decide)

/-! ## C9: comparisons -/

/-- C9. For every `a`, `b` and every extended opcode `d` in 10 .. 15, executing `X d` sets
the accumulator to -1 when `b R a` holds (`R` being `==`, `!=`, `<`, `>=`, `>`, `<=` in that
order, on the signed values) and to 0 otherwise; the result is 0 or -1. -/
theorem comparison_truth_value (s s1 : Machine) (hf : fetch s = Res.ok s1)
    (hx : s1.w % 8 = F7_X) (hd : 10 ≤ s1.d ∧ s1.d ≤ 15) :
    ∃ s2, step s = Res.ok (none, s2) ∧
      (cmpHolds s1.d s.b s.a → s2.a = -1) ∧ (¬ cmpHolds s1.d s.b s.a → s2.a = 0) ∧
      (s2.a = 0 ∨ s2.a = -1) := by
  rw [step_eq_exec hf, ← fetch_a hf, ← fetch_b hf]
  obtain ⟨h1, h2⟩ := hd
  have hc : s1.d = 10 ∨ s1.d = 11 ∨ s1.d = 12 ∨ s1.d = 13 ∨ s1.d = 14 ∨ s1.d = 15 := by omega
  unfold exec
  rw [hx]
  rcases hc with h | h | h | h | h | h <;>
    simp only [h, execX, cmpHolds, cbool, toShort] <;>
    refine ⟨_, by simp; rfl, ?_⟩ <;> simp <;> split_ifs <;> simp_all


/-- Witness of C9: `X 12` with `b = 3`, `a = 5`. -/
theorem comparison_truth_value_witness :
    ∃ s2, step (xDemo 12 5 3) = Res.ok (none, s2) ∧
      (cmpHolds 12 3 5 → s2.a = -1) ∧ (¬ cmpHolds 12 3 5 → s2.a = 0) ∧
      (s2.a = 0 ∨ s2.a = -1) :=
  comparison_truth_value (xDemo 12 5 3) { xDemo 12 5 3 with w := 3079, d := 12, pc := 501 }
    rfl (by decide) (by decide)

/-! ## C10: division and remainder -/

theorem neg_tmod (x y : Int) : Int.tmod (-x) y = - Int.tmod x y := by
  rw [Int.tmod_def, Int.tmod_def, Int.neg_tdiv]; ring

/-- The remainder of the division truncated toward zero: smaller than the divisor in absolute
value, with the sign of the dividend. -/
theorem tmod_facts (b a : Int) (ha : a ≠ 0) :
    |Int.tmod b a| < |a| ∧ (0 ≤ b → 0 ≤ Int.tmod b a) ∧ (b ≤ 0 → Int.tmod b a ≤ 0) := by
  have key : ∀ x y : Int, 0 ≤ x → 0 < y → 0 ≤ Int.tmod x y ∧ Int.tmod x y < y :=
    fun x y hx hy => ⟨Int.tmod_nonneg y hx, Int.tmod_lt_of_pos x hy⟩
  have hz : b = 0 → Int.tmod b a = 0 := fun h => by rw [h, Int.zero_tmod]
  rcases lt_or_gt_of_ne ha with h | h <;> rcases le_total 0 b with hb | hb
  · have := key b (-a) hb (by omega)
    rw [Int.tmod_neg] at this
    rw [abs_of_nonneg this.1, abs_of_neg h]
    exact ⟨this.2, fun _ => this.1, fun h0 => by rw [hz (by omega)]⟩
  · have := key (-b) (-a) (by omega) (by omega)
    rw [Int.tmod_neg, neg_tmod] at this
    rw [abs_of_nonpos (by omega), abs_of_neg h]
    exact ⟨by omega, fun h0 => by rw [hz (by omega)], fun _ => by omega⟩
  · have := key b a hb h
    rw [abs_of_nonneg this.1, abs_of_pos h]
    exact ⟨this.2, fun _ => this.1, fun h0 => by rw [hz (by omega)]⟩
  · have := key (-b) a (by omega) h
    rw [neg_tmod] at this
    rw [abs_of_nonpos (by omega), abs_of_pos h]
    exact ⟨by omega, fun h0 => by rw [hz (by omega)], fun _ => by omega⟩

/-- C10. Executing `X 6` or `X 7` with `a = 0` leaves `a`, `b`, `sp` and memory unchanged
and goes on at the next instruction; with `a ≠ 0` it sets `a` to the quotient of `b` by `a`
truncated toward zero (`X 6`) or to the remainder `b - a * quotient` (`X 7`), reduced to 16
bits.  The last part characterises the truncated quotient: the remainder is smaller than `a`
in absolute value and has the sign of `b`. -/
theorem guarded_division (s s1 : Machine) (hf : fetch s = Res.ok s1)
    (hx : s1.w % 8 = F7_X) (hd : s1.d = 6 ∨ s1.d = 7) :
    ∃ s2, step s = Res.ok (none, s2) ∧
      s2.b = s.b ∧ s2.sp = s.sp ∧ s2.m = s.m ∧ s2.pc = s1.pc ∧
      (s.a = 0 → s2.a = s.a) ∧
      (s.a ≠ 0 → s1.d = 6 → s2.a = toShort (Int.tdiv s.b s.a)) ∧
      (s.a ≠ 0 → s1.d = 7 → s2.a = toShort (s.b - s.a * Int.tdiv s.b s.a)) ∧
      (s.a ≠ 0 → |s.b - s.a * Int.tdiv s.b s.a| < |s.a| ∧
        (0 ≤ s.b → 0 ≤ s.b - s.a * Int.tdiv s.b s.a) ∧
        (s.b ≤ 0 → s.b - s.a * Int.tdiv s.b s.a ≤ 0)) := by
  rw [step_eq_exec hf, ← fetch_a hf, ← fetch_b hf, ← fetch_sp hf, ← fetch_m hf]
  have hmod : s1.b - s1.a * Int.tdiv s1.b s1.a = Int.tmod s1.b s1.a := by
    have := Int.tmod_add_tdiv s1.b s1.a
    omega
  rw [hmod]
  have hchar : s1.a ≠ 0 → |Int.tmod s1.b s1.a| < |s1.a| ∧
      (0 ≤ s1.b → 0 ≤ Int.tmod s1.b s1.a) ∧ (s1.b ≤ 0 → Int.tmod s1.b s1.a ≤ 0) := by
    intro ha
    exact tmod_facts s1.b s1.a ha
  unfold exec
  rw [hx]
  rcases hd with h | h
  · by_cases ha : s1.a = 0
    · exact ⟨s1, by simp [h, execX, ha], rfl, rfl, rfl, rfl, fun _ => rfl, fun h0 => absurd ha h0,
        fun h0 => absurd ha h0, fun h0 => absurd ha h0⟩
    · exact ⟨{ s1 with a := toShort (Int.tdiv s1.b s1.a) }, by simp [h, execX, ha], rfl, rfl, rfl,
        rfl, fun h0 => absurd h0 ha, fun _ _ => rfl, fun _ h7 => by omega, hchar⟩
  · by_cases ha : s1.a = 0
    · exact ⟨s1, by simp [h, execX, ha], rfl, rfl, rfl, rfl, fun _ => rfl, fun h0 => absurd ha h0,
        fun h0 => absurd ha h0, fun h0 => absurd ha h0⟩
    · exact ⟨{ s1 with a := toShort (Int.tmod s1.b s1.a) }, by simp [h, execX, ha], rfl, rfl, rfl,
        rfl, fun h0 => absurd h0 ha, fun _ h6 => by omega, fun _ _ => rfl, hchar⟩

/-- Witness of C10: `X 6` with `b = -32768`, `a = -1` leaves `a = -32768`. -/
theorem guarded_division_witness :
    ∃ s2, step (xDemo 6 (-1) (-32768)) = Res.ok (none, s2) ∧ s2.b = -32768 ∧ s2.pc = 501 ∧
      s2.a = -32768 := by
  obtain ⟨s2, h, hb, -, -, hpc, -, h6, -, -⟩ := guarded_division (xDemo 6 (-1) (-32768))
    { xDemo 6 (-1) (-32768) with w := 1543, d := 6, pc := 501 } rfl (by decide) (by decide)
  exact ⟨s2, h, hb, hpc, by rw [h6 (by decide) rfl]; decide⟩

/-- Division by zero evaluated: `X 6` with `b = 5`, `a = 0` leaves `a = 0`, `b = 5` and goes
on at the next instruction. -/
theorem divide_by_zero_kept :
    (step (xDemo 6 0 5)).get?.map (fun r => (r.1, r.2.a, r.2.b, r.2.pc))
      = some (none, 0, 5, 501) := by
  decide

/-! ## C7: bytes -/

theorem byteOf_withByte (w j c : Int) (hj : j = 0 ∨ j = 1) (hc : 0 ≤ c ∧ c < 256) :
    byteOf (withByte w j c) j = c := by
  unfold byteOf withByte toShort toWord
  rcases hj with h | h <;> simp only [h] <;> norm_num <;> omega

theorem byteOf_withByte_other (w j c : Int) (hj : j = 0 ∨ j = 1) (hc : 0 ≤ c ∧ c < 256) :
    byteOf (withByte w j c) (1 - j) = byteOf w (1 - j) := by
  unfold byteOf withByte toShort toWord
  rcases hj with h | h <;> simp only [h] <;> norm_num <;> omega

theorem byteOf_range (w j : Int) : 0 ≤ byteOf w j ∧ byteOf w j < 256 := by
  unfold byteOf toWord
  split <;> omega

/-- The system call 86 (PUTBYTE) with its arguments and the byte inside memory. -/
theorem syscall_putbyte {s : Machine} (p o v : Int) (ha : s.a = K86_PUTBYTE)
    (h2 : inMem (s.d + 2)) (h3 : inMem (s.d + 3)) (h4 : inMem (s.d + 4))
    (hp : s.m (s.d + 2) = p) (ho : s.m (s.d + 3) = o) (hv : s.m (s.d + 4) = v)
    (ho01 : o = 0 ∨ o = 1) (hpm : inMem p) :
    syscall s = Res.ok (none, { s with m := upd s.m p (withByte (s.m p) o (toByte v)) }) := by
  have e3 : s.d + 2 + 1 = s.d + 3 := by ring
  have e4 : s.d + 2 + 2 = s.d + 4 := by ring
  have ew : (2 * p + o) / 2 = p := by omega
  have eb : (2 * p + o) % 2 = o := by omega
  unfold syscall
  simp [ha, rd, wrb, h2, h3, h4, e3, e4, hp, ho, hv, ew, eb, hpm]

/-- The system call 85 (GETBYTE) with its arguments and the byte inside memory. -/
theorem syscall_getbyte {s : Machine} (p o : Int) (ha : s.a = K85_GETBYTE)
    (h2 : inMem (s.d + 2)) (h3 : inMem (s.d + 3))
    (hp : s.m (s.d + 2) = p) (ho : s.m (s.d + 3) = o)
    (ho01 : o = 0 ∨ o = 1) (hpm : inMem p) :
    syscall s = Res.ok (none, { s with a := byteOf (s.m p) o }) := by
  have e3 : s.d + 2 + 1 = s.d + 3 := by ring
  have ew : (2 * p + o) / 2 = p := by omega
  have eb : (2 * p + o) % 2 = o := by omega
  unfold syscall
  simp [ha, rd, rdb, h2, h3, e3, hp, ho, ew, eb, hpm]

/-- The byte round trip, stated on the machines after `fetch`. -/
theorem byte_round_trip_exec (s1 t1 : Machine) (p o v : Int)
    (hk : s1.w % 8 = F6_K) (ha : s1.a = K86_PUTBYTE)
    (h2 : inMem (toWord (s1.d + s1.sp) + 2)) (h3 : inMem (toWord (s1.d + s1.sp) + 3))
    (h4 : inMem (toWord (s1.d + s1.sp) + 4))
    (hp : s1.m (toWord (s1.d + s1.sp) + 2) = p) (ho : s1.m (toWord (s1.d + s1.sp) + 3) = o)
    (hv : s1.m (toWord (s1.d + s1.sp) + 4) = v)
    (hor : 0 ≤ o ∧ o < BYTESPERWORD) (hpm : inMem p)
    (hk' : t1.w % 8 = F6_K) (ha' : t1.a = K85_GETBYTE)
    (h2' : inMem (toWord (t1.d + t1.sp) + 2)) (h3' : inMem (toWord (t1.d + t1.sp) + 3))
    (hp' : t1.m (toWord (t1.d + t1.sp) + 2) = p) (ho' : t1.m (toWord (t1.d + t1.sp) + 3) = o) :
    ∃ s2, exec s1 = Res.ok (none, s2) ∧
      (t1.m p = s2.m p →
        ∃ t2, exec t1 = Res.ok (none, t2) ∧ t2.a = v % 256 ∧ 0 ≤ t2.a ∧ t2.a ≤ 255) := by
  simp only [BYTESPERWORD] at hor
  have ho01 : o = 0 ∨ o = 1 := by omega
  have hs := syscall_putbyte (s := { s1 with d := toWord (s1.d + s1.sp) }) p o v ha h2 h3 h4
    hp ho hv ho01 hpm
  have ht := syscall_getbyte (s := { t1 with d := toWord (t1.d + t1.sp) }) p o ha' h2' h3'
    hp' ho' ho01 hpm
  refine ⟨_, (exec_syscall hk (by rw [ha]; decide)).trans hs, ?_⟩
  intro hm
  simp only [upd_same] at hm
  refine ⟨_, (exec_syscall hk' (by rw [ha']; decide)).trans ht, ?_, ?_⟩
  · show byteOf (t1.m p) o = v % 256
    rw [hm, byteOf_withByte _ _ _ ho01 (by unfold toByte; omega)]
    rfl
  · show 0 ≤ byteOf (t1.m p) o ∧ byteOf (t1.m p) o ≤ 255
    have := byteOf_range (t1.m p) o
    omega

/-- C7. System call 86 PUTBYTE(p, o, v) with `o` in `[0, 2)` and word `p` inside memory,
followed by system call 85 GETBYTE(p, o) in any state where the word at `p` is still what
PUTBYTE left (and whose arguments are `p` and `o`), leaves the accumulator equal to
`v & 0xFF`, a value in 0 .. 255. -/
theorem byte_round_trip (s s1 t t1 : Machine) (p o v : Int)
    (hf : fetch s = Res.ok s1) (hk : s1.w % 8 = F6_K) (ha : s.a = K86_PUTBYTE)
    (h2 : inMem (toWord (s1.d + s.sp) + 2)) (h3 : inMem (toWord (s1.d + s.sp) + 3))
    (h4 : inMem (toWord (s1.d + s.sp) + 4))
    (hp : s.m (toWord (s1.d + s.sp) + 2) = p) (ho : s.m (toWord (s1.d + s.sp) + 3) = o)
    (hv : s.m (toWord (s1.d + s.sp) + 4) = v)
    (hor : 0 ≤ o ∧ o < BYTESPERWORD) (hpm : inMem p)
    (hf' : fetch t = Res.ok t1) (hk' : t1.w % 8 = F6_K) (ha' : t.a = K85_GETBYTE)
    (h2' : inMem (toWord (t1.d + t.sp) + 2)) (h3' : inMem (toWord (t1.d + t.sp) + 3))
    (hp' : t.m (toWord (t1.d + t.sp) + 2) = p) (ho' : t.m (toWord (t1.d + t.sp) + 3) = o) :
    ∃ s2, step s = Res.ok (none, s2) ∧
      (t.m p = s2.m p →
        ∃ t2, step t = Res.ok (none, t2) ∧ t2.a = v % 256 ∧ 0 ≤ t2.a ∧ t2.a ≤ 255) := by
  rw [step_eq_exec hf, step_eq_exec hf']
  rw [← fetch_sp hf] at h2 h3 h4 hp ho hv
  rw [← fetch_m hf] at hp ho hv
  rw [← fetch_a hf] at ha
  rw [← fetch_sp hf'] at h2' h3' hp' ho'
  rw [← fetch_m hf'] at hp' ho' ⊢
  rw [← fetch_a hf'] at ha'
  exact byte_round_trip_exec s1 t1 p o v hk ha h2 h3 h4 hp ho hv hor hpm hk' ha' h2' h3' hp' ho'

/-- Witness of C7: PUTBYTE(700, 1, 0x1234) then GETBYTE(700, 1) gives 0x34. -/
theorem byte_round_trip_witness :
    ∃ s2 t2, step (byteDemo 86 1 4660 0) = Res.ok (none, s2) ∧
      step (byteDemo 85 1 4660 (s2.m 700)) = Res.ok (none, t2) ∧ t2.a = 52 := by
  have e : (step (byteDemo 86 1 4660 0)).get?.map (fun r => r.2.m 700) = some 13312 := by
    decide
  obtain ⟨s2, h, himp⟩ := byte_round_trip (byteDemo 86 1 4660 0)
    { byteDemo 86 1 4660 0 with w := 518, d := 2, pc := 501 }
    (byteDemo 85 1 4660 13312) { byteDemo 85 1 4660 13312 with w := 518, d := 2, pc := 501 }
    700 1 4660 rfl (by decide) (by decide) (by decide) (by decide) (by decide) (by decide)
    (by decide) (by decide) (by decide) (by decide) rfl (by decide) (by decide) (by decide)
    (by decide) (by decide) (by decide)
  rw [h] at e
  have e' : s2.m 700 = 13312 := by simpa [Res.get?] using e
  obtain ⟨t2, ht, ha, -⟩ := himp (by rw [e']; decide)
  exact ⟨s2, t2, h, by rw [e']; exact ht, by rw [ha]; decide⟩

/-! ## C8: packed strings -/

theorem getb_upd_withByte (m : Int → Int) (p q c : Int) (hc : 0 ≤ c ∧ c < 256) :
    getb (upd m (p / 2) (withByte (m (p / 2)) (p % 2) c)) q = if q = p then c else getb m q := by
  unfold getb
  have hp : p % 2 = 0 ∨ p % 2 = 1 := by omega
  by_cases hw : q / 2 = p / 2
  · rw [hw, upd_same]
    by_cases hb : q % 2 = p % 2
    · have : q = p := by omega
      rw [if_pos this, hb, byteOf_withByte _ _ _ hp hc]
    · have hne : q ≠ p := fun h => hb (by rw [h])
      have : q % 2 = 1 - p % 2 := by omega
      rw [if_neg hne, this, byteOf_withByte_other _ _ _ hp hc]
  · have hne : q ≠ p := fun h => hw (by rw [h])
    rw [upd_other _ _ hw, if_neg hne]

theorem toByte_range (x : Int) : 0 ≤ toByte x ∧ toByte x < 256 := by
  unfold toByte; omega

/-- The copying loop of `packstring`: it sets `k` bytes from byte address `p` on to the low
bytes of the words from `v` on, and leaves every other byte and word alone. -/
theorem packLoop_spec (k : Nat) : ∀ (v p : Int) (st : Machine),
    (∀ i : Nat, i < k → inMem (v + i)) → (∀ i : Nat, i < k → inMem ((p + i) / 2)) →
    (∀ i j : Nat, i < k → j < k → v + i ≠ (p + j) / 2) →
    ∃ st', packLoop k v p st = Res.ok st' ∧
      (∀ q, getb st'.m q
        = if p ≤ q ∧ q < p + k then toByte (st.m (v + (q - p))) else getb st.m q) ∧
      (∀ a, (∀ j : Nat, j < k → a ≠ (p + j) / 2) → st'.m a = st.m a) := by
  induction k with
  | zero =>
    intro v p st _ _ _
    refine ⟨st, rfl, fun q => ?_, fun a _ => rfl⟩
    rw [if_neg (by omega)]
  | succ k ih =>
    intro v p st hv hp hd
    have hv0 : inMem v := by simpa using hv 0 (by omega)
    have hp0 : inMem (p / 2) := by simpa using hp 0 (by omega)
    obtain ⟨st', h, hb, hf⟩ := ih (v + 1) (p + 1)
      { st with m := upd st.m (p / 2) (withByte (st.m (p / 2)) (p % 2) (toByte (st.m v))) }
      (fun i hi => by have := hv (i + 1) (by omega); push_cast at this; rwa [add_assoc, add_comm 1])
      (fun i hi => by have := hp (i + 1) (by omega); push_cast at this; rwa [add_assoc, add_comm 1])
      (fun i j hi hj => by
        have := hd (i + 1) (j + 1) (by omega) (by omega); push_cast at this; omega)
    refine ⟨st', ?_, fun q => ?_, fun a ha => ?_⟩
    · simp only [packLoop, rd, wrb, hv0, hp0, if_true, Res.ok_bind]
      exact h
    · rw [hb q]
      simp only [getb_upd_withByte _ _ _ _ (toByte_range _)]
      by_cases h1 : p + 1 ≤ q ∧ q < p + 1 + k
      · have hne : v + 1 + (q - (p + 1)) ≠ p / 2 := by
          have := hd (q - p).toNat 0 (by omega) (by omega)
          have e : ((q - p).toNat : Int) = q - p := by omega
          rw [e] at this; simp at this; omega
        rw [if_pos h1, if_pos (by push_cast; omega), upd_other _ _ hne]
        congr 2; ring
      · rw [if_neg h1]
        by_cases h2 : q = p
        · rw [if_pos h2, if_pos (by push_cast; omega), h2]; simp
        · rw [if_neg h2, if_neg (by push_cast; omega)]
    · rw [hf a (fun j hj => by have := ha (j + 1) (by omega); push_cast at this; omega)]
      exact upd_other _ _ (by have := ha 0 (by omega); simpa using this)

/-- The copying loop of `unpackstring`: it sets `k` words from `v` on to the bytes from byte
address `p` on, and leaves every other word alone. -/
theorem unpackLoop_spec (k : Nat) : ∀ (p v : Int) (st : Machine),
    (∀ i : Nat, i < k → inMem ((p + i) / 2)) → (∀ i : Nat, i < k → inMem (v + i)) →
    (∀ i j : Nat, i < k → j < k → v + i ≠ (p + j) / 2) →
    ∃ st', unpackLoop k p v st = Res.ok st' ∧
      (∀ i : Nat, i < k → st'.m (v + i) = getb st.m (p + i)) ∧
      (∀ a, (∀ j : Nat, j < k → a ≠ v + j) → st'.m a = st.m a) := by
  induction k with
  | zero =>
    intro p v st _ _ _
    exact ⟨st, rfl, fun i hi => absurd hi (by omega), fun a _ => rfl⟩
  | succ k ih =>
    intro p v st hp hv hd
    have hv0 : inMem v := by simpa using hv 0 (by omega)
    have hp0 : inMem (p / 2) := by simpa using hp 0 (by omega)
    have hc := byteOf_range (st.m (p / 2)) (p % 2)
    have hcs : toShort (byteOf (st.m (p / 2)) (p % 2)) = byteOf (st.m (p / 2)) (p % 2) := by
      unfold toShort; omega
    obtain ⟨st', h, hb, hf⟩ := ih (p + 1) (v + 1)
      { st with m := upd st.m v (toShort (byteOf (st.m (p / 2)) (p % 2))) }
      (fun i hi => by have := hp (i + 1) (by omega); push_cast at this; rwa [add_assoc, add_comm 1])
      (fun i hi => by have := hv (i + 1) (by omega); push_cast at this; rwa [add_assoc, add_comm 1])
      (fun i j hi hj => by
        have := hd (i + 1) (j + 1) (by omega) (by omega); push_cast at this; omega)
    refine ⟨st', ?_, fun i hi => ?_, fun a ha => ?_⟩
    · simp only [unpackLoop, rdb, wr, hv0, hp0, if_true, Res.ok_bind]
      exact h
    · rcases Nat.eq_zero_or_pos i with h0 | h0
      · subst h0
        simp only [Nat.cast_zero, add_zero]
        rw [hf v (fun j _ => by omega)]
        simp only [upd_same, hcs, getb]
      · obtain ⟨i', rfl⟩ : ∃ i', i = i' + 1 := ⟨i - 1, by omega⟩
        have := hb i' (by omega)
        push_cast
        rw [show v + (↑i' + 1) = v + 1 + ↑i' by ring, this]
        unfold getb
        have hne : (p + 1 + ↑i') / 2 ≠ v := by
          have := hd 0 (i' + 1) (by omega) (by omega); push_cast at this
          intro h'; apply this; simp; rw [← h']; congr 1; ring
        simp only [upd_other _ _ hne]
        rw [show p + (↑i' + 1) = p + 1 + ↑i' by ring]
    · rw [hf a (fun j hj => by have := ha (j + 1) (by omega); push_cast at this; omega)]
      exact upd_other _ _ (by have := ha 0 (by omega); simpa using this)

/-- C8. For every length `L` in 0 .. 255 and every vector `v` in memory with `v[0] = L` and
`v[1 .. L]` each in 0 .. 255, `packstring(v, s)` into a region `s` (words `0 .. L / 2`)
disjoint from `v` returns `L / 2`, and `unpackstring(s, v')`, run in any state that has the
words of `s` as `packstring` left them, into a region `v'` disjoint from `s`, yields
`v'[i] = v[i]` for every `i` in `0 .. L`. -/
theorem pack_unpack_round_trip (st : Machine) (v sw v' L : Int)
    (hL : st.m v = L) (hLr : 0 ≤ L ∧ L ≤ 255)
    (hbytes : ∀ i, 1 ≤ i → i ≤ L → 0 ≤ st.m (v + i) ∧ st.m (v + i) ≤ 255)
    (hv : inMem v ∧ inMem (v + L)) (hs : inMem sw ∧ inMem (sw + L / 2))
    (hv' : inMem v' ∧ inMem (v' + L))
    (hvs : ∀ i j, 0 ≤ i → i ≤ L → 0 ≤ j → j ≤ L / 2 → v + i ≠ sw + j)
    (hv's : ∀ i j, 0 ≤ i → i ≤ L → 0 ≤ j → j ≤ L / 2 → v' + i ≠ sw + j) :
    ∃ st1, packstring v sw st = Res.ok (L / 2, st1) ∧
      ∀ t : Machine, (∀ j, 0 ≤ j → j ≤ L / 2 → t.m (sw + j) = st1.m (sw + j)) →
        ∃ t', unpackstring sw v' t = Res.ok t' ∧
          ∀ i, 0 ≤ i → i ≤ L → t'.m (v' + i) = st.m (v + i) := by
  simp only [inMem, WORDCOUNT] at hv hs hv'
  have hLb : toByte L = L := by unfold toByte; omega
  have hnb : toByte (L / 2) = L / 2 := by unfold toByte; omega
  have hrange : ∀ i, 0 ≤ i → i ≤ L → toByte (st.m (v + i)) = st.m (v + i) := by
    intro i h0 h1
    rcases eq_or_lt_of_le h0 with h | h
    · rw [← h, add_zero, hL, hLb]
    · have := hbytes i (by omega) h1
      unfold toByte; omega
  obtain ⟨st1, hpk, hb, -⟩ := packLoop_spec (L.toNat + 1) v (2 * sw)
    { st with m := upd st.m (sw + L / 2) (toShort 0) }
    (fun i hi => by simp only [inMem, WORDCOUNT]; omega)
    (fun i hi => by simp only [inMem, WORDCOUNT]; omega)
    (fun i j hi hj => by
      have := hvs i ((j : Int) / 2) (by omega) (by omega) (by omega) (by omega)
      omega)
  have hbyte : ∀ i, 0 ≤ i → i ≤ L → getb st1.m (2 * sw + i) = st.m (v + i) := by
    intro i h0 h1
    rw [hb, if_pos (by push_cast; omega)]
    have hne : v + (2 * sw + i - 2 * sw) ≠ sw + L / 2 := by
      have := hvs i (L / 2) h0 h1 (by omega) (by omega)
      intro h'; apply this; rw [← h']; ring
    simp only [upd_other _ _ hne]
    rw [show v + (2 * sw + i - 2 * sw) = v + i by ring]
    exact hrange i h0 h1
  refine ⟨st1, ?_, ?_⟩
  · simp only [packstring, rd, wr, inMem, WORDCOUNT, hv, hL, hLb, hnb, hs, BYTESPERWORD,
      and_self, if_true, Res.ok_bind, Res.pure_eq]
    rw [hpk]
    rfl
  · intro t ht
    have htb : ∀ i, 0 ≤ i → i ≤ L → getb t.m (2 * sw + i) = st.m (v + i) := by
      intro i h0 h1
      rw [← hbyte i h0 h1]
      unfold getb
      have e : (2 * sw + i) / 2 = sw + i / 2 := by omega
      rw [e, ht (i / 2) (by omega) (by omega)]
    obtain ⟨t', hup, hw, -⟩ := unpackLoop_spec (L.toNat + 1) (2 * sw) v' t
      (fun i hi => by simp only [inMem, WORDCOUNT]; omega)
      (fun i hi => by simp only [inMem, WORDCOUNT]; omega)
      (fun i j hi hj => by
        have := hv's i ((j : Int) / 2) (by omega) (by omega) (by omega) (by omega)
        omega)
    have hl : byteOf (t.m sw) 0 = L := by
      have := htb 0 (by omega) (by omega)
      simp only [add_zero, getb] at this
      have e : 2 * sw / 2 = sw := by omega
      have e2 : 2 * sw % 2 = 0 := by omega
      rw [e, e2, hL] at this
      exact this
    refine ⟨t', ?_, ?_⟩
    · have e : 2 * sw / 2 = sw := by omega
      have e2 : 2 * sw % 2 = 0 := by omega
      simp only [unpackstring, rdb, e, e2, inMem, WORDCOUNT, hs, and_self, if_true, Res.ok_bind,
        hl]
      exact hup
    · intro i h0 h1
      have := hw i.toNat (by omega)
      have e : ((i.toNat : Nat) : Int) = i := by omega
      rw [e] at this
      rw [this, htb i h0 h1]


/-- Witness of C8: the string `3, 72, 73, 74` at 700 packed to 800 and unpacked to 900. -/
theorem pack_unpack_round_trip_witness :
    ∃ st1, packstring 700 800 packDemo = Res.ok (1, st1) ∧
      ∃ t', unpackstring 800 900 st1 = Res.ok t' ∧
        t'.m 900 = 3 ∧ t'.m 901 = 72 ∧ t'.m 902 = 73 ∧ t'.m 903 = 74 := by
  obtain ⟨st1, h1, h2⟩ := pack_unpack_round_trip packDemo 700 800 900 3 rfl (by decide)
    (fun i h1 h2 => by
      have : i = 1 ∨ i = 2 ∨ i = 3 := by omega
      rcases this with rfl | rfl | rfl <;> decide)
    (by decide) (by decide) (by decide)
    (fun i j _ _ _ _ => by omega) (fun i j _ _ _ _ => by omega)
  obtain ⟨t', h3, h4⟩ := h2 st1 (fun _ _ _ => rfl)
  exact ⟨st1, h1, t', h3, h4 0 (by decide) (by decide), h4 1 (by decide) (by decide),
    h4 2 (by decide) (by decide), h4 3 (by decide) (by decide)⟩

/-! ## C6: signed decimal output and input -/

/-- The digit loop of `writed` on `n` from 0 to 32767: the decimal digits of `n`, lowest first,
which read back highest first give `n`. -/
theorem writedDigits_spec (j : Nat) : ∀ (room : Nat) (n : Int) (p : List Int),
    j ≤ room → 0 ≤ n → n ≤ 32767 → n < 10 ^ (j + 1) →
    ∃ ds, writedDigits (room + 1) n p = some (p ++ ds) ∧ ds ≠ [] ∧ ds.length ≤ j + 1 ∧
      (∀ c ∈ ds, isDigit c) ∧ ds.foldr (fun c acc => addDigit acc c) 0 = n := by
  induction j with
  | zero =>
    intro room n p _ h0 h1 h2
    have hq : Int.tdiv n 10 = 0 := by rw [Int.tdiv_eq_ediv h0 (by omega)]; omega
    have hr : Int.tmod n 10 = n := by rw [Int.tmod_eq_emod h0 (by omega)]; omega
    refine ⟨[n + 48], ?_, by simp, by simp, ?_, ?_⟩
    · simp [writedDigits, hq, hr]
    · intro c hc; simp at hc; subst hc; simp [isDigit]; omega
    · simp [addDigit, toShort]; omega
  | succ j ih =>
    intro room n p hjr h0 h1 h2
    obtain ⟨room, rfl⟩ : ∃ r, room = r + 1 := ⟨room - 1, by omega⟩
    have hq : Int.tdiv n 10 = n / 10 := Int.tdiv_eq_ediv h0 (by omega)
    have hr : Int.tmod n 10 = n % 10 := Int.tmod_eq_emod h0 (by omega)
    by_cases hz : n / 10 = 0
    · refine ⟨[n % 10 + 48], ?_, by simp, by simp, ?_, ?_⟩
      · rw [writedDigits]; simp [hq, hr, hz]
      · intro c hc; simp at hc; subst hc; simp [isDigit]; omega
      · simp [addDigit, toShort]; omega
    · obtain ⟨ds, h, hne, hlen, hd, hv⟩ := ih room (n / 10) (p ++ [n % 10 + 48]) (by omega)
        (by omega) (by omega) (by rw [pow_succ] at h2; omega)
      refine ⟨(n % 10 + 48) :: ds, ?_, by simp, by simp; omega, ?_, ?_⟩
      · rw [writedDigits]; simp only [hq, hr, ASC_0, ne_eq, hz, not_false_eq_true, if_true]
        rw [h]; simp
      · intro c hc
        rcases List.mem_cons.mp hc with rfl | hc
        · simp [isDigit]; omega
        · exact hd c hc
      · rw [List.foldr_cons, hv]; simp only [addDigit, toShort, ASC_0]; omega

theorem wrch_out (c : Int) (s : Machine) (hc : 0 ≤ c ∧ c < 256) :
    (wrch c s).out = upd s.out (s.cos - 1) (s.out (s.cos - 1) ++ [c]) ∧
      (wrch c s).cos = s.cos := by
  have e : toByte c = c := by unfold toByte; omega
  unfold wrch
  rw [e]
  split
  · next h => simp only [ASC_LF] at h; subst h; exact ⟨rfl, rfl⟩
  · exact ⟨rfl, rfl⟩

/-- A sequence of `wrch` calls appends its bytes to the current output stream. -/
theorem wrchs_out (cs : List Int) : ∀ s : Machine, (∀ c ∈ cs, 0 ≤ c ∧ c < 256) →
    (wrchs cs s).out (s.cos - 1) = s.out (s.cos - 1) ++ cs ∧ (wrchs cs s).cos = s.cos := by
  induction cs with
  | nil => intro s _; simp [wrchs]
  | cons c cs ih =>
    intro s h
    obtain ⟨h1, h2⟩ := wrch_out c s (h c (List.mem_cons_self _ _))
    obtain ⟨h3, h4⟩ := ih (wrch c s) (fun x hx => h x (List.mem_cons_of_mem _ hx))
    rw [h2] at h3 h4
    refine ⟨?_, by simpa [wrchs] using h4⟩
    simp only [wrchs, h3, h1, upd_same, List.append_assoc, List.singleton_append]

theorem rdch_cons (s : Machine) (c : Int) (r : List Int) (h : s.inp (s.cis - 1) = c :: r)
    (hc : c ≠ ASC_CR) :
    rdch s = (c, { s with inp := upd s.inp (s.cis - 1) r }) := by
  unfold rdch
  rw [h]
  simp only [if_neg hc]

theorem rdch_ends (s : Machine) (rest : List Int) (h : s.inp (s.cis - 1) = rest)
    (hr : endsNumber rest) : ¬ isDigit (rdch s).1 := by
  unfold rdch
  rw [h]
  cases rest with
  | nil => simp [isDigit]
  | cons c r =>
    simp only [endsNumber] at hr
    simp only
    split
    · simp [isDigit]
    · exact hr

theorem readnDigits_stop (k : Nat) (sum c : Int) (s : Machine) (h : ¬ isDigit c) :
    readnDigits k sum c s = (sum, c, s) := by
  unfold isDigit at h
  cases k with
  | zero => rfl
  | succ k => simp only [readnDigits, ge_iff_le, h, if_false]

/-- The digit loop of `readn` on a run of digits followed by the end of the number. -/
theorem readnDigits_spec (tl : List Int) : ∀ (k : Nat) (sum c : Int) (s : Machine)
    (rest : List Int),
    isDigit c → (∀ x ∈ tl, isDigit x) → endsNumber rest → s.inp (s.cis - 1) = tl ++ rest →
    tl.length < k →
    (readnDigits k sum c s).1 = (c :: tl).foldl addDigit sum := by
  induction tl with
  | nil =>
    intro k sum c s rest hc _ hr hs hk
    obtain ⟨k, rfl⟩ : ∃ k', k = k' + 1 := ⟨k - 1, by simp at hk; omega⟩
    have hc' := hc
    unfold isDigit at hc'
    simp only [readnDigits, ge_iff_le, hc', and_self, if_true]
    rw [readnDigits_stop _ _ _ _ (rdch_ends s rest (by simpa using hs) hr)]
    rfl
  | cons x tl ih =>
    intro k sum c s rest hc htl hr hs hk
    obtain ⟨k, rfl⟩ : ∃ k', k = k' + 1 := ⟨k - 1, by simp at hk; omega⟩
    have hc' := hc
    unfold isDigit at hc'
    have hx : isDigit x := htl x (List.mem_cons_self _ _)
    have hx13 : x ≠ ASC_CR := by unfold isDigit at hx; simp only [ASC_0, ASC_9] at hx; simp; omega
    simp only [readnDigits, ge_iff_le, hc', and_self, if_true]
    rw [rdch_cons s x (tl ++ rest) (by simpa using hs) hx13]
    rw [ih k _ x _ rest hx (fun y hy => htl y (List.mem_cons_of_mem _ hy)) hr (by simp)
      (by simp at hk; omega)]
    rfl

theorem readnSkip_nonblank (k : Nat) (s : Machine)
    (h : ¬ ((rdch s).1 = ASC_SPACE ∨ (rdch s).1 = ASC_LF ∨ (rdch s).1 = ASC_TAB)) :
    readnSkip k s = rdch s := by
  cases k with
  | zero => rfl
  | succ k => simp only [readnSkip, h, if_false]

theorem withInput_inp (cs : List Int) (t : Machine) :
    (withInput cs t).inp ((withInput cs t).cis - 1) = cs := by
  simp [withInput]

/-- The function `readn` on an unsigned run of digits. -/
theorem readn_digits (c : Int) (tl rest : List Int) (t : Machine)
    (hc : isDigit c) (htl : ∀ x ∈ tl, isDigit x) (hr : endsNumber rest) :
    (readn (withInput (c :: tl ++ rest) t)).1 = (c :: tl).foldl addDigit 0 := by
  have hc' := hc
  simp only [isDigit, ASC_0, ASC_9] at hc'
  have h1 := rdch_cons (withInput (c :: tl ++ rest) t) c (tl ++ rest)
    (by rw [withInput_inp]; rfl) (by simp; omega)
  have hnb : ¬ ((rdch (withInput (c :: tl ++ rest) t)).1 = ASC_SPACE ∨
      (rdch (withInput (c :: tl ++ rest) t)).1 = ASC_LF ∨
      (rdch (withInput (c :: tl ++ rest) t)).1 = ASC_TAB) := by
    rw [h1]; simp; omega
  have hm : ¬ (c = 45) := by omega
  have hp : ¬ (c = 43) := by omega
  unfold readn
  simp only [readnSkip_nonblank _ _ hnb, h1, ASC_MINUS, ASC_PLUS, hm, hp, decide_False,
    Bool.false_eq_true, or_self, if_false]
  rw [readnDigits_spec tl _ 0 c _ rest hc htl hr (by simp)
    (by rw [withInput_inp]; simp only [List.length_cons, List.length_append]; omega)]

/-- The function `readn` on a minus sign and a run of digits. -/
theorem readn_minus_digits (c : Int) (tl rest : List Int) (t : Machine)
    (hc : isDigit c) (htl : ∀ x ∈ tl, isDigit x) (hr : endsNumber rest) :
    (readn (withInput (ASC_MINUS :: (c :: tl ++ rest)) t)).1
      = toShort (-(c :: tl).foldl addDigit 0) := by
  have hc' := hc
  simp only [isDigit, ASC_0, ASC_9] at hc'
  have h0 := rdch_cons (withInput (ASC_MINUS :: (c :: tl ++ rest)) t) ASC_MINUS (c :: tl ++ rest)
    (by rw [withInput_inp]) (by decide)
  have hnb : ¬ ((rdch (withInput (ASC_MINUS :: (c :: tl ++ rest)) t)).1 = ASC_SPACE ∨
      (rdch (withInput (ASC_MINUS :: (c :: tl ++ rest)) t)).1 = ASC_LF ∨
      (rdch (withInput (ASC_MINUS :: (c :: tl ++ rest)) t)).1 = ASC_TAB) := by
    rw [h0]; simp
  unfold readn
  simp only [readnSkip_nonblank _ _ hnb, h0, decide_True, true_or, if_true]
  rw [rdch_cons _ c (tl ++ rest) (by simp [withInput]) (by simp; omega)]
  simp only
  rw [readnDigits_spec tl _ 0 c _ rest hc htl hr (by simp [withInput])
    (by rw [withInput_inp]; simp only [List.length_cons, List.length_append]; omega)]


/-- The characters of `writen(n)` for `n` from 0 to 32767: its decimal digits. -/
theorem writedChars_nonneg (n : Int) (h0 : 0 ≤ n) (h1 : n ≤ 32767) :
    ∃ c tl, writedChars n 0 = some (c :: tl) ∧ isDigit c ∧ (∀ x ∈ tl, isDigit x) ∧
      (c :: tl).foldl addDigit 0 = n := by
  obtain ⟨ds, h, hne, hlen, hd, hv⟩ := writedDigits_spec 4 31 n [] (by omega) h0 h1 (by omega)
  have hrev : ds.reverse ≠ [] := by simpa using hne
  obtain ⟨c, tl, hct⟩ := List.exists_cons_of_ne_nil hrev
  have hneg : ¬ n < 0 := by omega
  have hpad : (toShort (0 - (ds.length : Int))).toNat = 0 := by
    have : 1 ≤ ds.length := List.length_pos.mpr hne
    unfold toShort; omega
  refine ⟨c, tl, ?_, ?_, ?_, ?_⟩
  · simp only [writedChars, hneg, decide_False, Bool.false_eq_true, if_false, h, List.nil_append,
      false_and, hpad, List.replicate_zero, hct]
  · exact hd c (by rw [← List.mem_reverse, hct]; exact List.mem_cons_self _ _)
  · intro x hx
    exact hd x (by rw [← List.mem_reverse, hct]; exact List.mem_cons_of_mem _ hx)
  · rw [← hct, List.foldl_reverse]; exact hv

/-- The characters of `writen(n)` for `n` from -32767 to -1: a minus sign and the decimal
digits of `-n`. -/
theorem writedChars_neg (n : Int) (h0 : -32767 ≤ n) (h1 : n < 0) :
    ∃ c tl, writedChars n 0 = some (ASC_MINUS :: c :: tl) ∧ isDigit c ∧ (∀ x ∈ tl, isDigit x) ∧
      (c :: tl).foldl addDigit 0 = -n := by
  have hs : toShort (-n) = -n := by unfold toShort; omega
  obtain ⟨ds, h, hne, hlen, hd, hv⟩ := writedDigits_spec 4 31 (-n) [] (by omega) (by omega)
    (by omega) (by omega)
  have hrev : ds.reverse ≠ [] := by simpa using hne
  obtain ⟨c, tl, hct⟩ := List.exists_cons_of_ne_nil hrev
  have hpad : (toShort (0 - ((ds ++ [ASC_MINUS]).length : Int))).toNat = 0 := by
    simp only [List.length_append, List.length_singleton]
    unfold toShort; omega
  have hlen' : ¬ (32 ≤ ds.length) := by omega
  refine ⟨c, tl, ?_, ?_, ?_, ?_⟩
  · simp only [writedChars, h1, decide_True, if_true, hs, h, List.nil_append, true_and, hlen',
      if_false, hpad, List.replicate_zero, List.reverse_append, List.reverse_singleton,
      List.singleton_append, hct]
  · exact hd c (by rw [← List.mem_reverse, hct]; exact List.mem_cons_self _ _)
  · intro x hx
    exact hd x (by rw [← List.mem_reverse, hct]; exact List.mem_cons_of_mem _ hx)
  · rw [← hct, List.foldl_reverse]; exact hv

/-- Signed decimal round trip for every `n` but -32768: `writen(n)` succeeds and appends to the
current output stream a character sequence `cs` such that `readn`, given `cs` followed by the
end of the stream or by a character that is not a digit, returns `n`. -/
theorem signed_decimal_round_trip (n : Int) (hn : -32767 ≤ n ∧ n ≤ 32767) (s : Machine) :
    ∃ s' cs, writen n s = Res.ok s' ∧ s'.out (s.cos - 1) = s.out (s.cos - 1) ++ cs ∧
      ∀ (t : Machine) (rest : List Int), endsNumber rest →
        (readn (withInput (cs ++ rest) t)).1 = n := by
  rcases lt_or_le n 0 with hneg | hpos
  · obtain ⟨c, tl, hw, hc, htl, hv⟩ := writedChars_neg n hn.1 hneg
    have hbytes : ∀ x ∈ ASC_MINUS :: c :: tl, 0 ≤ x ∧ x < 256 := by
      intro x hx
      rcases List.mem_cons.mp hx with rfl | hx
      · decide
      · have : isDigit x := by
          rcases List.mem_cons.mp hx with rfl | hx
          · exact hc
          · exact htl x hx
        simp only [isDigit, ASC_0, ASC_9] at this; omega
    refine ⟨wrchs (ASC_MINUS :: c :: tl) s, ASC_MINUS :: c :: tl, ?_, (wrchs_out _ s hbytes).1, ?_⟩
    · simp only [writen, writed, hw]
    · intro t rest hr
      have := readn_minus_digits c tl rest t hc htl hr
      rw [hv] at this
      simp only [List.cons_append] at this ⊢
      rw [this]
      unfold toShort; omega
  · obtain ⟨c, tl, hw, hc, htl, hv⟩ := writedChars_nonneg n hpos hn.2
    have hbytes : ∀ x ∈ c :: tl, 0 ≤ x ∧ x < 256 := by
      intro x hx
      have : isDigit x := by
        rcases List.mem_cons.mp hx with rfl | hx
        · exact hc
        · exact htl x hx
      simp only [isDigit, ASC_0, ASC_9] at this; omega
    refine ⟨wrchs (c :: tl) s, c :: tl, ?_, (wrchs_out _ s hbytes).1, ?_⟩
    · simp only [writen, writed, hw]
    · intro t rest hr
      rw [readn_digits c tl rest t hc htl hr, hv]

/-- The round trip at `n = -120`. -/
theorem signed_decimal_round_trip_witness :
    ∃ s' cs, writen (-120) zeroMachine = Res.ok s' ∧
      s'.out (zeroMachine.cos - 1) = zeroMachine.out (zeroMachine.cos - 1) ++ cs ∧
      ∀ (t : Machine) (rest : List Int), endsNumber rest →
        (readn (withInput (cs ++ rest) t)).1 = -120 :=
  signed_decimal_round_trip (-120) (by decide) zeroMachine

/-- C6, at `n = -32768`.  `writed` negates a negative `n` in a `short`, which leaves -32768
as it is; the digit loop then works on a negative number and `writen(-32768)` writes the six
characters `--.)*(`, from which `readn` returns 0. -/
theorem writen_most_negative :
    (writen (-32768) zeroMachine).get?.map (fun s => s.out (zeroMachine.cos - 1))
        = some [45, 45, 46, 41, 42, 40] ∧
      (readn (withInput [45, 45, 46, 41, 42, 40] zeroMachine)).1 = 0 := by
  decide

/-! ## C2: fix-up chains -/

theorem linked_upd (m : Int → Int) (a v : Int) (l : List Int) : ∀ head : Int, a ∉ l →
    (linked (upd m a v) head l ↔ linked m head l) := by
  induction l with
  | nil => intro head _; rfl
  | cons x rest ih =>
    intro head ha
    have hx : x ≠ a := fun h => ha (by rw [h]; exact List.mem_cons_self _ _)
    have hr : a ∉ rest := fun h => ha (List.mem_cons_of_mem _ h)
    simp only [linked, upd_other _ _ hx, ih _ hr]

/-- The walk of a label definition along a chain of distinct words: each gets `lomem`. -/
theorem chain_spec (l : List Int) : ∀ (fuel : Nat) (head : Int) (s : Machine),
    l.Nodup → (∀ a ∈ l, 0 < a ∧ inMem a) → linked s.m head l → l.length ≤ fuel →
    ∃ s', chain fuel head s = Res.ok s' ∧ (∀ a ∈ l, s'.m a = toShort s.lomem) ∧
      (∀ x, x ∉ l → s'.m x = s.m x) ∧ s'.lomem = s.lomem := by
  induction l with
  | nil =>
    intro fuel head s _ _ hl _
    simp only [linked] at hl
    subst hl
    refine ⟨s, ?_, fun a ha => absurd ha (List.not_mem_nil a), fun _ _ => rfl, rfl⟩
    cases fuel <;> simp [chain]
  | cons a rest ih =>
    intro fuel head s hnd hin hl hf
    obtain ⟨fuel, rfl⟩ : ∃ f, fuel = f + 1 := ⟨fuel - 1, by simp at hf; omega⟩
    obtain ⟨rfl, hl⟩ := hl
    obtain ⟨hpos, hmem⟩ := hin head (List.mem_cons_self _ _)
    have hnr : head ∉ rest := (List.nodup_cons.mp hnd).1
    obtain ⟨s', h, h1, h2, h3⟩ := ih fuel (s.m head)
      { s with m := upd s.m head (toShort s.lomem) } (List.nodup_cons.mp hnd).2
      (fun x hx => hin x (List.mem_cons_of_mem _ hx)) ((linked_upd _ _ _ _ _ hnr).mpr hl)
      (by simp at hf; omega)
    refine ⟨s', ?_, ?_, ?_, h3⟩
    · simp only [chain, gt_iff_lt, hpos, if_true, rd, wr, hmem, Res.ok_bind]
      exact h
    · intro x hx
      rcases List.mem_cons.mp hx with rfl | hx
      · rw [h2 x hnr]; exact upd_same _ _ _
      · exact h1 x hx
    · intro x hx
      have hxa : x ≠ head := fun h => hx (by rw [h]; exact List.mem_cons_self _ _)
      rw [h2 x (fun h => hx (List.mem_cons_of_mem _ h))]
      exact upd_other _ _ hxa

/-- A reference to a label not yet defined, from a word that holds 0: the word joins the
chain. -/
theorem labref_forward (n a : Int) (s : Machine) (hn : inMem (labv n)) (ha : inMem a)
    (hk : 0 ≤ s.m (labv n)) (hks : isShort (s.m (labv n))) (hne : a ≠ labv n)
    (h0 : s.m a = 0) :
    labref n a s = Res.ok
      { s with m := upd (upd s.m (labv n) (toShort a)) a (s.m (labv n)) } := by
  have hlt : ¬ s.m (labv n) < 0 := by omega
  have e : toShort (0 + s.m (labv n)) = s.m (labv n) := by
    rw [zero_add]; exact toShort_of_isShort hks
  simp only [labref, rd, wr, hn, ha, hlt, if_true, if_false, Res.ok_bind, upd_other _ _ hne, h0, e]

/-- A sequence of references to a free label from distinct words that hold 0 builds a chain
through them, headed by `labv[n]`. -/
theorem labrefs_spec (n : Int) (hn : 0 ≤ n ∧ n < LABVCOUNT) (l : List Int) :
    ∀ (done : List Int) (s : Machine),
    (l ++ done).Nodup → (∀ a ∈ l ++ done, 0 < a ∧ a < labv 0) →
    (∀ a ∈ l, s.m a = 0) → linked s.m (s.m (labv n)) done →
    ∃ s', labrefs n l s = Res.ok s' ∧ linked s'.m (s'.m (labv n)) (l.reverse ++ done) ∧
      (∀ x, x ∉ l → x ≠ labv n → s'.m x = s.m x) ∧ s'.lomem = s.lomem := by
  have h0v : labv 0 = 19400 := by decide
  have hlv : 19400 ≤ labv n ∧ labv n < 19900 := by
    simp only [labv, WORDCOUNT, LABVCOUNT] at hn ⊢; omega
  have hlm : inMem (labv n) := by simp only [inMem, WORDCOUNT]; omega
  induction l with
  | nil =>
    intro done s _ _ _ hl
    exact ⟨s, rfl, by simp only [List.reverse_nil, List.nil_append]; exact hl,
      fun _ _ _ => rfl, rfl⟩
  | cons a rest ih =>
    intro done s hnd hin h0 hl
    have hnd' := List.nodup_cons.mp hnd
    have har := hin a (List.mem_cons_self _ _)
    rw [h0v] at har
    have hane : a ≠ labv n := by omega
    have hhead : 0 ≤ s.m (labv n) ∧ isShort (s.m (labv n)) := by
      cases done with
      | nil => simp only [linked] at hl; rw [hl]; exact ⟨le_refl _, by decide⟩
      | cons d ds =>
        obtain ⟨hd, -⟩ := hl
        have := hin d (by simp)
        rw [h0v] at this
        rw [hd]; unfold isShort; omega
    have hstep := labref_forward n a s hlm (by simp only [inMem, WORDCOUNT]; omega) hhead.1
      hhead.2 hane (h0 a (List.mem_cons_self _ _))
    have hs : toShort a = a := by unfold toShort; omega
    rw [hs] at hstep
    have ha_done : a ∉ done := fun h => hnd'.1 (List.mem_append_right _ h)
    have ha_rest : a ∉ rest := fun h => hnd'.1 (List.mem_append_left _ h)
    have hld : labv n ∉ done := fun h => by
      have := hin _ (List.mem_cons_of_mem _ (List.mem_append_right _ h))
      omega
    obtain ⟨s', h, h1, h2, h3⟩ := ih (a :: done)
      { s with m := upd (upd s.m (labv n) a) a (s.m (labv n)) }
      (by
        have : (rest ++ a :: done).Perm (a :: rest ++ done) := by
          simp
        exact this.nodup_iff.mpr hnd)
      (fun x hx => hin x (by
        rcases List.mem_append.mp hx with h | h
        · exact List.mem_cons_of_mem _ (List.mem_append_left _ h)
        · rcases List.mem_cons.mp h with rfl | h
          · exact List.mem_cons_self _ _
          · exact List.mem_cons_of_mem _ (List.mem_append_right _ h)))
      (fun x hx => by
        have hxa : x ≠ a := fun h => ha_rest (h ▸ hx)
        have hxl : x ≠ labv n := by
          have := hin x (List.mem_cons_of_mem _ (List.mem_append_left _ hx))
          omega
        simp only [upd_other _ _ hxa, upd_other _ _ hxl]
        exact h0 x (List.mem_cons_of_mem _ hx))
      (by
        simp only [upd_other _ _ hane.symm, upd_same, linked, true_and]
        rw [linked_upd _ _ _ _ _ ha_done, linked_upd _ _ _ _ _ hld]
        exact hl)
    refine ⟨s', ?_, ?_, ?_, h3⟩
    · simp only [labrefs, hstep, Res.ok_bind]; exact h
    · simpa only [List.reverse_cons, List.append_assoc, List.singleton_append] using h1
    · intro x hx hxl
      have hxa : x ≠ a := fun h => hx (h ▸ List.mem_cons_self _ _)
      rw [h2 x (fun h => hx (List.mem_cons_of_mem _ h)) hxl]
      simp only [upd_other _ _ hxa, upd_other _ _ hxl]

/-- C2, amended.  For every label `n` in `[0, 500)` whose slot is free (`labv[n] = 0`) and
every list of distinct reference addresses, each above 0 and below the label table, whose
words hold 0 (as at every call of `labref` in the assembler), the calls `labref(n, a_i)` in
order followed by the definition of label `n` at `lomem = L` run to their end (given a bound
of at least the number of references) and leave `m[a_i] = 0 + L` for every `i` and
`labv[n] = -L`, as `short` values. -/
theorem chain_resolution (n : Int) (hn : 0 ≤ n ∧ n < LABVCOUNT) (as : List Int) (s : Machine)
    (hfree : s.m (labv n) = 0) (hnd : as.Nodup) (hin : ∀ a ∈ as, 0 < a ∧ a < labv 0)
    (hbase : ∀ a ∈ as, s.m a = 0) (fuel : Nat) (hfuel : as.length ≤ fuel) :
    ∃ s', (labrefs n as s >>= defineLabel fuel n) = Res.ok s' ∧
      (∀ a ∈ as, s'.m a = toShort (0 + s.lomem)) ∧ s'.m (labv n) = toShort (-s.lomem) := by
  have h0v : labv 0 = 19400 := by decide
  have hlv : 19400 ≤ labv n ∧ labv n < 19900 := by
    simp only [labv, WORDCOUNT, LABVCOUNT] at hn ⊢; omega
  have hlm : inMem (labv n) := by simp only [inMem, WORDCOUNT]; omega
  obtain ⟨s1, h1, hl, -, hlo⟩ := labrefs_spec n hn as [] s (by simpa using hnd)
    (by simpa using hin) hbase (by simpa [linked] using hfree)
  simp only [List.append_nil] at hl
  have hin' : ∀ a ∈ as.reverse, 0 < a ∧ inMem a := by
    intro a ha
    have := hin a (List.mem_reverse.mp ha)
    simp only [inMem, WORDCOUNT]; omega
  obtain ⟨s2, h2, hm, hframe, hlo2⟩ := chain_spec as.reverse fuel (s1.m (labv n)) s1
    (List.nodup_reverse.mpr hnd) hin' hl (by simpa using hfuel)
  have hk : ¬ s1.m (labv n) < 0 := by
    cases hr : as.reverse with
    | nil => rw [hr] at hl; simp only [linked] at hl; omega
    | cons d ds =>
      rw [hr] at hl
      have := (hin' d (by rw [hr]; exact List.mem_cons_self _ _)).1
      rw [hl.1]; omega
  refine ⟨{ s2 with m := upd s2.m (labv n) (toShort (-s2.lomem)), cp := 0 }, ?_, ?_, ?_⟩
  · simp only [h1, Res.ok_bind, defineLabel, rd, wr, hlm, if_true, hk, if_false, h2, Res.pure_eq]
  · intro a ha
    have hne : a ≠ labv n := by have := hin a ha; omega
    show upd s2.m (labv n) (toShort (-s2.lomem)) a = _
    rw [upd_other _ _ hne, hm a (List.mem_reverse.mpr ha), hlo, zero_add]
  · show upd s2.m (labv n) (toShort (-s2.lomem)) (labv n) = _
    rw [upd_same, hlo2, hlo]

/-- Witness of C2 amended: three references to label 7, defined at `lomem = 404`. -/
theorem chain_resolution_witness :
    ∃ s', (labrefs 7 [1000, 1001, 1005] (chainDemo 0) >>= defineLabel 3 7) = Res.ok s' ∧
      (∀ a ∈ [1000, 1001, 1005], s'.m a = toShort (0 + 404)) ∧
      s'.m (labv 7) = toShort (-404) :=
  chain_resolution 7 (by decide) [1000, 1001, 1005] (chainDemo 0) (by decide) (by decide)
    (by decide) (by decide) 3 (by decide)

/-- C2 as stated fails for a word that holds a base other than 0: with `labv[7] = 0`,
`m[1000] = 5` and `lomem = 404`, one reference from 1000 followed by the definition leaves
`m[1000] = 404`, not `5 + 404` (the definition stores `lomem` in the word and takes the old
content, 5, for the next link of the chain). -/
theorem chain_base_counterexample :
    (chainDemo 5).m (labv 7) = 0 ∧ (chainDemo 5).m 1000 = 5 ∧ (chainDemo 5).lomem = 404 ∧
      (labrefs 7 [1000] (chainDemo 5) >>= defineLabel 10 7).get?.map (fun s => s.m 1000)
        = some 404 ∧
      toShort (5 + 404) ≠ 404 := by
  decide

/-! ## C1: forward references through the assembler -/

theorem upd_upd {β : Type} (f : Int → β) (i : Int) (x y : β) :
    upd (upd f i x) i y = upd f i y := by
  funext j; unfold upd; split <;> rfl

theorem rchLoop_stop (k : Nat) (s : Machine) (h : s.ch ≠ ASC_SLASH) : rchLoop k s = s := by
  cases k with
  | zero => rfl
  | succ k => simp only [rchLoop, h, if_false]

/-- The function `rch` when the next character is neither a slash nor a carriage return. -/
theorem rch_cons (s : Machine) (c : Int) (r : List Int) (h : s.inp (s.cis - 1) = c :: r)
    (h13 : c ≠ ASC_CR) (h47 : c ≠ ASC_SLASH) :
    rch s = { s with ch := c, inp := upd s.inp (s.cis - 1) r } := by
  unfold rch
  have e : rdchCh s = { s with ch := c, inp := upd s.inp (s.cis - 1) r } := by
    unfold rdchCh; rw [rdch_cons s c r h h13]
  rw [e, rchLoop_stop _ _ h47]

/-- The function `rch` at the end of the stream. -/
theorem rch_nil (s : Machine) (h : s.inp (s.cis - 1) = []) :
    rch s = { s with ch := ENDSTREAMCH } := by
  have e : rdchCh s = { s with ch := ENDSTREAMCH } := by
    unfold rdchCh rdch; rw [h]
  unfold rch
  rw [e, rchLoop_stop _ _ (by simp)]

theorem rdnLoop_stop (k : Nat) (sum : Int) (s : Machine) (h : ¬ isDigit s.ch) :
    rdnLoop k sum s = (sum, s) := by
  unfold isDigit at h
  cases k with
  | zero => rfl
  | succ k => simp only [rdnLoop, ge_iff_le, h, if_false]

/-- The digit loop of `rdn` on a run of digits followed by another character. -/
theorem rdnLoop_digits (tl : List Int) : ∀ (k : Nat) (sum : Int) (s : Machine) (c : Int)
    (r : List Int), isDigit s.ch → (∀ x ∈ tl, isDigit x) → ¬ isDigit c → c ≠ ASC_CR →
    c ≠ ASC_SLASH → s.inp (s.cis - 1) = tl ++ c :: r → tl.length < k →
    rdnLoop k sum s
      = ((s.ch :: tl).foldl addDigit sum, { s with ch := c, inp := upd s.inp (s.cis - 1) r }) := by
  induction tl with
  | nil =>
    intro k sum s c r hc _ hnc h13 h47 hs hk
    obtain ⟨k, rfl⟩ : ∃ k', k = k' + 1 := ⟨k - 1, by simp at hk; omega⟩
    have hc' := hc
    unfold isDigit at hc'
    simp only [rdnLoop, ge_iff_le, hc', and_self, if_true]
    rw [rch_cons s c r (by simpa using hs) h13 h47, rdnLoop_stop _ _ _ hnc]
    rfl
  | cons x tl ih =>
    intro k sum s c r hc htl hnc h13 h47 hs hk
    obtain ⟨k, rfl⟩ : ∃ k', k = k' + 1 := ⟨k - 1, by simp at hk; omega⟩
    have hc' := hc
    unfold isDigit at hc'
    have hx : isDigit x := htl x (List.mem_cons_self _ _)
    have hx' := hx
    simp only [isDigit, ASC_0, ASC_9] at hx'
    simp only [rdnLoop, ge_iff_le, hc', and_self, if_true]
    rw [rch_cons s x (tl ++ c :: r) (by simpa using hs) (by simp; omega) (by simp; omega)]
    rw [ih k _ _ c r hx (fun y hy => htl y (List.mem_cons_of_mem _ hy)) hnc h13 h47
      (by simp) (by simp at hk; omega)]
    simp only [upd_upd]
    rfl

/-- The function `rdn` on a run of digits followed by another character. -/
theorem rdn_digits (s : Machine) (tl : List Int) (c : Int) (r : List Int)
    (hc : isDigit s.ch) (htl : ∀ x ∈ tl, isDigit x) (hnc : ¬ isDigit c) (h13 : c ≠ ASC_CR)
    (h47 : c ≠ ASC_SLASH) (hs : s.inp (s.cis - 1) = tl ++ c :: r) :
    rdn s = ((s.ch :: tl).foldl addDigit 0,
      { s with ch := c, inp := upd s.inp (s.cis - 1) r }) := by
  have hm : ¬ (s.ch = ASC_MINUS) := by
    simp only [isDigit, ASC_0, ASC_9] at hc; simp; omega
  unfold rdn
  simp only [hm, decide_False, Bool.false_eq_true, if_false]
  rw [rdnLoop_digits tl _ 0 s c r hc htl hnc h13 h47 hs (by unfold left; rw [hs]; simp; omega)]

/-- The function `rdn` when `ch` is neither a minus sign nor a digit: the number is 0 and
nothing is read. -/
theorem rdn_none (s : Machine) (hm : s.ch ≠ ASC_MINUS) (hc : ¬ isDigit s.ch) :
    rdn s = (0, s) := by
  unfold rdn
  simp only [hm, decide_False, Bool.false_eq_true, if_false]
  rw [rdnLoop_stop _ _ _ hc]

theorem stw_ok (w : Int) (s : Machine) (h : inMem s.lomem) :
    stw w s = Res.ok
      { s with m := upd s.m s.lomem (toShort w), lomem := toShort (s.lomem + 1), cp := 0 } := by
  simp only [stw, wr, h, if_true, Res.ok_bind, Res.pure_eq]

theorem asmSw_sep (f : Nat) (s : Machine) (h : isSep s.ch) :
    asmSw f s = Res.ok (some Lbl.next, s) := by
  have hd : ¬ (s.ch ≤ ASC_9 ∧ s.ch ≥ ASC_0) := by
    simp only [isSep, ASC_DOLLAR, ASC_SPACE, ASC_LF] at h; simp only [ASC_9, ASC_0]; omega
  unfold isSep at h
  simp only [asmSw, hd, if_false, h, if_true, Res.pure_eq]

/-- A separator followed by another character: the assembler comes back to `sw` with that
character in `ch`. -/
theorem asmGo_sep (f : Nat) (s : Machine) (m : Int → Int) (L c0 c : Int) (r : List Int)
    (h : At s m L c0 (c :: r)) (h0 : isSep c0) (h13 : c ≠ ASC_CR) (h47 : c ≠ ASC_SLASH) :
    ∃ s', asmGo (f + 2) Lbl.sw s = asmGo f Lbl.sw s' ∧ At s' m L c r := by
  obtain ⟨hm, hL, hc, hi⟩ := h
  refine ⟨{ s with ch := c, inp := upd s.inp (s.cis - 1) r }, ?_, hm, hL, rfl, upd_same _ _ _⟩
  rw [asmGo, asmSw_sep _ _ (hc ▸ h0)]
  simp only [Res.ok_bind, asmGo, rch_cons s c r hi h13 h47]

/-- A separator at the end of the stream: `assemble` returns. -/
theorem asmGo_sep_end (f : Nat) (s : Machine) (m : Int → Int) (L c0 : Int)
    (h : At s m L c0 []) (h0 : isSep c0) :
    ∃ s', asmGo (f + 3) Lbl.sw s = Res.ok s' ∧ s'.m = m ∧ s'.lomem = L := by
  obtain ⟨hm, hL, hc, hi⟩ := h
  refine ⟨{ s with ch := ENDSTREAMCH }, ?_, hm, hL⟩
  rw [asmGo, asmSw_sep _ _ (hc ▸ h0)]
  simp only [Res.ok_bind, asmGo, rch_nil s hi]
  simp [asmSw, fnCode]

/-- The loop `chain` changes memory only. -/
theorem chain_shape (f : Nat) : ∀ (k : Int) (s s' : Machine), chain f k s = Res.ok s' →
    s' = { s with m := s'.m } := by
  induction f with
  | zero =>
    intro k s s' h
    simp only [chain] at h
    split at h
    · cases h
    · cases h; rfl
  | succ f ih =>
    intro k s s' h
    simp only [chain] at h
    split at h
    · simp only [Res.bind_eq_ok, rd, wr] at h
      obtain ⟨tmp, -, s1, h1, h2⟩ := h
      split at h1
      · cases h1
        have := ih _ _ _ h2
        rw [this]
      · cases h1
    · cases h; rfl

/-- A label definition: the digits of `n`, with the chain `l` of references pending. -/
theorem asmGo_label (f : Nat) (s : Machine) (m : Int → Int) (L d0 c : Int) (tl r l : List Int)
    (h : At s m L d0 (tl ++ c :: r)) (hd0 : isDigit d0) (htl : ∀ x ∈ tl, isDigit x)
    (hc : ¬ isDigit c) (h13 : c ≠ ASC_CR) (h47 : c ≠ ASC_SLASH)
    (hn : 0 ≤ (d0 :: tl).foldl addDigit 0 ∧ (d0 :: tl).foldl addDigit 0 < LABVCOUNT)
    (hnd : l.Nodup) (hin : ∀ a ∈ l, 0 < a ∧ a < labv 0)
    (hl : linked m (m (labv ((d0 :: tl).foldl addDigit 0))) l) (hf : l.length ≤ f) :
    ∃ s', asmGo (f + 1) Lbl.sw s = asmGo f Lbl.sw s' ∧
      At s' (defined m ((d0 :: tl).foldl addDigit 0) L l) L c r := by
  obtain ⟨rfl, rfl, hch, hi⟩ := h
  generalize hnv : (d0 :: tl).foldl addDigit 0 = n at hn hl ⊢
  have h0v : labv 0 = 19400 := by decide
  have hlv : 19400 ≤ labv n ∧ labv n < 19900 := by
    simp only [labv, WORDCOUNT, LABVCOUNT] at hn ⊢; omega
  have hlm : inMem (labv n) := by simp only [inMem, WORDCOUNT]; omega
  have hdig : s.ch ≤ ASC_9 ∧ s.ch ≥ ASC_0 := by
    rw [hch]; unfold isDigit at hd0; exact ⟨hd0.2, hd0.1⟩
  have hrdn := rdn_digits s tl c r (hch ▸ hd0) htl hc h13 h47 hi
  rw [hch, hnv] at hrdn
  have hin' : ∀ a ∈ l, 0 < a ∧ inMem a := by
    intro a ha
    have := hin a ha
    simp only [inMem, WORDCOUNT]; omega
  obtain ⟨s2, h2, hma, hframe, hlo2⟩ := chain_spec l f (s.m (labv n))
    { s with ch := c, inp := upd s.inp (s.cis - 1) r } hnd hin' hl hf
  have hsh := chain_shape _ _ _ _ h2
  have hk : ¬ s.m (labv n) < 0 := by
    cases l with
    | nil => simp only [linked] at hl; omega
    | cons d ds =>
      have := (hin d (List.mem_cons_self _ _)).1
      rw [hl.1]; omega
  refine ⟨{ s2 with m := upd s2.m (labv n) (toShort (-s2.lomem)), cp := 0 }, ?_, ?_, hlo2,
    ?_, ?_⟩
  · rw [asmGo]
    simp only [asmSw, hdig, and_self, if_true, defLabel, hrdn, defineLabel, rd, hlm, hk,
      if_false, h2, wr, Res.ok_bind, Res.pure_eq]
  · funext x
    show upd s2.m (labv n) (toShort (-s2.lomem)) x = defined s.m n s.lomem l x
    unfold defined
    by_cases hx : x = labv n
    · rw [hx, upd_same, if_pos rfl, hlo2]
    · rw [upd_other _ _ hx, if_neg hx]
      by_cases hxl : x ∈ l
      · rw [if_pos hxl, hma x hxl]
      · rw [if_neg hxl, hframe x hxl]
  · rw [hsh]
  · rw [hsh]; exact upd_same _ _ _

theorem fnCode_some {c n : Int} (h : fnCode c = some n) :
    (c = ASC_L ∨ c = ASC_S ∨ c = ASC_A ∨ c = ASC_J ∨ c = ASC_T ∨ c = ASC_F ∨ c = ASC_K
      ∨ c = ASC_X) ∧ 0 ≤ n ∧ n < 8 := by
  unfold fnCode at h
  split_ifs at h <;> cases h <;> simp_all

/-- At a function letter the assembler goes to the instruction tail. -/
theorem asmSw_instr (f : Nat) (s : Machine) (n : Int) (h : fnCode s.ch = some n) :
    asmSw f s = (asmInstr n s >>= fun s' => Res.ok (some Lbl.sw, s')) := by
  have hc := (fnCode_some h).1
  simp only [ASC_L, ASC_S, ASC_A, ASC_J, ASC_T, ASC_F, ASC_K, ASC_X] at hc
  have h1 : ¬ (s.ch ≤ ASC_9 ∧ s.ch ≥ ASC_0) := by simp only [ASC_9, ASC_0]; omega
  have h2 : ¬ (s.ch = ASC_DOLLAR ∨ s.ch = ASC_SPACE ∨ s.ch = ASC_LF) := by
    simp only [ASC_DOLLAR, ASC_SPACE, ASC_LF]; omega
  have h3 : ¬ s.ch = ASC_C := by simp only [ASC_C]; omega
  have h4 : ¬ s.ch = ASC_D := by simp only [ASC_D]; omega
  have h5 : ¬ s.ch = ASC_G := by simp only [ASC_G]; omega
  have h6 : ¬ s.ch = ASC_Z := by simp only [ASC_Z]; omega
  simp only [asmSw, h1, h2, h3, h4, h5, h6, if_false, h]
  rfl

theorem asmGo_instr (f : Nat) (s : Machine) (n : Int) (h : fnCode s.ch = some n) :
    asmGo (f + 1) Lbl.sw s = (asmInstr n s >>= asmGo f Lbl.sw) := by
  rw [asmGo, asmSw_instr f s n h]
  cases asmInstr n s <;> rfl

theorem isDigit_facts {c : Int} (h : isDigit c) :
    c ≠ ASC_CR ∧ c ≠ ASC_SLASH ∧ c ≠ ASC_I ∧ c ≠ ASC_P ∧ c ≠ ASC_G ∧ c ≠ ASC_L
      ∧ c ≠ ASC_MINUS := by
  simp only [isDigit, ASC_0, ASC_9] at h
  simp only [ASC_CR, ASC_SLASH, ASC_I, ASC_P, ASC_G, ASC_L, ASC_MINUS]
  omega

/-- An instruction statement with a numeric operand written in digits. -/
theorem asmGo_instr_num (f : Nat) (s : Machine) (m : Int → Int) (L c0 n d0 c : Int)
    (tl r : List Int) (h : At s m L c0 (d0 :: tl ++ c :: r)) (hn : fnCode c0 = some n)
    (hd0 : isDigit d0) (htl : ∀ x ∈ tl, isDigit x)
    (hc : ¬ isDigit c) (h13 : c ≠ ASC_CR) (h47 : c ≠ ASC_SLASH)
    (hL : 0 ≤ L ∧ L + 1 < WORDCOUNT) :
    ∃ s', asmGo (f + 1) Lbl.sw s = asmGo f Lbl.sw s' ∧
      At s' (emitted m L n ((d0 :: tl).foldl addDigit 0))
        (L + instrWords ((d0 :: tl).foldl addDigit 0)) c r := by
  obtain ⟨rfl, rfl, hch, hi⟩ := h
  obtain ⟨e13, e47, eI, eP, eG, eL, -⟩ := isDigit_facts hd0
  simp only [WORDCOUNT] at hL
  have hrch := rch_cons s d0 (tl ++ c :: r) (by simpa using hi) e13 e47
  have hrdn := rdn_digits { s with ch := d0, inp := upd s.inp (s.cis - 1) (tl ++ c :: r) } tl c r
    hd0 htl hc h13 h47 (upd_same _ _ _)
  simp only [upd_upd] at hrdn
  generalize (d0 :: tl).foldl addDigit 0 = d at hrdn ⊢
  have hm0 : inMem s.lomem := by simp only [inMem, WORDCOUNT]; omega
  have hm1 : inMem (s.lomem + 1) := by simp only [inMem, WORDCOUNT]; omega
  have e256 : (255 : Int) + 1 = 256 := rfl
  have e28 : (2 : Int) ^ 8 = 256 := rfl
  have hs1 : toShort (s.lomem + 1) = s.lomem + 1 := by unfold toShort; omega
  have hs2 : toShort (s.lomem + 1 + 1) = s.lomem + 2 := by unfold toShort; omega
  rw [asmGo_instr f s n (hch ▸ hn)]
  by_cases hd : d % 256 = d
  · refine ⟨{ s with m := upd s.m s.lomem (toShort (bitop Nat.lor n (d * 256))),
                     lomem := s.lomem + 1, cp := 0, ch := c, inp := upd s.inp (s.cis - 1) r },
      ?_, ?_, ?_, rfl, upd_same _ _ _⟩
    · simp only [asmInstr, hrch, eI, eP, eG, eL, if_false, hrdn, FN_MASK, FN_BITS, e256, e28, hd,
        if_true, stw, wr, hm0, Res.ok_bind, Res.pure_eq, hs1]
    · simp only [emitted, hd, if_true]
    · simp only [instrWords, hd, if_true]
  · refine ⟨{ s with
        m := upd (upd s.m s.lomem (toShort (orBit n FD_BIT))) (s.lomem + 1) (toShort d),
        lomem := s.lomem + 2, cp := 0, ch := c, inp := upd s.inp (s.cis - 1) r },
      ?_, ?_, ?_, rfl, upd_same _ _ _⟩
    · simp only [asmInstr, hrch, eI, eP, eG, eL, if_false, hrdn, FN_MASK, FN_BITS, e256, e28, hd,
        stw, wr, hm0, hm1, Res.ok_bind, Res.pure_eq, hs1, hs2, if_true, FD_BIT]
    · simp only [emitted, hd, if_false]
    · simp only [instrWords, hd, if_false]

/-- An instruction statement whose letter is followed by a separator: the operand is 0. -/
theorem asmGo_instr_blank (f : Nat) (s : Machine) (m : Int → Int) (L c0 n c : Int)
    (r : List Int) (h : At s m L c0 (c :: r)) (hn : fnCode c0 = some n)
    (hc : isSep c) (hL : 0 ≤ L ∧ L < WORDCOUNT - 1) :
    ∃ s', asmGo (f + 1) Lbl.sw s = asmGo f Lbl.sw s' ∧ At s' (emitted m L n 0) (L + 1) c r := by
  obtain ⟨rfl, rfl, hch, hi⟩ := h
  simp only [WORDCOUNT] at hL
  simp only [isSep, ASC_DOLLAR, ASC_SPACE, ASC_LF] at hc
  have hrch := rch_cons s c r hi (by simp only [ASC_CR]; omega) (by simp only [ASC_SLASH]; omega)
  have eI : c ≠ ASC_I := by simp only [ASC_I]; omega
  have eP : c ≠ ASC_P := by simp only [ASC_P]; omega
  have eG : c ≠ ASC_G := by simp only [ASC_G]; omega
  have eL : c ≠ ASC_L := by simp only [ASC_L]; omega
  have hrdn := rdn_none { s with ch := c, inp := upd s.inp (s.cis - 1) r }
    (by simp only [ASC_MINUS]; omega) (by simp only [isDigit, ASC_0, ASC_9]; omega)
  have hm0 : inMem s.lomem := by simp only [inMem, WORDCOUNT]; omega
  have hs1 : toShort (s.lomem + 1) = s.lomem + 1 := by unfold toShort; omega
  have e256 : (255 : Int) + 1 = 256 := rfl
  have e28 : (2 : Int) ^ 8 = 256 := rfl
  have e0 : (0 : Int) % 256 = 0 := rfl
  rw [asmGo_instr f s n (hch ▸ hn)]
  refine ⟨{ s with m := upd s.m s.lomem (toShort (bitop Nat.lor n (0 * 256))),
                   lomem := s.lomem + 1, cp := 0, ch := c, inp := upd s.inp (s.cis - 1) r },
    ?_, ?_, rfl, rfl, upd_same _ _ _⟩
  · simp only [asmInstr, hrch, eI, eP, eG, eL, if_false, hrdn, FN_MASK, FN_BITS, e256, e28, e0,
      if_true, stw, wr, hm0, Res.ok_bind, Res.pure_eq, hs1]
  · simp only [emitted, e0, if_true]

/-- An instruction statement whose operand is a label `Ln` not yet defined: two words, the
second one joining the chain of the label. -/
theorem asmGo_instr_label (f : Nat) (s : Machine) (m : Int → Int) (L c0 n d0 c : Int)
    (tl r : List Int) (h : At s m L c0 (ASC_L :: d0 :: tl ++ c :: r)) (hn : fnCode c0 = some n)
    (hd0 : isDigit d0) (htl : ∀ x ∈ tl, isDigit x)
    (hc : ¬ isDigit c) (h13 : c ≠ ASC_CR) (h47 : c ≠ ASC_SLASH)
    (hL : 0 ≤ L ∧ L + 1 < labv 0)
    (hl : 0 ≤ (d0 :: tl).foldl addDigit 0 ∧ (d0 :: tl).foldl addDigit 0 < LABVCOUNT)
    (hk : 0 ≤ m (labv ((d0 :: tl).foldl addDigit 0)))
    (hks : isShort (m (labv ((d0 :: tl).foldl addDigit 0)))) :
    ∃ s', asmGo (f + 1) Lbl.sw s = asmGo f Lbl.sw s' ∧
      At s' (upd (upd (upd (upd m L (toShort (orBit n FD_BIT))) (L + 1) 0)
          (labv ((d0 :: tl).foldl addDigit 0)) (L + 1)) (L + 1)
          (m (labv ((d0 :: tl).foldl addDigit 0)))) (L + 2) c r := by
  obtain ⟨rfl, rfl, hch, hi⟩ := h
  obtain ⟨e13, e47, -, -, -, -, -⟩ := isDigit_facts hd0
  have h0v : labv 0 = 19400 := by decide
  rw [h0v] at hL
  generalize hnv : (d0 :: tl).foldl addDigit 0 = n' at hl hk hks ⊢
  have hlv : 19400 ≤ labv n' ∧ labv n' < 19900 := by
    simp only [labv, WORDCOUNT, LABVCOUNT] at hl ⊢; omega
  have hrch := rch_cons s ASC_L (d0 :: tl ++ c :: r) hi (by decide) (by decide)
  have hrch2 := rch_cons { s with ch := ASC_L, inp := upd s.inp (s.cis - 1) (d0 :: tl ++ c :: r) }
    d0 (tl ++ c :: r) (by simp only [upd_same]; rfl) e13 e47
  simp only [upd_upd] at hrch2
  have hm0 : inMem s.lomem := by simp only [inMem, WORDCOUNT]; omega
  have hm1 : inMem (s.lomem + 1) := by simp only [inMem, WORDCOUNT]; omega
  have hs1 : toShort (s.lomem + 1) = s.lomem + 1 := by unfold toShort; omega
  have hs2 : toShort (s.lomem + 1 + 1) = s.lomem + 2 := by unfold toShort; omega
  have hs0 : toShort 0 = 0 := rfl
  have hrdn := rdn_digits
    { s with m := upd (upd s.m s.lomem (toShort (orBit n FD_BIT))) (s.lomem + 1) 0,
             lomem := s.lomem + 2, cp := 0, ch := d0,
             inp := upd s.inp (s.cis - 1) (tl ++ c :: r) } tl c r
    hd0 htl hc h13 h47 (upd_same _ _ _)
  simp only [upd_upd, hnv, FD_BIT] at hrdn
  have hne0 : labv n' ≠ s.lomem := by omega
  have hne1 : labv n' ≠ s.lomem + 1 := by omega
  have hlab := labref_forward n' (s.lomem + 1)
    { s with m := upd (upd s.m s.lomem (toShort (orBit n FD_BIT))) (s.lomem + 1) 0,
             lomem := s.lomem + 2, cp := 0, ch := c, inp := upd s.inp (s.cis - 1) r }
    (by simp only [inMem, WORDCOUNT]; omega) hm1
    (by simp only [upd_other _ _ hne1, upd_other _ _ hne0]; exact hk)
    (by simp only [upd_other _ _ hne1, upd_other _ _ hne0]; exact hks)
    (by omega) (upd_same _ _ _)
  simp only [upd_other _ _ hne1, upd_other _ _ hne0, hs1] at hlab
  rw [asmGo_instr f s n (hch ▸ hn)]
  refine ⟨{ s with
      m := upd (upd (upd (upd s.m s.lomem (toShort (orBit n FD_BIT))) (s.lomem + 1) 0)
        (labv n') (s.lomem + 1)) (s.lomem + 1) (s.m (labv n')),
      lomem := s.lomem + 2, cp := 0, ch := c, inp := upd s.inp (s.cis - 1) r },
    ?_, rfl, rfl, rfl, upd_same _ _ _⟩
  have nI : ASC_L ≠ ASC_I := by decide
  have nP : ASC_L ≠ ASC_P := by decide
  have nG : ASC_L ≠ ASC_G := by decide
  simp only [asmInstr, hrch, nI, nP, nG, hrch2, if_true, if_false, stw, wr, hm0, hm1, Res.ok_bind,
    Res.pure_eq, hs1, hs2, hs0, hrdn, FD_BIT]
  have e21 : s.lomem + 2 - 1 = s.lomem + 1 := by ring
  simp only [e21, FD_BIT] at hlab ⊢
  rw [hlab]
  rfl

theorem instrWords_range (d : Int) : 1 ≤ instrWords d ∧ instrWords d ≤ 2 := by
  unfold instrWords; split <;> omega

theorem emitted_other (m : Int → Int) (L n d x : Int) (h : x < L ∨ L + instrWords d ≤ x) :
    emitted m L n d x = m x := by
  unfold emitted
  unfold instrWords at h
  split
  · next hd => rw [if_pos hd] at h; exact upd_other _ _ (by omega)
  · next hd =>
    rw [if_neg hd] at h
    rw [upd_other _ _ (by omega), upd_other _ _ (by omega)]

/-- The tail `10 S 0 $` of the forward-reference input, read from the `1` on, with the chain
`l` of label 10 pending and label 0 free: the assembler defines label 10 at `L`, emits the
`S` word, defines label 0 and returns. -/
theorem asmGo_tail (f : Nat) (s : Machine) (m : Int → Int) (L : Int) (l : List Int)
    (h : At s m L 49 [48, 32, 83, 32, 48, 32, 36])
    (hL : 0 ≤ L ∧ L + 1 < labv 0) (hnd : l.Nodup) (hin : ∀ a ∈ l, 0 < a ∧ a < L)
    (hl : linked m (m (labv 10)) l) (h0 : m (labv 0) = 0) (hf : l.length ≤ f + 11) :
    ∃ s', asmGo (f + 12) Lbl.sw s = Res.ok s' ∧ (∀ a ∈ l, s'.m a = toShort L) ∧
      s'.m (labv 10) = toShort (-L) ∧ (∀ x, x < L → x ∉ l → s'.m x = m x) := by
  have h0v : labv 0 = 19400 := by decide
  have h10v : labv 10 = 19410 := by decide
  rw [h0v] at hL
  have e10 : ([49, 48] : List Int).foldl addDigit 0 = 10 := by decide
  have e00 : ([48] : List Int).foldl addDigit 0 = 0 := by decide
  obtain ⟨s1, g1, a1⟩ := asmGo_label (f + 11) s m L 49 32 [48] [83, 32, 48, 32, 36] l h
    (by decide) (by decide) (by decide) (by decide) (by decide) (by rw [e10]; decide) hnd
    (fun a ha => ⟨(hin a ha).1, by have := (hin a ha).2; omega⟩) (by rw [e10]; exact hl) hf
  rw [e10] at a1
  obtain ⟨s2, g2, a2⟩ := asmGo_sep (f + 9) s1 _ _ 32 83 [32, 48, 32, 36] a1 (by decide)
    (by decide) (by decide)
  obtain ⟨s3, g3, a3⟩ := asmGo_instr_blank (f + 8) s2 _ _ 83 1 32 [48, 32, 36] a2 (by decide)
    (by decide) (by simp only [WORDCOUNT]; omega)
  obtain ⟨s4, g4, a4⟩ := asmGo_sep (f + 6) s3 _ _ 32 48 [32, 36] a3 (by decide)
    (by decide) (by decide)
  have hm0 : emitted (defined m 10 L l) L 1 0 (labv 0) = 0 := by
    rw [emitted_other _ _ _ _ _ (by right; rw [h0v]; unfold instrWords; simp; omega)]
    unfold defined
    rw [if_neg (by decide), if_neg (fun hx => by have := (hin _ hx).2; omega), h0]
  obtain ⟨s5, g5, a5⟩ := asmGo_label (f + 5) s4 _ _ 48 32 [] [36] [] a4
    (by decide) (by simp) (by decide) (by decide) (by decide) (by rw [e00]; decide)
    List.nodup_nil (by simp) (by rw [e00]; simp only [linked]; exact hm0) (by simp)
  rw [e00] at a5
  obtain ⟨s6, g6, a6⟩ := asmGo_sep (f + 3) s5 _ _ 32 36 [] a5 (by decide) (by decide) (by decide)
  obtain ⟨s7, g7, hm7, -⟩ := asmGo_sep_end f s6 _ _ 36 a6 (by decide)
  have hfin : ∀ x, x < 19400 → x ≠ L →
      s7.m x = defined m 10 L l x := by
    intro x hx hxL
    rw [hm7]
    unfold defined
    rw [if_neg (by rw [h0v]; omega), if_neg (List.not_mem_nil x)]
    rw [emitted_other _ _ _ _ _ (by unfold instrWords; simp; omega)]
  refine ⟨s7, ?_, ?_, ?_, ?_⟩
  · rw [show f + 12 = f + 11 + 1 by omega, g1, show f + 11 = f + 9 + 2 by omega, g2,
      show f + 9 = f + 8 + 1 by omega, g3, show f + 8 = f + 6 + 2 by omega, g4,
      show f + 6 = f + 5 + 1 by omega, g5, show f + 5 = f + 3 + 2 by omega, g6, g7]
  · intro a ha
    have := hin a ha
    rw [hfin a (by omega) (by omega)]
    unfold defined
    rw [if_neg (by rw [h10v]; omega), if_pos ha]
  · rw [hm7]
    unfold defined
    rw [if_neg (by decide), if_neg (List.not_mem_nil _)]
    rw [emitted_other _ _ _ _ _ (by right; rw [h10v]; unfold instrWords; simp; omega)]
    rw [if_pos rfl]
  · intro x hx hxl
    rw [hfin x (by omega) (by omega)]
    unfold defined
    rw [if_neg (by rw [h10v]; omega), if_neg hxl]

/-- The state `assemble` starts from. -/
theorem loading_ok (text : List Int) :
    ∃ s0, loading text = Res.ok s0 ∧ s0.lomem = 404 ∧ s0.inp (s0.cis - 1) = text :=
  ⟨_, rfl, rfl, rfl⟩

/-- From `clear` the assembler clears the label table and reads the first character. -/
theorem asmGo_clear (f : Nat) (s : Machine) (c : Int) (r : List Int)
    (hi : s.inp (s.cis - 1) = c :: r) (h13 : c ≠ ASC_CR) (h47 : c ≠ ASC_SLASH) :
    ∃ s', asmGo (f + 2) Lbl.clear s = asmGo f Lbl.sw s' ∧ At s' (memclr s.m) s.lomem c r := by
  refine ⟨{ s with m := memclr s.m, cp := 0, ch := c, inp := upd s.inp (s.cis - 1) r }, ?_,
    rfl, rfl, rfl, upd_same _ _ _⟩
  simp only [asmGo]
  rw [rch_cons { s with m := memclr s.m, cp := 0 } c r hi h13 h47]

/-- The step of a `J` instruction in two-word form at address 404. -/
theorem step_jump_404 (t : Machine) (L : Int) (hpc : t.pc = 404) (h404 : t.m 404 = 35)
    (h405 : t.m 405 = L) (hL : isWord L) :
    ∃ t', step t = Res.ok (none, t') ∧ t'.pc = L := by
  have hLw : L % 65536 = L := by unfold isWord at hL; omega
  have hf : fetch t = Res.ok { t with w := 35, d := L, pc := 406 } := by
    simp only [fetch, hpc, rd, h404]
    simp [hasBit, toWord, inMem, h405, hLw]
  refine ⟨{ t with w := 35, d := L, pc := L }, ?_, rfl⟩
  rw [step_eq_exec hf]
  unfold exec
  simp

theorem memclr_labv (m : Int → Int) (n : Int) (hn : 0 ≤ n ∧ n < LABVCOUNT) :
    memclr m (labv n) = 0 := by
  simp only [LABVCOUNT] at hn
  unfold memclr
  simp only [labv, WORDCOUNT, LABVCOUNT]
  rw [if_pos (by omega)]

/-- C1 as stated fails on the spec's input: in `J L 10` the blank after `J` ends the
instruction (a `J` with operand 0), `L` starts a load instruction and `10` defines label 10; the
`10` of `10 S 0 $` then defines label 10 a second time and the assembler halts with
`DUPLICATE LABEL #10`. -/
theorem forward_reference_spaced :
    (loading (cbytes "J L 10 10 S 0 $") >>= assemble 100).haltInfo
        = some (STR_DUPLICATE_LABEL, 10) ∧
      (loading (cbytes "J L 10 $ 10 S 0 $") >>= assemble 100).haltInfo
        = some (STR_DUPLICATE_LABEL, 10) := by
  decide

/-! ## C11: switch-on -/

theorem switchLoop_spec (tbl : List (Int × Int)) : ∀ (k : Nat) (v : Int) (s : Machine),
    s.b = tbl.length → tbl.length ≤ k → tableAt s.m v tbl → 0 ≤ v →
    v + 2 * tbl.length ≤ WORDCOUNT → ∀ dflt : Int, s.pc = toWord dflt →
    ∃ s2, switchLoop k v s = Res.ok s2 ∧ s2.pc = toWord (switchTarget s.a dflt tbl) ∧
      s2.a = s.a ∧ s2.sp = s.sp ∧ s2.m = s.m := by
  induction tbl with
  | nil =>
    intro k v s hb _ _ _ _ dflt hpc
    simp only [List.length_nil, Nat.cast_zero] at hb
    refine ⟨{ s with b := toShort (s.b - 1) }, ?_, hpc, rfl, rfl, rfl⟩
    cases k <;> simp [switchLoop, hb]
  | cons p t ih =>
    intro k v s hb hk ht hv hm dflt hpc
    obtain ⟨h1, h2, h3⟩ := ht
    simp only [List.length_cons, Nat.cast_add, Nat.cast_one, WORDCOUNT] at hb hm hk
    cases k with
    | zero => omega
    | succ k =>
      have hb0 : s.b ≠ 0 := by omega
      have hv0 : inMem v := by simp only [inMem, WORDCOUNT]; omega
      have hv1 : inMem (v + 1) := by simp only [inMem, WORDCOUNT]; omega
      have hbt : toShort (s.b - 1) = t.length := by
        rw [hb]; unfold toShort; omega
      by_cases ha : s.a = p.1
      · refine ⟨{ s with b := toShort (s.b - 1), pc := toWord p.2 }, ?_, ?_, rfl, rfl, rfl⟩
        · simp [switchLoop, hb0, rd, hv0, hv1, h1, h2, ha]
        · simp [switchTarget, ha]
      · obtain ⟨s2, e, r1, r2, r3, r4⟩ := ih k (v + 2) { s with b := toShort (s.b - 1) }
          hbt (by omega) h3 (by omega) (by simp only [WORDCOUNT]; omega) dflt hpc
        refine ⟨s2, ?_, ?_, r2, r3, r4⟩
        · simp [switchLoop, hb0, rd, hv0, h1, ha, e]
        · simpa [switchTarget, ha] using r1

/-- C11: executing `X 23` with a table of `k ≥ 0` pairs behind it (the count, the default
target, then the pairs) sets `pc` to the target of the first pair whose value is the
accumulator, and to the default target when there is none; `a`, `sp` and the memory are
unchanged. -/
theorem switch_on (s s1 : Machine) (hf : fetch s = Res.ok s1) (hx : s1.w % 8 = F7_X)
    (hd : s1.d = 23) (dflt : Int) (tbl : List (Int × Int))
    (hk : s1.m s1.pc = tbl.length) (hdf : s1.m (s1.pc + 1) = dflt)
    (ht : tableAt s1.m (s1.pc + 2) tbl) (hmem : s1.pc + 2 + 2 * tbl.length ≤ WORDCOUNT) :
    ∃ s2, step s = Res.ok (none, s2) ∧ s2.pc = toWord (switchTarget s.a dflt tbl) ∧
      s2.a = s.a ∧ s2.sp = s.sp ∧ s2.m = s.m := by
  rw [step_eq_exec hf, ← fetch_a hf, ← fetch_sp hf, ← fetch_m hf]
  have hpc := fetch_pc_isWord hf
  simp only [isWord, WORDCOUNT] at hpc hmem
  have h0 : inMem s1.pc := by simp only [inMem, WORDCOUNT]; omega
  have h1 : inMem (s1.pc + 1) := by simp only [inMem, WORDCOUNT]; omega
  have hfuel : (toWord (tbl.length : Int)).toNat = tbl.length := by
    unfold toWord; omega
  obtain ⟨s2, e, r1, r2, r3, r4⟩ := switchLoop_spec tbl tbl.length (s1.pc + 2)
    { s1 with b := s1.m s1.pc, pc := toWord (s1.m (s1.pc + 1)) } hk (le_refl _) ht (by omega)
    (by simp only [WORDCOUNT]; omega) dflt (by simp [hdf])
  refine ⟨s2, ?_, r1, r2, r3, r4⟩
  unfold exec
  rw [hx]
  rw [hk, hd] at e
  simp [execX, hd, rd, h0, h1, hk, hfuel, e]

/-- Witness of C11: the table `(5, 700); (7, 710); (5, 720)` with default 900 and
`a = 7`. -/
theorem switch_on_witness :
    ∃ s2, step (switchDemo 7) = Res.ok (none, s2) ∧
      s2.pc = toWord (switchTarget (switchDemo 7).a 900 [(5, 700), (7, 710), (5, 720)]) ∧
      s2.a = (switchDemo 7).a ∧ s2.sp = (switchDemo 7).sp ∧ s2.m = (switchDemo 7).m :=
  switch_on (switchDemo 7) { switchDemo 7 with w := 5895, d := 23, pc := 501 } rfl
    (by decide) rfl 900 [(5, 700), (7, 710), (5, 720)] rfl rfl
    ⟨rfl, rfl, rfl, rfl, rfl, rfl, trivial⟩ (by decide)

/-! ## C18: the function codes 0 .. 5 -/

theorem fetch_decoded (s : Machine) (h : decodable s) : fetch s = Res.ok (decoded s) := by
  obtain ⟨h0, h1, h2⟩ := h
  simp only [opWord, spOperand, rawDisp] at h1 h2
  unfold fetch decoded effOperand spOperand rawDisp pastInstr opWord
  simp only [rd, h0, if_true, Res.ok_bind, Res.pure_eq]
  by_cases hD : hasBit (toWord (s.m s.pc)) FD_BIT = true <;>
    by_cases hI : hasBit (toWord (s.m s.pc)) FI_BIT = true <;>
    simp_all

/-- C18: the step semantics of the function codes 0 .. 5.  The instruction at `pc` is
decoded to the effective operand `d` (the raw displacement, plus `sp` if `FP_BIT`, then
replaced by `m[d]` if `FI_BIT`) and `pc` moves past the instruction; then `L` sets `b` to the
old `a` and `a` to `d`, `S` writes `a` to `m[d]` and no other word, `A` adds `d` to `a`
mod 2^16, `J` sets `pc` to `d`, `T` does so iff `a ≠ 0` and `F` iff `a = 0`; nothing else
changes (`w` and `d` are the decoding registers). -/
theorem step_semantics (s : Machine) (hd : decodable s) :
    (opWord s % 8 = F0_L → step s =
      Res.ok (none, { decoded s with b := s.a, a := toShort (effOperand s) })) ∧
    (opWord s % 8 = F1_S → inMem (effOperand s) → isShort s.a → step s =
      Res.ok (none, { decoded s with m := upd s.m (effOperand s) s.a })) ∧
    (opWord s % 8 = F2_A → step s =
      Res.ok (none, { decoded s with a := toShort (s.a + effOperand s) })) ∧
    (opWord s % 8 = F3_J → step s = Res.ok (none, { decoded s with pc := effOperand s })) ∧
    (opWord s % 8 = F4_T → step s =
      Res.ok (none, if s.a ≠ 0 then { decoded s with pc := effOperand s } else decoded s)) ∧
    (opWord s % 8 = F5_F → step s =
      Res.ok (none, if s.a = 0 then { decoded s with pc := effOperand s } else decoded s)) := by
  have hf := fetch_decoded s hd
  have hw : (decoded s).w = opWord s := rfl
  refine ⟨?_, ?_, ?_, ?_, ?_, ?_⟩
  · intro h
    rw [step_eq_exec hf]; unfold exec; rw [hw, h]; simp [decoded]
  · intro h hm ha
    rw [step_eq_exec hf]; unfold exec; rw [hw, h]
    simp [wr, hm, toShort_of_isShort ha, decoded]
  · intro h
    rw [step_eq_exec hf]; unfold exec; rw [hw, h]; simp [decoded]
  · intro h
    rw [step_eq_exec hf]; unfold exec; rw [hw, h]; simp [decoded]
  · intro h
    rw [step_eq_exec hf]; unfold exec; rw [hw, h]; simp [decoded]
  · intro h
    rw [step_eq_exec hf]; unfold exec; rw [hw, h]; simp [decoded]

/-- Witness of C18: the two-word instruction `S I P 700` (word 57, then 700) with `sp = 600`
and `a = 5`; the effective operand is `m[1300] = 1301`. -/
theorem step_semantics_witness :
    decodable (opDemo 57) ∧ effOperand (opDemo 57) = 1301 ∧
      step (opDemo 57) = Res.ok (none,
        { decoded (opDemo 57) with m := upd (opDemo 57).m (effOperand (opDemo 57)) 5 }) :=
  ⟨by decide, by decide,
    (step_semantics (opDemo 57) (by decide)).2.1 (by decide) (by decide) (by decide)⟩

/-! ## C17: encoding and decoding of instructions -/

/-- The function `rch` on a machine whose current stream is known. -/
theorem rch_rec (s : Machine) (x y : Int) (r : List Int) (h13 : y ≠ ASC_CR)
    (h47 : y ≠ ASC_SLASH) :
    rch { s with ch := x, inp := upd s.inp (s.cis - 1) (y :: r) }
      = { s with ch := y, inp := upd s.inp (s.cis - 1) r } := by
  rw [rch_cons { s with ch := x, inp := upd s.inp (s.cis - 1) (y :: r) } y r (upd_same _ _ _)
    h13 h47]
  simp only [upd_upd]

/-- The function `rdn` on a machine whose current stream starts with the rest of a run of
digits. -/
theorem rdn_rec (s : Machine) (d0 : Int) (tl : List Int) (c : Int) (r : List Int)
    (hd0 : isDigit d0) (htl : ∀ x ∈ tl, isDigit x) (hnc : ¬ isDigit c) (h13 : c ≠ ASC_CR)
    (h47 : c ≠ ASC_SLASH) :
    rdn { s with ch := d0, inp := upd s.inp (s.cis - 1) (tl ++ c :: r) }
      = ((d0 :: tl).foldl addDigit 0, { s with ch := c, inp := upd s.inp (s.cis - 1) r }) := by
  rw [rdn_digits { s with ch := d0, inp := upd s.inp (s.cis - 1) (tl ++ c :: r) } tl c r
    hd0 htl hnc h13 h47 (upd_same _ _ _)]
  simp only [upd_upd]

/-- The function `rdn` on a minus sign followed by a run of digits. -/
theorem rdn_neg (s : Machine) (d0 : Int) (tl : List Int) (c : Int) (r : List Int)
    (hd0 : isDigit d0) (htl : ∀ x ∈ tl, isDigit x) (hnc : ¬ isDigit c) (h13 : c ≠ ASC_CR)
    (h47 : c ≠ ASC_SLASH) :
    rdn { s with ch := ASC_MINUS, inp := upd s.inp (s.cis - 1) (d0 :: (tl ++ c :: r)) }
      = (toShort (-((d0 :: tl).foldl addDigit 0)),
          { s with ch := c, inp := upd s.inp (s.cis - 1) r }) := by
  obtain ⟨e13, e47, -⟩ := isDigit_facts hd0
  have hl : left { s with ch := d0, inp := upd s.inp (s.cis - 1) (tl ++ c :: r) }
      = (tl ++ c :: r).length := by
    simp [left]
  unfold rdn
  simp only [decide_True, if_true]
  rw [rch_rec s _ d0 _ e13 e47, hl,
    rdnLoop_digits tl _ 0 _ c r hd0 htl hnc h13 h47 (upd_same _ _ _) (by simp; omega)]
  simp only [upd_upd]

/-- The words an instruction with the code `N` and the numeric operand `D` is stored as:
one word when `(D & FN_MASK) == D`, else two. -/
theorem emit_spec (s : Machine) (N D c : Int) (r : List Int)
    (hL : 0 ≤ s.lomem ∧ s.lomem + 1 < WORDCOUNT) :
    ∃ s', (if D % (FN_MASK + 1) = D then
          stw (bitop Nat.lor N (D * 2 ^ FN_BITS))
            { s with ch := c, inp := upd s.inp (s.cis - 1) r }
        else do
          let s ← stw (orBit N FD_BIT) { s with ch := c, inp := upd s.inp (s.cis - 1) r }
          stw D s) = Res.ok s' ∧
      At s' (emitted s.m s.lomem N D) (s.lomem + instrWords D) c r ∧ s'.cp = 0 := by
  simp only [WORDCOUNT] at hL
  have hm0 : inMem s.lomem := by simp only [inMem, WORDCOUNT]; omega
  have hm1 : inMem (s.lomem + 1) := by simp only [inMem, WORDCOUNT]; omega
  have e256 : (255 : Int) + 1 = 256 := rfl
  have e28 : (2 : Int) ^ 8 = 256 := rfl
  have hs1 : toShort (s.lomem + 1) = s.lomem + 1 := by unfold toShort; omega
  have hs2 : toShort (s.lomem + 1 + 1) = s.lomem + 2 := by unfold toShort; omega
  by_cases hd : D % 256 = D
  · refine ⟨{ s with m := upd s.m s.lomem (toShort (bitop Nat.lor N (D * 256))),
                     lomem := s.lomem + 1, cp := 0, ch := c, inp := upd s.inp (s.cis - 1) r },
      ?_, ⟨?_, ?_, rfl, upd_same _ _ _⟩, rfl⟩
    · simp only [FN_MASK, FN_BITS, e256, e28, hd, if_true, stw, wr, hm0, Res.ok_bind,
        Res.pure_eq, hs1]
    · simp only [emitted, hd, if_true]
    · simp only [instrWords, hd, if_true]
  · refine ⟨{ s with
        m := upd (upd s.m s.lomem (toShort (orBit N FD_BIT))) (s.lomem + 1) (toShort D),
        lomem := s.lomem + 2, cp := 0, ch := c, inp := upd s.inp (s.cis - 1) r },
      ?_, ⟨?_, ?_, rfl, upd_same _ _ _⟩, rfl⟩
    · simp only [FN_MASK, FN_BITS, e256, e28, hd, stw, wr, hm0, hm1, Res.ok_bind,
        Res.pure_eq, hs1, hs2, if_true, if_false, FD_BIT]
    · simp only [emitted, hd, if_false]
    · simp only [instrWords, hd, if_false]
theorem asmInstr_flags (s : Machine) (m : Int → Int) (L c0 n d0 c : Int)
    (tl r : List Int) (fi fp neg : Bool)
    (h : At s m L c0 (flagText fi fp ++ (signText neg ++ d0 :: (tl ++ c :: r))))
    (hd0 : isDigit d0) (htl : ∀ x ∈ tl, isDigit x)
    (hc : ¬ isDigit c) (h13 : c ≠ ASC_CR) (h47 : c ≠ ASC_SLASH)
    (hL : 0 ≤ L ∧ L + 1 < WORDCOUNT) :
    ∃ s', asmInstr n s = Res.ok s' ∧
      At s' (emitted m L (withFlags n fi fp) (operand neg (d0 :: tl)))
        (L + instrWords (operand neg (d0 :: tl))) c r ∧ s'.cp = 0 := by
  obtain ⟨rfl, rfl, hch, hi⟩ := h
  obtain ⟨e13, e47, eI, eP, eG, eL, eM⟩ := isDigit_facts hd0
  have hrd := rdn_rec s d0 tl c r hd0 htl hc h13 h47
  have hrn := rdn_neg s d0 tl c r hd0 htl hc h13 h47
  have eI' : ASC_I ≠ d0 := Ne.symm eI
  have k1 := fun (x : Int) (r' : List Int) => rch_rec s x ASC_I r' (by decide) (by decide)
  have k2 := fun (x : Int) (r' : List Int) => rch_rec s x ASC_P r' (by decide) (by decide)
  have k3 := fun (x : Int) (r' : List Int) => rch_rec s x ASC_MINUS r' (by decide) (by decide)
  have k4 := fun (x : Int) (r' : List Int) => rch_rec s x d0 r' e13 e47
  have hs : s = { s with ch := s.ch, inp := upd s.inp (s.cis - 1) (s.inp (s.cis - 1)) } := by
    have : upd s.inp (s.cis - 1) (s.inp (s.cis - 1)) = s.inp := by
      funext j; unfold upd; split_ifs with hj
      · rw [hj]
      · rfl
    rw [this]
  unfold asmInstr
  rw [hs, hi]
  cases fi <;> cases fp <;> cases neg <;>
    simp only [flagText, signText, withFlags, operand, if_true, if_false, Bool.false_eq_true,
      List.nil_append, List.cons_append, List.append_nil] <;>
    simp only [k1, k2, k3, k4, eI, eP, eG, eL, eI', if_true, if_false, hrd, hrn,
      show ASC_I ≠ ASC_P from by decide, show ASC_I ≠ ASC_G from by decide,
      show ASC_I ≠ ASC_L from by decide, show ASC_P ≠ ASC_I from by decide,
      show ASC_P ≠ ASC_G from by decide, show ASC_P ≠ ASC_L from by decide,
      show ASC_MINUS ≠ ASC_I from by decide, show ASC_MINUS ≠ ASC_P from by decide,
      show ASC_MINUS ≠ ASC_G from by decide, show ASC_MINUS ≠ ASC_L from by decide] <;>
    exact emit_spec s _ _ c r hL

theorem withFlags_eq (n : Int) (fi fp : Bool) (hn : 0 ≤ n ∧ n < 8) :
    withFlags n fi fp = n + (if fi then 8 else 0) + (if fp then 16 else 0) := by
  cases fi <;> cases fp <;> simp [withFlags, orBit, hasBit] <;> omega

/-- The bitwise or of a code below 256 and an operand shifted past it is their sum. -/
theorem lor_shifted (N D : Int) (hN : 0 ≤ N ∧ N < 256) (hD : 0 ≤ D ∧ D < 256) :
    toWord (toShort (bitop Nat.lor N (D * 256))) = N + D * 256 := by
  have h1 : toWord N = N := by unfold toWord; omega
  have h2 : toWord (D * 256) = D * 256 := by unfold toWord; omega
  have h3 : N.toNat ||| (D * 256).toNat = 2 ^ 8 * D.toNat + N.toNat := by
    have e : (D * 256).toNat = 2 ^ 8 * D.toNat := by omega
    rw [e, Nat.lor_comm]
    exact (Nat.mul_add_lt_is_or (by omega) _).symm
  unfold bitop
  rw [toWord_toShort, toWord_toShort, h1, h2]
  show toWord (Int.ofNat (N.toNat ||| (D * 256).toNat)) = _
  rw [h3]
  unfold toWord
  simp only [Int.ofNat_eq_coe, Nat.cast_add, Nat.cast_mul, Nat.cast_pow, Nat.cast_ofNat]
  omega

theorem foldl_addDigit_isShort (l : List Int) : ∀ sum : Int, isShort sum →
    isShort (l.foldl addDigit sum) := by
  induction l with
  | nil => intro sum h; exact h
  | cons x l ih => intro sum _; exact ih _ (isShort_toShort _)

theorem operand_isShort (neg : Bool) (ds : List Int) : isShort (operand neg ds) := by
  cases neg
  · exact foldl_addDigit_isShort ds 0 (by decide)
  · exact isShort_toShort _

/-- Every 16-bit value is the operand of some text: an optional minus sign and digits. -/
theorem operand_cover (d : Int) (hd : isShort d) :
    ∃ (neg : Bool) (d0 : Int) (tl : List Int), isDigit d0 ∧ (∀ x ∈ tl, isDigit x) ∧
      operand neg (d0 :: tl) = d := by
  unfold isShort at hd
  by_cases h0 : 0 ≤ d
  · obtain ⟨c, tl, -, hc, htl, e⟩ := writedChars_nonneg d h0 hd.2
    exact ⟨false, c, tl, hc, htl, by simpa [operand] using e⟩
  · by_cases h1 : d = -32768
    · subst h1
      exact ⟨true, 51, [50, 55, 54, 56], by decide, by decide, by decide⟩
    · obtain ⟨c, tl, -, hc, htl, e⟩ := writedChars_neg d (by omega) (by omega)
      refine ⟨true, c, tl, hc, htl, ?_⟩
      simp only [operand, if_true, e, neg_neg]
      unfold toShort; omega

/-- The decoding of the words `emitted` stores at `L`. -/
theorem emitted_decode (m : Int → Int) (L n d : Int) (fi fp : Bool) (hn : 0 ≤ n ∧ n < 8)
    (hL : 0 ≤ L ∧ L + 1 < WORDCOUNT) (t : Machine)
    (hm : t.m = emitted m L (withFlags n fi fp) d) (hpc : t.pc = L) :
    opWord t % 8 = n ∧ hasBit (opWord t) FI_BIT = fi ∧ hasBit (opWord t) FP_BIT = fp ∧
      hasBit (opWord t) FD_BIT = decide (instrWords d = 2) ∧ rawDisp t = toWord d ∧
      pastInstr t = L + instrWords d := by
  simp only [WORDCOUNT] at hL
  have hN := withFlags_eq n fi fp hn
  have hNr : 0 ≤ withFlags n fi fp ∧ withFlags n fi fp < 32 := by
    rw [hN]; cases fi <;> cases fp <;> simp <;> omega
  have hp1 : toWord (L + 1) = L + 1 := by unfold toWord; omega
  have hp2 : toWord (L + 1 + 1) = L + 2 := by unfold toWord; omega
  by_cases hd : d % 256 = d
  · have hw : opWord t = withFlags n fi fp + d * 256 := by
      unfold opWord
      rw [hm, hpc]
      simp only [emitted, hd, if_true, upd_same, toWord_toShort]
      rw [← toWord_toShort]
      exact lor_shifted _ _ (by omega) (by omega)
    have hi : instrWords d = 1 := by simp only [instrWords, hd, if_true]
    have hD : hasBit (opWord t) FD_BIT = false := by
      rw [hw, hN]; cases fi <;> cases fp <;> simp [hasBit] <;> omega
    unfold rawDisp pastInstr
    rw [hD, hi, hpc, hp1]
    rw [hw, hN]
    unfold toWord
    cases fi <;> cases fp <;> simp [hasBit] <;> omega
  · have hO : orBit (withFlags n fi fp) FD_BIT = withFlags n fi fp + 32 := by
      have : hasBit (withFlags n fi fp) FD_BIT = false := by
        simp [hasBit]; omega
      unfold orBit; rw [this]; simp
    have hw : opWord t = withFlags n fi fp + 32 := by
      unfold opWord
      rw [hm, hpc]
      simp only [emitted, hd, if_false]
      rw [upd_other _ _ (by omega), upd_same, toWord_toShort, hO]
      unfold toWord; omega
    have hx : t.m (L + 1) = toShort d := by
      rw [hm]; simp only [emitted, hd, if_false, upd_same]
    have hi : instrWords d = 2 := by simp only [instrWords, hd, if_false]
    have hD : hasBit (opWord t) FD_BIT = true := by
      rw [hw, hN]; cases fi <;> cases fp <;> simp [hasBit] <;> omega
    unfold rawDisp pastInstr
    rw [hD, hi, hpc, hp1, hp2, hx, toWord_toShort]
    rw [hw, hN]
    cases fi <;> cases fp <;> simp [hasBit] <;> omega

/-- C17: an instruction statement (letter of code `n`, optional `I` and `P`, a numeric
operand `d` read by `rdn` from an optional minus sign and digits) is stored as exactly one
word when `d % 256 = d`, i.e. `0 ≤ d ≤ 255`, and as exactly two words, the first with
`FD_BIT` and the second equal to `d`, otherwise; decoding at the first stored word recovers
the code `n`, the two flags and the raw displacement `d mod 2^16`, and moves `pc` past the
words stored. -/
theorem encode_decode (f : Nat) (s : Machine) (m : Int → Int) (L c0 n d0 c : Int)
    (tl r : List Int) (fi fp neg : Bool)
    (h : At s m L c0 (flagText fi fp ++ (signText neg ++ d0 :: (tl ++ c :: r))))
    (hn : fnCode c0 = some n) (hd0 : isDigit d0) (htl : ∀ x ∈ tl, isDigit x)
    (hc : ¬ isDigit c) (h13 : c ≠ ASC_CR) (h47 : c ≠ ASC_SLASH)
    (hL : 0 ≤ L ∧ L + 1 < WORDCOUNT) :
    ∃ s', asmSw f s = Res.ok (some Lbl.sw, s') ∧
      s'.lomem = L + instrWords (operand neg (d0 :: tl)) ∧
      (instrWords (operand neg (d0 :: tl)) = 1 ∨ instrWords (operand neg (d0 :: tl)) = 2) ∧
      (instrWords (operand neg (d0 :: tl)) = 1 ↔
        0 ≤ operand neg (d0 :: tl) ∧ operand neg (d0 :: tl) ≤ 255) ∧
      (∀ x, x < L ∨ L + instrWords (operand neg (d0 :: tl)) ≤ x → s'.m x = m x) ∧
      (instrWords (operand neg (d0 :: tl)) = 2 → s'.m (L + 1) = operand neg (d0 :: tl)) ∧
      ∀ t : Machine, t.m = s'.m → t.pc = L →
        opWord t % 8 = n ∧ hasBit (opWord t) FI_BIT = fi ∧ hasBit (opWord t) FP_BIT = fp ∧
        hasBit (opWord t) FD_BIT = decide (instrWords (operand neg (d0 :: tl)) = 2) ∧
        rawDisp t = toWord (operand neg (d0 :: tl)) ∧
        pastInstr t = L + instrWords (operand neg (d0 :: tl)) ∧
        (decodable t → fetch t = Res.ok (decoded t)) := by
  obtain ⟨s', e, ⟨hm, hl, hch, hi⟩, -⟩ :=
    asmInstr_flags s m L c0 n d0 c tl r fi fp neg h hd0 htl hc h13 h47 hL
  have hsh := operand_isShort neg (d0 :: tl)
  generalize operand neg (d0 :: tl) = d at hm hl hsh ⊢
  refine ⟨s', ?_, hl, ?_, ?_, ?_, ?_, ?_⟩
  · rw [asmSw_instr f s n (h.2.2.1 ▸ hn), e]; rfl
  · unfold instrWords; split_ifs <;> simp
  · unfold instrWords; split_ifs with hd <;> simp <;> omega
  · intro x hx; rw [hm]; exact emitted_other _ _ _ _ _ hx
  · intro h2
    have hd : ¬ d % 256 = d := by
      intro hd; simp [instrWords, hd] at h2
    rw [hm]
    simp only [emitted, hd, if_false, upd_same]
    exact toShort_of_isShort hsh
  · intro t ht hpc
    obtain ⟨a1, a2, a3, a4, a5, a6⟩ :=
      emitted_decode m L n d fi fp (fnCode_some hn).2 hL t (ht.trans hm) hpc
    exact ⟨a1, a2, a3, a4, a5, a6, fetch_decoded t⟩

/-- Witness of C17: the statement `LIP-300` at 404 is stored as the two words 56 and -300,
and decodes to `L` with both flags and the raw displacement 65236. -/
theorem encode_decode_witness :
    ∃ s', asmSw 0 (asmDemo 76 [73, 80, 45, 51, 48, 48, 32]) = Res.ok (some Lbl.sw, s') ∧
      s'.lomem = 404 + instrWords (operand true (51 :: [48, 48])) ∧
      (instrWords (operand true (51 :: [48, 48])) = 1 ∨
        instrWords (operand true (51 :: [48, 48])) = 2) ∧
      (instrWords (operand true (51 :: [48, 48])) = 1 ↔
        0 ≤ operand true (51 :: [48, 48]) ∧ operand true (51 :: [48, 48]) ≤ 255) ∧
      (∀ x, x < 404 ∨ 404 + instrWords (operand true (51 :: [48, 48])) ≤ x →
        s'.m x = (fun _ => 0) x) ∧
      (instrWords (operand true (51 :: [48, 48])) = 2 →
        s'.m (404 + 1) = operand true (51 :: [48, 48])) ∧
      ∀ t : Machine, t.m = s'.m → t.pc = 404 →
        opWord t % 8 = 0 ∧ hasBit (opWord t) FI_BIT = true ∧ hasBit (opWord t) FP_BIT = true ∧
        hasBit (opWord t) FD_BIT = decide (instrWords (operand true (51 :: [48, 48])) = 2) ∧
        rawDisp t = toWord (operand true (51 :: [48, 48])) ∧
        pastInstr t = 404 + instrWords (operand true (51 :: [48, 48])) ∧
        (decodable t → fetch t = Res.ok (decoded t)) :=
  encode_decode 0 (asmDemo 76 [73, 80, 45, 51, 48, 48, 32]) (fun _ => 0) 404 76 0 51 32
    [48, 48] [] true true true ⟨rfl, rfl, rfl, rfl⟩ rfl (by decide) (by decide) (by decide)
    (by decide) (by decide) (by decide)

/-! ## C14: unknown system calls -/

theorem noHalt_bind {α β : Type} {r : Res α} {f : α → Res β} (h1 : r.noHalt)
    (h2 : ∀ x, (f x).noHalt) : (r >>= f).noHalt := by
  cases r with
  | ok x => exact h2 x
  | halted msg n s => exact h1.elim
  | undef => trivial
  | timeout => trivial
  | host a s => trivial

theorem noHalt_ne {α : Type} {r : Res α} (h : r.noHalt) (msg : String) (n : Int)
    (t : Machine) : r ≠ Res.halted msg n t := by
  intro e; rw [e] at h; exact h

theorem rd_noHalt (s : Machine) (i : Int) : (rd s i).noHalt := by
  unfold rd; split <;> trivial

theorem wr_noHalt (s : Machine) (i x : Int) : (wr s i x).noHalt := by
  unfold wr; split <;> trivial

theorem rdb_noHalt (s : Machine) (i : Int) : (rdb s i).noHalt := by
  unfold rdb; split <;> trivial

theorem wrb_noHalt (s : Machine) (i c : Int) : (wrb s i c).noHalt := by
  unfold wrb; split <;> trivial

theorem writed_noHalt (n d : Int) (s : Machine) : (writed n d s).noHalt := by
  unfold writed; split <;> trivial

theorem writesLoop_noHalt (l : Nat) : ∀ (p : Int) (s : Machine),
    (writesLoop l p s).noHalt := by
  induction l with
  | zero => intro p s; trivial
  | succ l ih => intro p s; exact noHalt_bind (rdb_noHalt _ _) (fun c => ih _ _)

theorem writes_noHalt (p : Int) (s : Machine) : (writes p s).noHalt :=
  noHalt_bind (rdb_noHalt _ _) (fun _ => writesLoop_noHalt _ _ _)

theorem unpackLoop_noHalt (k : Nat) : ∀ (p v : Int) (st : Machine),
    (unpackLoop k p v st).noHalt := by
  induction k with
  | zero => intro p v st; trivial
  | succ k ih =>
    intro p v st
    exact noHalt_bind (rdb_noHalt _ _) (fun c =>
      noHalt_bind (wr_noHalt _ _ _) (fun _ => ih _ _ _))

theorem packLoop_noHalt (k : Nat) : ∀ (v p : Int) (st : Machine),
    (packLoop k v p st).noHalt := by
  induction k with
  | zero => intro v p st; trivial
  | succ k ih =>
    intro v p st
    exact noHalt_bind (rd_noHalt _ _) (fun c =>
      noHalt_bind (wrb_noHalt _ _ _) (fun _ => ih _ _ _))

theorem aptovec_noHalt (v : Int) (s : Machine) : (aptovec v s).noHalt := by
  unfold aptovec
  refine noHalt_bind (rd_noHalt _ _) (fun _ => noHalt_bind (wr_noHalt _ _ _) (fun _ =>
    noHalt_bind (wr_noHalt _ _ _) (fun _ => noHalt_bind (wr_noHalt _ _ _) (fun _ =>
    noHalt_bind (rd_noHalt _ _) (fun _ => noHalt_bind (wr_noHalt _ _ _) (fun _ =>
    noHalt_bind (rd_noHalt _ _) (fun _ => trivial)))))))

theorem writefLoop_noHalt (k : Nat) : ∀ (p ss v : Int) (s : Machine),
    (writefLoop k p ss v s).noHalt := by
  induction k with
  | zero => intro p ss v s; trivial
  | succ k ih =>
    intro p ss v s
    unfold writefLoop
    refine noHalt_bind (rdb_noHalt _ _) (fun len => ?_)
    split
    · refine noHalt_bind (rdb_noHalt _ _) (fun c => ?_)
      split
      · exact ih _ _ _ _
      · refine noHalt_bind (rdb_noHalt _ _) (fun c => ?_)
        split_ifs
        · exact noHalt_bind (rd_noHalt _ _) (fun _ =>
            noHalt_bind (writes_noHalt _ _) (fun _ => ih _ _ _ _))
        · exact noHalt_bind (rd_noHalt _ _) (fun _ => ih _ _ _ _)
        · exact noHalt_bind (rd_noHalt _ _) (fun _ =>
            noHalt_bind (rdb_noHalt _ _) (fun _ => ih _ _ _ _))
        · exact noHalt_bind (rd_noHalt _ _) (fun _ =>
            noHalt_bind (rdb_noHalt _ _) (fun _ => ih _ _ _ _))
        · exact noHalt_bind (rd_noHalt _ _) (fun _ =>
            noHalt_bind (rdb_noHalt _ _) (fun _ =>
              noHalt_bind (writed_noHalt _ _ _) (fun _ => ih _ _ _ _)))
        · exact noHalt_bind (rd_noHalt _ _) (fun _ =>
            noHalt_bind (writed_noHalt _ _ _) (fun _ => ih _ _ _ _))
        · exact ih _ _ _ _
    · trivial

theorem wrch_shape (c : Int) (s : Machine) : ∃ o, wrch c s = { s with out := o } := by
  unfold wrch newline hostWrite
  split <;> exact ⟨_, rfl⟩

theorem wrchs_shape (cs : List Int) : ∀ s : Machine, ∃ o, wrchs cs s = { s with out := o } := by
  induction cs with
  | nil => intro s; exact ⟨s.out, rfl⟩
  | cons c cs ih =>
    intro s
    obtain ⟨o1, h1⟩ := wrch_shape c s
    obtain ⟨o2, h2⟩ := ih (wrch c s)
    refine ⟨o2, ?_⟩
    rw [wrchs, h2, h1]

/-- The function `writen` returns for every 16-bit number, and only writes. -/
theorem writen_shape (n : Int) (hn : isShort n) (s : Machine) :
    ∃ o, writen n s = Res.ok { s with out := o } := by
  have h : ∃ cs, writedChars n 0 = some cs := by
    unfold isShort at hn
    by_cases h0 : 0 ≤ n
    · obtain ⟨c, tl, e, -⟩ := writedChars_nonneg n h0 hn.2
      exact ⟨_, e⟩
    · by_cases h1 : n = -32768
      · subst h1; exact ⟨[45, 45, 46, 41, 42, 40], by decide⟩
      · obtain ⟨c, tl, e, -⟩ := writedChars_neg n (by omega) (by omega)
        exact ⟨_, e⟩
  obtain ⟨cs, e⟩ := h
  obtain ⟨o, ho⟩ := wrchs_shape cs s
  refine ⟨o, ?_⟩
  unfold writen writed
  rw [e, ← ho]

/-- The function `halt` with a 16-bit detail ends the run with its message and detail; of the
machine it changes only the output streams and `cos`. -/
theorem halt_spec {α : Type} (msg : String) (n : Int) (hn : isShort n) (s : Machine) :
    ∃ o, (halt msg n s : Res α) = Res.halted msg n { s with cos := s.sysprint, out := o } := by
  unfold halt
  by_cases h0 : n = 0
  · subst h0
    exact ⟨_, rfl⟩
  · obtain ⟨o, ho⟩ := writen_shape n hn
      (writecstr (cbytes " #") (writecstr (cbytes msg) { s with cos := s.sysprint }))
    refine ⟨upd o (s.sysprint - 1) (o (s.sysprint - 1) ++ [ASC_LF]), ?_⟩
    simp only [ne_eq, h0, not_false_eq_true, if_true, ho]
    rfl

theorem packstring_noHalt (v sw : Int) (st : Machine) : (packstring v sw st).noHalt := by
  unfold packstring
  exact noHalt_bind (rd_noHalt _ _) (fun _ => noHalt_bind (wr_noHalt _ _ _) (fun _ =>
    noHalt_bind (packLoop_noHalt _ _ _ _) (fun _ => trivial)))

theorem unpackstring_noHalt (sw v : Int) (st : Machine) : (unpackstring sw v st).noHalt :=
  noHalt_bind (rdb_noHalt _ _) (fun _ => unpackLoop_noHalt _ _ _ _)

theorem writef_noHalt (v : Int) (s : Machine) : (writef v s).noHalt :=
  noHalt_bind (rd_noHalt _ _) (fun _ => writefLoop_noHalt _ _ _ _ _)

theorem ite_noHalt {α : Type} {c : Prop} [Decidable c] {x y : Res α} (hx : c → x.noHalt)
    (hy : ¬ c → y.noHalt) : (if c then x else y).noHalt := by
  split
  · next h => exact hx h
  · next h => exact hy h

/-- A dispatched system call does not halt. -/
theorem syscall_dispatched (s : Machine) (h : s.a ∈ dispatched) : (syscall s).noHalt := by
  simp only [dispatched, List.mem_cons, List.mem_singleton, List.not_mem_nil, or_false] at h
  unfold syscall
  simp only [K11_SELECTINPUT, K12_SELECTOUTPUT, K13_RDCH, K14_WRCH, K16_INPUT, K17_OUTPUT,
    K30_STOP, K31_LEVEL, K32_LONGJUMP, K40_APTOVEC, K41_FINDOUTPUT, K42_FINDINPUT, K46_ENDREAD,
    K47_ENDWRITE, K60_WRITES, K62_WRITEN, K63_NEWLINE, K64_NEWPAGE, K66_PACKSTRING,
    K67_UNPACKSTRING, K68_WRITED, K70_READN, K75_WRITEHEX, K76_WRITEF, K77_WRITEOCT,
    K85_GETBYTE, K86_PUTBYTE]
  refine ite_noHalt (fun _ => ?_) (fun h1 => ?_)
  · exact noHalt_bind (rd_noHalt _ _) (fun _ => trivial)
  refine ite_noHalt (fun _ => ?_) (fun h2 => ?_)
  · exact noHalt_bind (rd_noHalt _ _) (fun _ => trivial)
  refine ite_noHalt (fun _ => ?_) (fun h3 => ?_)
  · exact trivial
  refine ite_noHalt (fun _ => ?_) (fun h4 => ?_)
  · exact noHalt_bind (rd_noHalt _ _) (fun _ => trivial)
  refine ite_noHalt (fun _ => ?_) (fun h5 => ?_)
  · exact trivial
  refine ite_noHalt (fun _ => ?_) (fun h6 => ?_)
  · exact trivial
  refine ite_noHalt (fun _ => ?_) (fun h7 => ?_)
  · exact noHalt_bind (rd_noHalt _ _) (fun _ => trivial)
  refine ite_noHalt (fun _ => ?_) (fun h8 => ?_)
  · exact trivial
  refine ite_noHalt (fun _ => ?_) (fun h9 => ?_)
  · exact noHalt_bind (rd_noHalt _ _) (fun _ => noHalt_bind (rd_noHalt _ _) (fun _ => trivial))
  refine ite_noHalt (fun _ => ?_) (fun h10 => ?_)
  · exact noHalt_bind (aptovec_noHalt _ _) (fun _ => trivial)
  refine ite_noHalt (fun _ => ?_) (fun h11 => ?_)
  · exact trivial
  refine ite_noHalt (fun _ => ?_) (fun h12 => ?_)
  · exact noHalt_bind (rd_noHalt _ _) (fun _ => noHalt_bind (writes_noHalt _ _) (fun _ => trivial))
  refine ite_noHalt (fun _ => ?_) (fun h13 => ?_)
  · exact noHalt_bind (rd_noHalt _ _) (fun _ =>
      noHalt_bind (writed_noHalt _ _ _) (fun _ => trivial))
  refine ite_noHalt (fun _ => ?_) (fun h14 => ?_)
  · exact trivial
  refine ite_noHalt (fun _ => ?_) (fun h15 => ?_)
  · exact trivial
  refine ite_noHalt (fun _ => ?_) (fun h16 => ?_)
  · exact noHalt_bind (rd_noHalt _ _) (fun _ => noHalt_bind (rd_noHalt _ _) (fun _ =>
      noHalt_bind (packstring_noHalt _ _ _) (fun _ => trivial)))
  refine ite_noHalt (fun _ => ?_) (fun h17 => ?_)
  · exact noHalt_bind (rd_noHalt _ _) (fun _ => noHalt_bind (rd_noHalt _ _) (fun _ =>
      noHalt_bind (unpackstring_noHalt _ _ _) (fun _ => trivial)))
  refine ite_noHalt (fun _ => ?_) (fun h18 => ?_)
  · exact noHalt_bind (rd_noHalt _ _) (fun _ => noHalt_bind (rd_noHalt _ _) (fun _ =>
      noHalt_bind (writed_noHalt _ _ _) (fun _ => trivial)))
  refine ite_noHalt (fun _ => ?_) (fun h19 => ?_)
  · exact trivial
  refine ite_noHalt (fun _ => ?_) (fun h20 => ?_)
  · exact noHalt_bind (rd_noHalt _ _) (fun _ => noHalt_bind (rd_noHalt _ _) (fun _ => trivial))
  refine ite_noHalt (fun _ => ?_) (fun h21 => ?_)
  · exact noHalt_bind (rd_noHalt _ _) (fun _ => noHalt_bind (rd_noHalt _ _) (fun _ => trivial))
  refine ite_noHalt (fun _ => ?_) (fun h22 => ?_)
  · exact noHalt_bind (writef_noHalt _ _) (fun _ => trivial)
  refine ite_noHalt (fun _ => ?_) (fun h23 => ?_)
  · exact noHalt_bind (rd_noHalt _ _) (fun _ => noHalt_bind (rd_noHalt _ _) (fun _ =>
      noHalt_bind (rdb_noHalt _ _) (fun _ => trivial)))
  refine ite_noHalt (fun _ => ?_) (fun h24 => ?_)
  · exact noHalt_bind (rd_noHalt _ _) (fun _ => noHalt_bind (rd_noHalt _ _) (fun _ =>
      noHalt_bind (rd_noHalt _ _) (fun _ => noHalt_bind (wrb_noHalt _ _ _) (fun _ => trivial))))
  omega

/-- A call number that is not dispatched reaches the `default` of the `switch`. -/
theorem syscall_default (s : Machine) (h : s.a ∉ dispatched) :
    syscall s = halt STR_UNKNOWN_CALL s.a s := by
  simp only [dispatched, List.mem_cons, List.mem_singleton, List.not_mem_nil, or_false,
    not_or] at h
  unfold syscall
  simp only [K11_SELECTINPUT, K12_SELECTOUTPUT, K13_RDCH, K14_WRCH, K16_INPUT, K17_OUTPUT,
    K30_STOP, K31_LEVEL, K32_LONGJUMP, K40_APTOVEC, K41_FINDOUTPUT, K42_FINDINPUT, K46_ENDREAD,
    K47_ENDWRITE, K60_WRITES, K62_WRITEN, K63_NEWLINE, K64_NEWPAGE, K66_PACKSTRING,
    K67_UNPACKSTRING, K68_WRITED, K70_READN, K75_WRITEHEX, K76_WRITEF, K77_WRITEOCT,
    K85_GETBYTE, K86_PUTBYTE]
  repeat (rw [if_neg (by omega)])

/-- A call of a routine (`a ≥ PROGSTART`) does not halt. -/
theorem exec_call_noHalt {s1 : Machine} (hk : s1.w % 8 = F6_K) (ha : PROGSTART ≤ s1.a) :
    (exec s1).noHalt := by
  simp only [PROGSTART] at ha
  have hna : ¬ s1.a < 401 := by omega
  unfold exec
  rw [hk]
  simp only [F6_K, F0_L, F1_S, F2_A, F3_J, F4_T, F5_F, PROGSTART, hna, if_false, if_true,
    show ¬ ((6 : Int) = 0) from by decide, show ¬ ((6 : Int) = 1) from by decide,
    show ¬ ((6 : Int) = 2) from by decide, show ¬ ((6 : Int) = 3) from by decide,
    show ¬ ((6 : Int) = 4) from by decide, show ¬ ((6 : Int) = 5) from by decide]
  exact noHalt_bind (wr_noHalt _ _ _) (fun _ => noHalt_bind (wr_noHalt _ _ _) (fun _ => trivial))

/-- C14: a `K` instruction with the 16-bit accumulator `a` halts with `UNKNOWN CALL` and the
detail `a` exactly when `a < PROGSTART` and `a` is none of the dispatched call numbers; with
`a ≥ PROGSTART` it does not halt, and builds a call frame (old `sp` and return address at the
new `sp`, `pc = a`) when the two words of the frame are words of `m`. -/
theorem unknown_call (s s1 : Machine) (hf : fetch s = Res.ok s1) (hk : s1.w % 8 = F6_K)
    (ha : isShort s.a) :
    ((∃ t, step s = Res.halted STR_UNKNOWN_CALL s.a t) ↔
        (s.a < PROGSTART ∧ s.a ∉ dispatched)) ∧
      (PROGSTART ≤ s.a → (step s).noHalt ∧
        (inMem (toWord (s1.d + s.sp)) → inMem (toWord (s1.d + s.sp) + 1) →
          ∃ s2, step s = Res.ok (none, s2) ∧ s2.sp = toWord (s1.d + s.sp) ∧
            s2.pc = toWord s.a ∧ s2.m (toWord (s1.d + s.sp)) = toShort s.sp ∧
            s2.m (toWord (s1.d + s.sp) + 1) = toShort s1.pc)) := by
  rw [step_eq_exec hf, ← fetch_a hf, ← fetch_sp hf]
  rw [← fetch_a hf] at ha
  by_cases hlt : s1.a < PROGSTART
  · have hx := exec_syscall hk hlt
    refine ⟨⟨?_, ?_⟩, ?_⟩
    · rintro ⟨t, ht⟩
      refine ⟨hlt, fun hin => ?_⟩
      rw [hx] at ht
      exact noHalt_ne (syscall_dispatched { s1 with d := toWord (s1.d + s1.sp) } hin) _ _ _ ht
    · rintro ⟨-, hnin⟩
      rw [hx, syscall_default { s1 with d := toWord (s1.d + s1.sp) } hnin]
      obtain ⟨o, ho⟩ := halt_spec STR_UNKNOWN_CALL s1.a ha
        { s1 with d := toWord (s1.d + s1.sp) }
      exact ⟨_, ho⟩
    · intro hge; simp only [PROGSTART] at hlt hge; omega
  · have hge : PROGSTART ≤ s1.a := by omega
    refine ⟨⟨?_, ?_⟩, ?_⟩
    · rintro ⟨t, ht⟩
      exact absurd ht (noHalt_ne (exec_call_noHalt hk hge) _ _ _)
    · rintro ⟨h, -⟩; exact absurd h hlt
    · intro _
      refine ⟨exec_call_noHalt hk hge, fun hd hd1 => ?_⟩
      rw [exec_call hk hge hd hd1]
      refine ⟨_, rfl, rfl, rfl, ?_, ?_⟩
      · have hne : toWord (s1.d + s1.sp) ≠ toWord (s1.d + s1.sp) + 1 := by omega
        simp only [upd_other _ _ hne, upd_same]
      · simp only [upd_same]

/-- Witness of C14: `K 2` with `a = 100`, which is below `PROGSTART` and not dispatched,
halts with `UNKNOWN CALL #100`. -/
theorem unknown_call_witness :
    isShort (callTo 100).a ∧ (∃ t, step (callTo 100) = Res.halted STR_UNKNOWN_CALL 100 t) :=
  ⟨by decide, (unknown_call (callTo 100) { callTo 100 with w := 518, d := 2, pc := 501 } rfl
    (by decide) (by decide)).1.2 ⟨by decide, by decide⟩⟩

/-! ## C15: the bootstrap -/

theorem interpret_entry (fuel : Nat) (s : Machine) : interpret fuel s = run fuel (entry s) :=
  rfl

/-- The memory and `lomem` that `init` leaves. -/
theorem init_spec (s0 : Machine) :
    ∃ s', init s0 = Res.ok s' ∧ (∀ i, 0 ≤ i ∧ i < PROGSTART → s'.m i = i) ∧
      s'.m 401 = F0_L + FI_BIT + K01_START * 256 ∧ s'.m 402 = F6_K + 2 * 256 ∧
      s'.m 403 = F7_X + 22 * 256 ∧ s'.lomem = 404 ∧ s'.cp = 0 := by
  have e1 : bitop Nat.lor (orBit F0_L FI_BIT) (K01_START * 2 ^ FN_BITS) = 264 := by decide
  have e2 : bitop Nat.lor F6_K (2 * 2 ^ FN_BITS) = 518 := by decide
  have e3 : bitop Nat.lor F7_X (22 * 2 ^ FN_BITS) = 5639 := by decide
  refine ⟨{ s0 with
      m := upd (upd (upd (fun i => if 0 ≤ i ∧ i < PROGSTART then i else s0.m i) 401 264)
        402 518) 403 5639,
      lomem := 404, cp := 0, cis := 1, sysin := 1, cos := 2, sysprint := 2 }, ?_, ?_, ?_, ?_, ?_,
    rfl, rfl⟩
  · unfold init
    rw [e1, e2, e3]
    rfl
  · intro i hi
    simp only [PROGSTART] at hi
    show upd (upd (upd _ 401 264) 402 518) 403 5639 i = i
    rw [upd_other _ _ (show i ≠ 403 by omega), upd_other _ _ (show i ≠ 402 by omega),
      upd_other _ _ (show i ≠ 401 by omega)]
    simp only [PROGSTART, hi, and_self, if_true]
  · rfl
  · rfl
  · rfl

/-- The two instructions of the bootstrap, `L I 1` and `K 2`, from the entry of `interpret`:
the start routine is called with a frame at `lomem + 2`. -/
theorem boot_steps (t : Machine) (l st : Int)
    (h401 : t.m 401 = F0_L + FI_BIT + K01_START * 256) (h402 : t.m 402 = F6_K + 2 * 256)
    (h1 : t.m 1 = st) (hst : PROGSTART ≤ st ∧ st ≤ 32767) (hl : t.lomem = l)
    (hl4 : 404 ≤ l ∧ l + 3 < WORDCOUNT) :
    ∃ t1 t2, step (entry t) = Res.ok (none, t1) ∧ step t1 = Res.ok (none, t2) ∧
      t2.pc = st ∧ t2.sp = l + 2 ∧ t2.m (l + 2) = l ∧ t2.m (l + 3) = 403 ∧
      ∀ x, x ≠ l + 2 → x ≠ l + 3 → t2.m x = t.m x := by
  simp only [PROGSTART, WORDCOUNT, F0_L, FI_BIT, K01_START, F6_K] at h401 h402 hst hl4
  norm_num at h401 h402
  have hlw : toWord l = l := by unfold toWord; omega
  have hstw : toWord st = st := by unfold toWord; omega
  have hsts : toShort st = st := by unfold toShort; omega
  have hf1 : fetch (entry t) = Res.ok { entry t with w := 264, d := st, pc := 402 } := by
    simp only [fetch, entry, rd, PROGSTART]
    simp [hasBit, toWord, inMem, h401, h1]
    unfold toWord at hstw; exact hstw
  have hf2 : fetch { entry t with w := 264, d := st, pc := 402, b := 0, a := st }
      = Res.ok { entry t with w := 518, d := 2, pc := 403, b := 0, a := st } := by
    simp only [fetch, entry, rd, PROGSTART]
    simp [hasBit, toWord, inMem, h402]
  have hx1 : step (entry t)
      = Res.ok (none, { entry t with w := 264, d := st, pc := 402, b := 0, a := st }) := by
    rw [step_eq_exec hf1]
    unfold exec
    simp [entry, hsts]
  have hm2 : inMem (l + 2) := by simp only [inMem, WORDCOUNT]; omega
  have hm3 : inMem (l + 2 + 1) := by simp only [inMem, WORDCOUNT]; omega
  have hd : toWord (2 + toWord l) = l + 2 := by unfold toWord; omega
  have hx2 := @exec_call { entry t with w := 518, d := 2, pc := 403, b := 0, a := st }
    rfl (by simp only [PROGSTART]; omega)
    (by show inMem (toWord (2 + toWord t.lomem)); rw [hl, hd]; exact hm2)
    (by show inMem (toWord (2 + toWord t.lomem) + 1); rw [hl, hd]; exact hm3)
  refine ⟨_, _, hx1, (step_eq_exec hf2).trans hx2, ?_⟩
  · have e1 : (entry t).sp = toWord l := by rw [← hl]; rfl
    have e2 : (entry t).m = t.m := rfl
    have hd' : toWord (2 + l) = l + 2 := by unfold toWord; omega
    simp only [e1, e2, hlw, hd', hstw]
    refine ⟨trivial, trivial, ?_, ?_, ?_⟩
    · rw [upd_other _ _ (show l + 2 ≠ l + 2 + 1 by omega), upd_same]
      unfold toShort; omega
    · rw [show l + 3 = l + 2 + 1 by ring, upd_same]; rfl
    · intro x h2 h3
      rw [upd_other _ _ (show x ≠ l + 2 + 1 by omega), upd_other _ _ h2]

/-- A return into the bootstrap: `X 4` with the frame of the start routine intact goes back
to 403, where `X 22` ends `interpret` with the value 0. -/
theorem boot_return (u u1 : Machine) (l : Int) (hf : fetch u = Res.ok u1)
    (hx : u1.w % 8 = F7_X) (h4 : u1.d = 4) (hsp : u.sp = l + 2) (hm0 : u.m (l + 2) = l)
    (hm1 : u.m (l + 3) = 403) (h403 : u.m 403 = F7_X + 22 * 256)
    (hl4 : 404 ≤ l ∧ l + 3 < WORDCOUNT) :
    ∃ u2 u3, step u = Res.ok (none, u2) ∧ u2.pc = 403 ∧ u2.sp = l ∧
      step u2 = Res.ok (some 0, u3) ∧ ∀ f, run (f + 2) u = Res.ok (0, u3) := by
  simp only [F7_X, WORDCOUNT] at h403 hl4
  norm_num at h403
  have hlw : toWord l = l := by unfold toWord; omega
  have e0 : inMem u1.sp := by
    rw [fetch_sp hf, hsp]; simp only [inMem, WORDCOUNT]; omega
  have e1 : inMem (u1.sp + 1) := by
    rw [fetch_sp hf, hsp]; simp only [inMem, WORDCOUNT]; omega
  have hr := exec_return hx h4 e0 e1
  have hv1 : toWord (u1.m (u1.sp + 1)) = 403 := by
    rw [fetch_sp hf, fetch_m hf, hsp, show l + 2 + 1 = l + 3 by ring, hm1]; rfl
  have hv0 : toWord (u1.m u1.sp) = l := by
    rw [fetch_sp hf, fetch_m hf, hsp, hm0, hlw]
  rw [hv1, hv0] at hr
  have hs1 : step u = Res.ok (none, { u1 with pc := 403, sp := l }) := by
    rw [step_eq_exec hf]; exact hr
  have hf2 : fetch { u1 with pc := 403, sp := l }
      = Res.ok { u1 with w := 5639, d := 22, pc := 404, sp := l } := by
    simp only [fetch, rd]
    rw [fetch_m hf]
    simp [hasBit, toWord, inMem, h403]
  have hs2 : step { u1 with pc := 403, sp := l }
      = Res.ok (some 0, { u1 with w := 5639, d := 22, pc := 404, sp := l }) := by
    rw [step_eq_exec hf2]
    unfold exec
    simp [execX]
  refine ⟨_, _, hs1, rfl, rfl, hs2, fun f => ?_⟩
  rw [run, hs1]
  simp only [Res.ok_bind]
  rw [run, hs2]
  rfl

/-! ## C12, C19: label definitions and duplicates -/

theorem reads_refl (s : Machine) : reads s s := ⟨s.ch, s.inp, rfl⟩

theorem reads_trans {s t u : Machine} (h1 : reads s t) (h2 : reads t u) : reads s u := by
  obtain ⟨c1, i1, rfl⟩ := h1
  obtain ⟨c2, i2, rfl⟩ := h2
  exact ⟨c2, i2, rfl⟩

theorem rdchCh_reads (s : Machine) : reads s (rdchCh s) := by
  unfold rdchCh rdch
  split
  · exact ⟨_, _, rfl⟩
  · exact ⟨_, _, rfl⟩

theorem rchLine_reads (k : Nat) : ∀ s : Machine, reads s (rchLine k s) := by
  induction k with
  | zero => intro s; exact rdchCh_reads s
  | succ k ih =>
    intro s
    unfold rchLine
    split
    · exact reads_trans (rdchCh_reads s) (ih _)
    · exact rdchCh_reads s

theorem rchLFs_reads (k : Nat) : ∀ s : Machine, reads s (rchLFs k s) := by
  induction k with
  | zero => intro s; exact reads_refl s
  | succ k ih =>
    intro s
    unfold rchLFs
    split
    · exact reads_trans (rdchCh_reads s) (ih _)
    · exact reads_refl s

theorem rchLoop_reads (k : Nat) : ∀ s : Machine, reads s (rchLoop k s) := by
  induction k with
  | zero => intro s; exact reads_refl s
  | succ k ih =>
    intro s
    unfold rchLoop
    split
    · exact reads_trans (reads_trans (rchLine_reads _ s) (rchLFs_reads _ _)) (ih _)
    · exact reads_refl s

/-- The function `rch` changes only `ch` and the input streams. -/
theorem rch_reads (s : Machine) : reads s (rch s) :=
  reads_trans (rdchCh_reads s) (rchLoop_reads _ _)

theorem rdnLoop_reads (k : Nat) : ∀ (sum : Int) (s : Machine), reads s (rdnLoop k sum s).2 := by
  induction k with
  | zero => intro sum s; exact reads_refl s
  | succ k ih =>
    intro sum s
    unfold rdnLoop
    split
    · exact reads_trans (rch_reads s) (ih _ _)
    · exact reads_refl s

/-- The function `rdn` changes only `ch` and the input streams. -/
theorem rdn_reads (s : Machine) : reads s (rdn s).2 := by
  unfold rdn
  by_cases h : s.ch = ASC_MINUS
  · simp only [h, decide_True, if_true]
    exact reads_trans (rch_reads s) (rdnLoop_reads _ _ _)
  · simp only [h, decide_False, Bool.false_eq_true, if_false]
    exact rdnLoop_reads _ _ _

theorem reads_m {s t : Machine} (h : reads s t) : t.m = s.m := by
  obtain ⟨c, i, rfl⟩ := h; rfl

theorem reads_lomem {s t : Machine} (h : reads s t) : t.lomem = s.lomem := by
  obtain ⟨c, i, rfl⟩ := h; rfl

theorem reads_cp {s t : Machine} (h : reads s t) : t.cp = s.cp := by
  obtain ⟨c, i, rfl⟩ := h; rfl

theorem chain_noHalt (f : Nat) : ∀ (k : Int) (s : Machine), (chain f k s).noHalt := by
  induction f with
  | zero => intro k s; unfold chain; split <;> trivial
  | succ f ih =>
    intro k s
    unfold chain
    split
    · exact noHalt_bind (rd_noHalt _ _) (fun _ => noHalt_bind (wr_noHalt _ _ _) (fun _ => ih _ _))
    · trivial

/-- The definition of a label whose slot is negative halts with `DUPLICATE LABEL`; of the
machine it changes only the output streams and `cos`. -/
theorem defineLabel_dup (fuel : Nat) (n : Int) (s : Machine) (hn : 0 ≤ n ∧ n < LABVCOUNT)
    (h : s.m (labv n) < 0) :
    ∃ o, defineLabel fuel n s
      = Res.halted STR_DUPLICATE_LABEL n { s with cos := s.sysprint, out := o } := by
  simp only [LABVCOUNT] at hn
  have hlm : inMem (labv n) := by simp only [inMem, labv, WORDCOUNT, LABVCOUNT]; omega
  obtain ⟨o, ho⟩ := halt_spec (α := Machine) STR_DUPLICATE_LABEL n
    (by unfold isShort; omega) s
  refine ⟨o, ?_⟩
  unfold defineLabel
  simp only [rd, hlm, if_true, Res.ok_bind, h, ho]

/-- The definition of a label whose slot is not negative does not halt. -/
theorem defineLabel_noHalt (fuel : Nat) (n : Int) (s : Machine) (h : ¬ s.m (labv n) < 0) :
    (defineLabel fuel n s).noHalt := by
  unfold defineLabel rd
  split
  · simp only [Res.ok_bind, h, if_false]
    exact noHalt_bind (chain_noHalt _ _ _) (fun _ =>
      noHalt_bind (wr_noHalt _ _ _) (fun _ => trivial))
  · trivial

/-- At a digit the assembler runs a label definition and goes back to `sw`. -/
theorem asmSw_digit (f : Nat) (s : Machine) (hd : isDigit s.ch) :
    asmSw f s = (defineLabel f (rdn s).1 (rdn s).2 >>= fun s1 => Res.ok (some Lbl.sw, s1)) := by
  have hdig : s.ch ≤ ASC_9 ∧ s.ch ≥ ASC_0 := by unfold isDigit at hd; exact ⟨hd.2, hd.1⟩
  simp only [asmSw, hdig, and_self, if_true, defLabel]
  rfl

/-- C19, amended: a label-definition statement (the assembler at a digit, `n` the number
`rdn` reads, in [0, 500)) halts with `DUPLICATE LABEL` and the detail `n` exactly when
`labv[n]` is negative, that is when `n` is defined already; with `labv[n] ≥ 0`, be it 0 or
the positive head of a chain of pending references, it does not halt. -/
theorem definition_halts_iff (f : Nat) (s : Machine) (hd : isDigit s.ch)
    (hn : 0 ≤ (rdn s).1 ∧ (rdn s).1 < LABVCOUNT) :
    ((∃ t, asmSw f s = Res.halted STR_DUPLICATE_LABEL (rdn s).1 t) ↔
        s.m (labv (rdn s).1) < 0) ∧
      (0 ≤ s.m (labv (rdn s).1) → (asmSw f s).noHalt) := by
  have hm := reads_m (rdn_reads s)
  rw [asmSw_digit f s hd]
  refine ⟨⟨?_, ?_⟩, ?_⟩
  · rintro ⟨t, ht⟩
    by_contra hneg
    have h1 := defineLabel_noHalt f (rdn s).1 (rdn s).2 (by rw [hm]; exact hneg)
    have h2 : (defineLabel f (rdn s).1 (rdn s).2 >>=
        fun s1 => Res.ok (some Lbl.sw, s1)).noHalt := noHalt_bind h1 (fun _ => trivial)
    exact noHalt_ne h2 _ _ _ ht
  · intro hneg
    obtain ⟨o, ho⟩ := defineLabel_dup f (rdn s).1 (rdn s).2 hn (by rw [hm]; exact hneg)
    exact ⟨_, by rw [ho]; rfl⟩
  · intro h0
    exact noHalt_bind (defineLabel_noHalt f (rdn s).1 (rdn s).2 (by rw [hm]; omega))
      (fun _ => trivial)

/-- Witness of C19, amended: the digit `7` read with label 7 defined at 404. -/
theorem definition_halts_iff_witness :
    isDigit (labelDemo (-404)).ch ∧
      ∃ t, asmSw 3 (labelDemo (-404))
        = Res.halted STR_DUPLICATE_LABEL (rdn (labelDemo (-404))).1 t :=
  ⟨by decide, (definition_halts_iff 3 (labelDemo (-404)) (by decide) (by decide)).1.2
    (by decide)⟩

/-- C19 as stated fails: with `labv[7] = 405` positive, the head of a chain with the one
reference at 405, the definition of label 7 at `lomem = 410` does not halt: it stores
410 in the word 405 and -410 in the slot. -/
theorem pending_definition_resolved :
    (labelDemo 405).m (labv 7) = 405 ∧ (rdn (labelDemo 405)).1 = 7 ∧
      (asmSw 3 (labelDemo 405)).haltInfo = none ∧
      (asmSw 3 (labelDemo 405)).get?.map (fun x => (x.2.m (labv 7), x.2.m 405))
        = some (-410, 410) := by
  decide

/-! ## C13: the end of a section -/

/-- The loop of the `Z` directive: either no slot from `n` on is positive and the loop ends,
or it halts at the first positive slot. -/
theorem unsetCheck_spec (k : Nat) : ∀ (n : Int) (s : Machine), 0 ≤ n → n + k ≤ LABVCOUNT →
    ((∀ j, n ≤ j → j < n + k → s.m (labv j) ≤ 0) ∧ unsetCheck k n s = Res.ok s) ∨
    (∃ j, n ≤ j ∧ j < n + k ∧ 0 < s.m (labv j) ∧ (∀ i, n ≤ i → i < j → s.m (labv i) ≤ 0) ∧
      unsetCheck k n s = halt STR_UNSET_LABEL j s) := by
  induction k with
  | zero =>
    intro n s _ _
    left
    exact ⟨fun j h1 h2 => by simp at h2; omega, rfl⟩
  | succ k ih =>
    intro n s h0 hk
    simp only [LABVCOUNT, Nat.cast_add, Nat.cast_one] at hk ⊢
    have hlm : inMem (labv n) := by simp only [inMem, labv, WORDCOUNT, LABVCOUNT]; omega
    by_cases hp : 0 < s.m (labv n)
    · right
      refine ⟨n, le_refl _, by omega, hp, fun i h1 h2 => by omega, ?_⟩
      simp only [unsetCheck, rd, hlm, if_true, Res.ok_bind, gt_iff_lt, hp]
    · have e : unsetCheck (k + 1) n s = unsetCheck k (n + 1) s := by
        simp only [unsetCheck, rd, hlm, if_true, Res.ok_bind, gt_iff_lt, hp, if_false]
      rw [e]
      rcases ih (n + 1) s (by omega) (by simp only [LABVCOUNT]; omega) with ⟨h1, h2⟩ | h
      · left
        refine ⟨fun j hj1 hj2 => ?_, h2⟩
        by_cases hj : j = n
        · rw [hj]; omega
        · exact h1 j (by omega) (by omega)
      · obtain ⟨j, j1, j2, j3, j4, j5⟩ := h
        right
        refine ⟨j, by omega, by omega, j3, fun i i1 i2 => ?_, j5⟩
        by_cases hi : i = n
        · rw [hi]; omega
        · exact j4 i (by omega) i2

/-- At `Z` the assembler checks the label table and goes to `clear`. -/
theorem asmSw_Z (f : Nat) (s : Machine) (hz : s.ch = ASC_Z) :
    asmSw f s = (unsetCheck 500 0 s >>= fun s1 => Res.ok (some Lbl.clear, s1)) := by
  simp only [asmSw, hz]
  rfl

/-- C13: at a `Z` directive the assembler halts with `UNSET LABEL` exactly when some label
slot `labv[n]`, `n` in [0, 500), is positive, and the detail is then the smallest such `n`;
otherwise it does not halt but goes on to `clear`, after which every one of the 500 label
slots is 0 and `cp` is 0, before the next character is read. -/
theorem end_of_section (f : Nat) (s : Machine) (hz : s.ch = ASC_Z) :
    ((∃ n t, asmSw f s = Res.halted STR_UNSET_LABEL n t) ↔
      ∃ n, 0 ≤ n ∧ n < LABVCOUNT ∧ 0 < s.m (labv n)) ∧
    (∀ n t, asmSw f s = Res.halted STR_UNSET_LABEL n t →
      0 ≤ n ∧ n < LABVCOUNT ∧ 0 < s.m (labv n) ∧ ∀ k, 0 ≤ k → k < n → s.m (labv k) ≤ 0) ∧
    (∀ n, 0 ≤ n → n < LABVCOUNT → 0 < s.m (labv n) →
      (∀ k, 0 ≤ k → k < n → s.m (labv k) ≤ 0) →
      ∃ o, asmSw f s
        = Res.halted STR_UNSET_LABEL n { s with cos := s.sysprint, out := o }) ∧
    ((∀ n, 0 ≤ n → n < LABVCOUNT → s.m (labv n) ≤ 0) →
      asmSw f s = Res.ok (some Lbl.clear, s) ∧
      asmGo (f + 2) Lbl.sw s = asmGo f Lbl.next { s with m := memclr s.m, cp := 0 } ∧
      ∀ n, 0 ≤ n → n < LABVCOUNT →
        ({ s with m := memclr s.m, cp := 0 } : Machine).m (labv n) = 0 ∧
        ({ s with m := memclr s.m, cp := 0 } : Machine).cp = 0) := by
  have hsw := asmSw_Z f s hz
  have hspec := unsetCheck_spec 500 0 s (le_refl _) (by decide)
  have hpass : (∀ n, 0 ≤ n → n < LABVCOUNT → s.m (labv n) ≤ 0) →
      ∀ g, asmSw g s = Res.ok (some Lbl.clear, s) := by
    intro hall g
    rcases hspec with ⟨-, h2⟩ | ⟨j, j1, j2, j3, -⟩
    · rw [asmSw_Z g s hz, h2]; rfl
    · have := hall j j1 (by simpa using j2); omega
  have hhalt : ∀ n, 0 ≤ n → n < LABVCOUNT → 0 < s.m (labv n) →
      (∀ k, 0 ≤ k → k < n → s.m (labv k) ≤ 0) →
      ∃ o, asmSw f s
        = Res.halted STR_UNSET_LABEL n { s with cos := s.sysprint, out := o } := by
    intro n n1 n2 n3 n4
    rcases hspec with ⟨h1, -⟩ | ⟨j, j1, j2, j3, j4, j5⟩
    · have := h1 n n1 (by simpa using n2); omega
    · have hjn : j = n := by
        by_contra hne
        rcases lt_or_gt_of_ne hne with h | h
        · have := n4 j j1 h; omega
        · have := j4 n n1 h; omega
      subst hjn
      simp only [LABVCOUNT] at n2
      obtain ⟨o, ho⟩ := halt_spec (α := Machine) STR_UNSET_LABEL j
        (by unfold isShort; omega) s
      exact ⟨o, by rw [hsw, j5, ho]; rfl⟩
  refine ⟨⟨?_, ?_⟩, ?_, hhalt, fun hall => ⟨hpass hall f, ?_, fun n n1 n2 => ⟨?_, rfl⟩⟩⟩
  · rintro ⟨n, t, ht⟩
    by_contra hno
    have hall : ∀ n, 0 ≤ n → n < LABVCOUNT → s.m (labv n) ≤ 0 := by
      intro k k1 k2
      by_contra hk
      exact hno ⟨k, k1, k2, by omega⟩
    rw [hpass hall f] at ht
    cases ht
  · rintro ⟨n, n1, n2, n3⟩
    rcases hspec with ⟨h1, -⟩ | ⟨j, j1, j2, j3, j4, j5⟩
    · have := h1 n n1 (by simpa using n2); omega
    · obtain ⟨o, ho⟩ := hhalt j j1 (by simpa using j2) j3 j4
      exact ⟨j, _, ho⟩
  · intro n t ht
    rcases hspec with ⟨h1, h2⟩ | ⟨j, j1, j2, j3, j4, j5⟩
    · rw [hsw, h2] at ht; cases ht
    · obtain ⟨o, ho⟩ := hhalt j j1 (by simpa using j2) j3 j4
      rw [ho] at ht
      obtain ⟨-, e, -⟩ := Res.halted.inj ht
      subst e
      exact ⟨j1, by simpa using j2, j3, j4⟩
  · rw [asmGo, hpass hall (f + 1)]
    simp only [Res.ok_bind]
    rw [asmGo]
  · exact memclr_labv s.m n ⟨n1, n2⟩

/-- Witness of C13: a `Z` read while the slot of label 7 holds 405. -/
theorem end_of_section_witness :
    ({ labelDemo 405 with ch := ASC_Z } : Machine).ch = ASC_Z ∧
      ∃ n t, asmSw 3 { labelDemo 405 with ch := ASC_Z } = Res.halted STR_UNSET_LABEL n t :=
  ⟨rfl, (end_of_section 3 { labelDemo 405 with ch := ASC_Z } rfl).1.2
    ⟨7, by decide, by decide, by decide⟩⟩

/-! ## C20: `lomem` and `cp` during the assembly -/

theorem reads_keeps {s t : Machine} (h : reads s t) : keeps s t :=
  ⟨reads_lomem h, reads_cp h⟩

theorem keeps_trans {s t u : Machine} (h1 : keeps s t) (h2 : keeps t u) : keeps s u :=
  ⟨h2.1.trans h1.1, h2.2.trans h1.2⟩

theorem wr_keeps {s t : Machine} {i x : Int} (h : wr s i x = Res.ok t) : keeps s t := by
  unfold wr at h
  split at h
  · cases h; exact ⟨rfl, rfl⟩
  · cases h

theorem labref_keeps {s t : Machine} {n a : Int} (h : labref n a s = Res.ok t) :
    keeps s t := by
  unfold labref at h
  simp only [Res.bind_eq_ok] at h
  obtain ⟨k, -, s1, h1, x, -, h2⟩ := h
  have e1 : keeps s s1 := by
    split at h1
    · cases h1; exact ⟨rfl, rfl⟩
    · exact wr_keeps h1
  exact keeps_trans e1 (wr_keeps h2)

theorem chain_keeps {f : Nat} {k : Int} {s t : Machine} (h : chain f k s = Res.ok t) :
    keeps s t := by
  rw [chain_shape f k s t h]
  exact ⟨rfl, rfl⟩

theorem halt_ne_ok {α : Type} (msg : String) (n : Int) (s : Machine) (x : α) :
    (halt msg n s : Res α) ≠ Res.ok x := by
  have key : ∀ r : Res Machine,
      Res.bind r (fun s2 => (Res.halted msg n (newline s2) : Res α)) ≠ Res.ok x := by
    intro r h
    cases r <;> cases h
  exact key _

/-- A label definition that returns leaves `lomem` as it is and `cp = 0`. -/
theorem defineLabel_cursor {f : Nat} {n : Int} {s t : Machine}
    (h : defineLabel f n s = Res.ok t) : t.lomem = s.lomem ∧ t.cp = 0 := by
  unfold defineLabel at h
  simp only [Res.bind_eq_ok] at h
  obtain ⟨k, -, h1⟩ := h
  split at h1
  · exact absurd h1 (halt_ne_ok _ _ _ _)
  · simp only [Res.bind_eq_ok, Res.pure_eq] at h1
    obtain ⟨s2, c1, s3, c2, c3⟩ := h1
    cases c3
    exact ⟨(wr_keeps c2).1.trans (chain_keeps c1).1, rfl⟩

theorem unsetCheck_ok (k : Nat) : ∀ (n : Int) (s t : Machine),
    unsetCheck k n s = Res.ok t → t = s := by
  induction k with
  | zero => intro n s t h; cases h; rfl
  | succ k ih =>
    intro n s t h
    unfold unsetCheck at h
    simp only [Res.bind_eq_ok] at h
    obtain ⟨x, -, h1⟩ := h
    split at h1
    · exact absurd h1 (halt_ne_ok _ _ _ _)
    · exact ih _ _ _ h1

/-- The function `stw`, when it returns: `cp = 0`, `lomem` one more, and only the word at
the old `lomem` written. -/
theorem stw_inv {w : Int} {s t : Machine} (h : stw w s = Res.ok t) :
    t.cp = 0 ∧ t.lomem = s.lomem + 1 ∧ ∀ x, x ≠ s.lomem → t.m x = s.m x := by
  unfold stw wr at h
  split at h
  · next hm =>
    cases h
    simp only [inMem, WORDCOUNT] at hm
    refine ⟨rfl, ?_, fun x hx => upd_other _ _ hx⟩
    show toShort (s.lomem + 1) = s.lomem + 1
    unfold toShort; omega
  · cases h

/-- The function `stc`, when it returns: `cp` stays 0 or 1, `lomem` is one more exactly when
`cp` was 0, and only the word before the new `lomem` is written. -/
theorem stc_inv {c : Int} {s t : Machine} (h : stc c s = Res.ok t)
    (hcp : s.cp = 0 ∨ s.cp = 1) :
    (t.cp = 0 ∨ t.cp = 1) ∧ t.lomem = s.lomem + (if s.cp = 0 then 1 else 0) ∧
      ∀ x, x ≠ t.lomem - 1 → t.m x = s.m x := by
  unfold stc at h
  simp only [Res.bind_eq_ok, Res.pure_eq] at h
  obtain ⟨s1, h1, s2, h2, h3⟩ := h
  cases h3
  rcases hcp with h0 | h0
  · rw [if_pos h0] at h1
    obtain ⟨e1, e2, e3⟩ := stw_inv h1
    rw [e1, e2] at h2
    unfold wrb at h2
    split at h2
    · cases h2
      have ei : (2 * (s.lomem + 1 - 1) + 0) / 2 = s.lomem := by omega
      refine ⟨Or.inr ?_, ?_, fun x hx => ?_⟩
      · simp [e1, toByte, BYTESPERWORD]
      · simp [h0, e2]
      · show upd s1.m ((2 * (s.lomem + 1 - 1) + 0) / 2) _ x = s.m x
        have hx' : x ≠ s.lomem := by
          have : s1.lomem - 1 = s.lomem := by rw [e2]; ring
          intro hh; apply hx; show x = s1.lomem - 1; rw [this]; exact hh
        rw [ei, upd_other _ _ hx', e3 x hx']
    · cases h2
  · have h10 : ¬ s.cp = 0 := by omega
    rw [if_neg h10] at h1
    cases h1
    rw [h0] at h2
    unfold wrb at h2
    split at h2
    · cases h2
      have ei : (2 * (s.lomem - 1) + 1) / 2 = s.lomem - 1 := by omega
      refine ⟨Or.inl ?_, ?_, fun x hx => ?_⟩
      · simp [h0, toByte, BYTESPERWORD]
      · simp [h0]
      · show upd s.m ((2 * (s.lomem - 1) + 1) / 2) _ x = s.m x
        rw [ei, upd_other _ _ hx]
    · cases h2

theorem reads_ite {s : Machine} {p : Prop} [Decidable p] :
    reads s (if p then rch s else s) := by
  split
  · exact rch_reads s
  · exact reads_refl s

/-- The tail of an instruction statement after its flag letters, when it returns: `cp = 0`
and `lomem` has grown. -/
theorem instrTail_grows (N : Int) (s4 t : Machine)
    (h : (if s4.ch = ASC_L then do
          let s ← stw (orBit N FD_BIT) (rch s4)
          let s ← stw 0 s
          labref (rdn s).1 ((rdn s).2.lomem - 1) (rdn s).2
        else
          if (rdn s4).1 % (FN_MASK + 1) = (rdn s4).1 then
            stw (bitop Nat.lor N ((rdn s4).1 * 2 ^ FN_BITS)) (rdn s4).2
          else do
            let s ← stw (orBit N FD_BIT) (rdn s4).2
            stw (rdn s4).1 s) = Res.ok t) :
    t.cp = 0 ∧ s4.lomem < t.lomem := by
  split at h
  · simp only [Res.bind_eq_ok] at h
    obtain ⟨u1, h1, u2, h2, h3⟩ := h
    obtain ⟨-, a1, -⟩ := stw_inv h1
    obtain ⟨a2, a3, -⟩ := stw_inv h2
    have k1 := reads_keeps (rch_reads s4)
    have k2 := reads_keeps (rdn_reads u2)
    have k3 := labref_keeps h3
    have e : t.lomem = s4.lomem + 1 + 1 := by
      rw [k3.1, k2.1, a3, a1, k1.1]
    exact ⟨by rw [k3.2, k2.2, a2], by omega⟩
  · have k5 : keeps s4 (rdn s4).2 := reads_keeps (rdn_reads s4)
    split at h
    · obtain ⟨a2, a3, -⟩ := stw_inv h
      exact ⟨a2, by rw [a3, k5.1]; omega⟩
    · simp only [Res.bind_eq_ok] at h
      obtain ⟨u1, h1, h2⟩ := h
      obtain ⟨-, a1, -⟩ := stw_inv h1
      obtain ⟨a2, a3, -⟩ := stw_inv h2
      exact ⟨a2, by rw [a3, a1, k5.1]; omega⟩

/-- An instruction statement, when it returns: `cp = 0` and `lomem` has grown. -/
theorem asmInstr_grows {n : Int} {s t : Machine} (h : asmInstr n s = Res.ok t) :
    t.cp = 0 ∧ s.lomem < t.lomem := by
  obtain ⟨a, b⟩ := instrTail_grows _ _ t h
  refine ⟨a, lt_of_eq_of_lt ?_ b⟩
  exact (reads_keeps (reads_trans (reads_trans (reads_trans (rch_reads s) reads_ite)
    reads_ite) reads_ite)).1.symm

/-- One statement of the assembler, when it returns, keeps the invariant and does not
decrease `lomem`. -/
theorem asmSw_grows {f : Nat} {s t : Machine} {l : Option Lbl}
    (h : asmSw f s = Res.ok (l, t)) (hinv : asmInv s) : asmInv t ∧ s.lomem ≤ t.lomem := by
  obtain ⟨hcp, hlo⟩ := hinv
  unfold asmSw at h
  split at h
  · simp only [Res.bind_eq_ok, Res.pure_eq, defLabel] at h
    obtain ⟨s1, h1, h2⟩ := h
    cases h2
    obtain ⟨a, b⟩ := defineLabel_cursor h1
    have k := reads_keeps (rdn_reads s)
    exact ⟨⟨Or.inl b, by rw [a, k.1]; exact hlo⟩, by rw [a, k.1]⟩
  split at h
  · cases h; exact ⟨⟨hcp, hlo⟩, le_refl _⟩
  split at h
  · simp only [Res.bind_eq_ok, Res.pure_eq] at h
    obtain ⟨s1, h1, h2⟩ := h
    cases h2
    have k := keeps_trans (reads_keeps (rch_reads s)) (reads_keeps (rdn_reads (rch s)))
    obtain ⟨a, b, -⟩ := stc_inv h1 (by rw [k.2]; exact hcp)
    rw [k.1] at b
    have : s.lomem ≤ t.lomem := by rw [b]; split <;> omega
    exact ⟨⟨a, by omega⟩, this⟩
  split at h
  · dsimp only at h
    split at h
    · simp only [Res.bind_eq_ok, Res.pure_eq] at h
      obtain ⟨u1, h1, u2, h2, h3⟩ := h
      cases h3
      obtain ⟨a1, a2, -⟩ := stw_inv h1
      have k0 := reads_keeps (reads_trans (rch_reads s) (rch_reads (rch s)))
      have k2 := keeps_trans (reads_keeps (rdn_reads u1)) (labref_keeps h2)
      have e : t.lomem = s.lomem + 1 := by rw [k2.1, a2, k0.1]
      exact ⟨⟨Or.inl (by rw [k2.2, a1]), by omega⟩, by omega⟩
    · simp only [Res.bind_eq_ok, Res.pure_eq] at h
      obtain ⟨u1, h1, h3⟩ := h
      cases h3
      obtain ⟨a1, a2, -⟩ := stw_inv h1
      have k0 := reads_keeps (reads_trans (rch_reads s) (rdn_reads (rch s)))
      have e : t.lomem = s.lomem + 1 := by rw [a2, k0.1]
      exact ⟨⟨Or.inl a1, by omega⟩, by omega⟩
  split at h
  · dsimp only at h
    split at h
    · simp only [Res.bind_eq_ok, Res.pure_eq] at h
      obtain ⟨u1, h1, u2, h2, h3⟩ := h
      cases h3
      have k := keeps_trans (keeps_trans (keeps_trans (keeps_trans
        (reads_keeps (reads_trans (rch_reads s) (rdn_reads (rch s))))
        (reads_keeps (rch_reads _))) (wr_keeps h1)) (reads_keeps (rdn_reads u1)))
        (labref_keeps h2)
      exact ⟨⟨by rw [k.2]; exact hcp, by rw [k.1]; exact hlo⟩, by rw [k.1]⟩
    · exact absurd h (halt_ne_ok _ _ _ _)
  split at h
  · simp only [Res.bind_eq_ok, Res.pure_eq] at h
    obtain ⟨u1, h1, h3⟩ := h
    cases h3
    rw [unsetCheck_ok _ _ _ _ h1]
    exact ⟨⟨hcp, hlo⟩, le_refl _⟩
  split at h
  · simp only [Res.bind_eq_ok, Res.pure_eq] at h
    obtain ⟨u1, h1, h3⟩ := h
    cases h3
    obtain ⟨a, b⟩ := asmInstr_grows h1
    exact ⟨⟨Or.inl a, by omega⟩, by omega⟩
  · split at h
    · exact absurd h (halt_ne_ok _ _ _ _)
    · cases h
      exact ⟨⟨hcp, hlo⟩, le_refl _⟩

/-- The assembler from any of its labels, when it returns, has kept the invariant and not
decreased `lomem`. -/
theorem asmGo_grows (f : Nat) : ∀ (l : Lbl) (s t : Machine), asmGo f l s = Res.ok t →
    asmInv s → asmInv t ∧ s.lomem ≤ t.lomem := by
  induction f with
  | zero => intro l s t h; cases h
  | succ f ih =>
    intro l s t h hinv
    cases l with
    | clear =>
      rw [asmGo] at h
      exact ih Lbl.next { s with m := memclr s.m, cp := 0 } t h ⟨Or.inl rfl, hinv.2⟩
    | next =>
      rw [asmGo] at h
      have k := reads_keeps (rch_reads s)
      obtain ⟨a, b⟩ := ih Lbl.sw (rch s) t h
        ⟨by rw [k.2]; exact hinv.1, by rw [k.1]; exact hinv.2⟩
      exact ⟨a, by rw [← k.1]; exact b⟩
    | sw =>
      rw [asmGo] at h
      simp only [Res.bind_eq_ok] at h
      obtain ⟨r, h1, h2⟩ := h
      obtain ⟨a, b⟩ := asmSw_grows (l := r.1) (t := r.2) h1 hinv
      split at h2
      · obtain ⟨c, d⟩ := ih _ r.2 t h2 a
        exact ⟨c, le_trans b d⟩
      · cases h2
        exact ⟨a, b⟩

/-- C20: the invariant of the emitting state.  `init` leaves `lomem = 404` and `cp = 0`;
from a state with `cp` in [0, 2) and `lomem ≥ 404`, `stw` and `stc` return while `lomem` is
inside `m`, `stw` leaves `cp = 0` and `lomem` one more, `stc` leaves `lomem` one more exactly
when `cp` was 0, both write no word below `PROGSTART`, and `stw`, `stc`, every statement of
`assemble` and `assemble` from any of its labels keep `cp` in [0, 2) and do not decrease
`lomem`, which so stays at or above `PROGSTART`. -/
theorem assembler_invariant (s : Machine) (hinv : asmInv s) :
    (∀ s0, ∃ s1, init s0 = Res.ok s1 ∧ asmInv s1 ∧ s1.lomem = 404 ∧ s1.cp = 0) ∧
    PROGSTART ≤ s.lomem ∧
    (∀ w, s.lomem < WORDCOUNT → ∃ t, stw w s = Res.ok t) ∧
    (∀ w t, stw w s = Res.ok t → asmInv t ∧ t.cp = 0 ∧ t.lomem = s.lomem + 1 ∧
      (∀ x, x ≠ s.lomem → t.m x = s.m x) ∧ ∀ x, x < PROGSTART → t.m x = s.m x) ∧
    (∀ c, s.lomem < WORDCOUNT → ∃ t, stc c s = Res.ok t) ∧
    (∀ c t, stc c s = Res.ok t → asmInv t ∧
      t.lomem = s.lomem + (if s.cp = 0 then 1 else 0) ∧
      (∀ x, x ≠ t.lomem - 1 → t.m x = s.m x) ∧ ∀ x, x < PROGSTART → t.m x = s.m x) ∧
    (∀ f l t, asmSw f s = Res.ok (l, t) → asmInv t ∧ s.lomem ≤ t.lomem) ∧
    (∀ f l t, asmGo f l s = Res.ok t → asmInv t ∧ s.lomem ≤ t.lomem) := by
  obtain ⟨hcp, hlo⟩ := hinv
  have hstw : ∀ w, s.lomem < WORDCOUNT → ∃ t, stw w s = Res.ok t := by
    intro w hw
    exact ⟨_, stw_ok w s (by simp only [inMem]; omega)⟩
  refine ⟨?_, by simp only [PROGSTART]; omega, hstw, ?_, ?_, ?_,
    fun f l t h => asmSw_grows h ⟨hcp, hlo⟩, fun f l t h => asmGo_grows f l s t h ⟨hcp, hlo⟩⟩
  · intro s0
    obtain ⟨s1, h1, -, -, -, -, h6, h7⟩ := init_spec s0
    exact ⟨s1, h1, ⟨Or.inl h7, by omega⟩, h6, h7⟩
  · intro w t h
    obtain ⟨a, b, c⟩ := stw_inv h
    exact ⟨⟨Or.inl a, by omega⟩, a, b, c,
      fun x hx => c x (by simp only [PROGSTART] at hx; omega)⟩
  · intro c hw
    simp only [WORDCOUNT] at hw
    rcases hcp with h0 | h1
    · obtain ⟨t1, ht1⟩ := hstw 0 (by simp only [WORDCOUNT]; omega)
      obtain ⟨a1, a2, -⟩ := stw_inv ht1
      have hm : inMem ((2 * (t1.lomem - 1) + t1.cp) / 2) := by
        rw [a1, a2]; simp only [inMem, WORDCOUNT]; omega
      simp only [stc, Res.bind_eq_ok, Res.pure_eq]
      exact ⟨_, t1, by rw [if_pos h0]; exact ht1, _, if_pos hm, rfl⟩
    · have hm : inMem ((2 * (s.lomem - 1) + s.cp) / 2) := by
        rw [h1]; simp only [inMem, WORDCOUNT]; omega
      have h10 : ¬ s.cp = 0 := by omega
      simp only [stc, Res.bind_eq_ok, Res.pure_eq]
      exact ⟨_, s, by rw [if_neg h10], _, if_pos hm, rfl⟩
  · intro c t h
    obtain ⟨a, b, d⟩ := stc_inv h hcp
    have hl : s.lomem ≤ t.lomem := by rw [b]; split <;> omega
    exact ⟨⟨a, by omega⟩, b, d, fun x hx => d x (by simp only [PROGSTART] at hx; omega)⟩

/-- Witness of C20: `stc` from the state `init` leaves (`lomem = 404`, `cp = 0`). -/
theorem assembler_invariant_witness :
    asmInv (asmDemo 67 []) ∧ ∃ t, stc 65 (asmDemo 67 []) = Res.ok t :=
  ⟨by decide, (assembler_invariant (asmDemo 67 []) (by decide)).2.2.2.2.1 65 (by decide)⟩

/-! ## C16: the global-slot directive -/

/-- A label definition, as one statement: the digits of `n`, with the chain `l` of
references pending. -/
theorem asmSw_label (f : Nat) (s : Machine) (m : Int → Int) (L d0 c : Int) (tl r l : List Int)
    (h : At s m L d0 (tl ++ c :: r)) (hd0 : isDigit d0) (htl : ∀ x ∈ tl, isDigit x)
    (hc : ¬ isDigit c) (h13 : c ≠ ASC_CR) (h47 : c ≠ ASC_SLASH)
    (hn : 0 ≤ (d0 :: tl).foldl addDigit 0 ∧ (d0 :: tl).foldl addDigit 0 < LABVCOUNT)
    (hnd : l.Nodup) (hin : ∀ a ∈ l, 0 < a ∧ a < labv 0)
    (hl : linked m (m (labv ((d0 :: tl).foldl addDigit 0))) l) (hf : l.length ≤ f) :
    ∃ s', asmSw f s = Res.ok (some Lbl.sw, s') ∧
      At s' (defined m ((d0 :: tl).foldl addDigit 0) L l) L c r := by
  obtain ⟨rfl, rfl, hch, hi⟩ := h
  generalize hnv : (d0 :: tl).foldl addDigit 0 = n at hn hl ⊢
  have h0v : labv 0 = 19400 := by decide
  have hlv : 19400 ≤ labv n ∧ labv n < 19900 := by
    simp only [labv, WORDCOUNT, LABVCOUNT] at hn ⊢; omega
  have hlm : inMem (labv n) := by simp only [inMem, WORDCOUNT]; omega
  have hrdn := rdn_digits s tl c r (hch ▸ hd0) htl hc h13 h47 hi
  rw [hch, hnv] at hrdn
  have hin' : ∀ a ∈ l, 0 < a ∧ inMem a := by
    intro a ha
    have := hin a ha
    simp only [inMem, WORDCOUNT]; omega
  obtain ⟨s2, h2, hma, hframe, hlo2⟩ := chain_spec l f (s.m (labv n))
    { s with ch := c, inp := upd s.inp (s.cis - 1) r } hnd hin' hl hf
  have hsh := chain_shape _ _ _ _ h2
  have hk : ¬ s.m (labv n) < 0 := by
    cases l with
    | nil => simp only [linked] at hl; omega
    | cons d ds =>
      have := (hin d (List.mem_cons_self _ _)).1
      rw [hl.1]; omega
  refine ⟨{ s2 with m := upd s2.m (labv n) (toShort (-s2.lomem)), cp := 0 }, ?_, ?_, hlo2,
    ?_, ?_⟩
  · rw [asmSw_digit f s (hch ▸ hd0), hrdn]
    simp only [defineLabel, rd, hlm, hk, if_false, if_true, h2, wr, Res.ok_bind, Res.pure_eq]
  · funext x
    show upd s2.m (labv n) (toShort (-s2.lomem)) x = defined s.m n s.lomem l x
    unfold defined
    by_cases hx : x = labv n
    · rw [hx, upd_same, if_pos rfl, hlo2]
    · rw [upd_other _ _ hx, if_neg hx]
      by_cases hxl : x ∈ l
      · rw [if_pos hxl, hma x hxl]
      · rw [if_neg hxl, hframe x hxl]
  · rw [hsh]
  · rw [hsh]; exact upd_same _ _ _

/-- C15: the bootstrap.  After `init` the words below `PROGSTART` hold their own address,
the words 401 .. 403 hold `L I 1`, `K 2` and `X 22`, and `lomem = 404`.  In every image `t`
with the words 401 .. 403 intact, `m[1] = st ≥ PROGSTART` and `lomem = l`, `interpret` is the
loop `run` started at `pc = PROGSTART`, `sp = l`, `a = b = 0`; its first two steps lead to
a state `t2` with `pc = st`, `sp = l + 2`, `m[l+2] = l`, `m[l+3] = 403`, from which
`interpret` goes on; and when the loop, `g` steps later, is at a return `X 4` with that
frame and the word 403 intact, the return goes to 403, where `X 22` makes `interpret` return
0.  So `interpret` returns 0 when the start routine is a single `X 4`. -/
theorem bootstrap (s0 t : Machine) (l st : Int)
    (h401 : t.m 401 = F0_L + FI_BIT + K01_START * 256) (h402 : t.m 402 = F6_K + 2 * 256)
    (h403 : t.m 403 = F7_X + 22 * 256) (h1 : t.m 1 = st) (hst : PROGSTART ≤ st ∧ st ≤ 32767)
    (hl : t.lomem = l) (hl4 : 404 ≤ l ∧ l + 3 < WORDCOUNT) :
    (∃ s', init s0 = Res.ok s' ∧ (∀ i, 0 ≤ i ∧ i < PROGSTART → s'.m i = i) ∧
      s'.m 401 = F0_L + FI_BIT + K01_START * 256 ∧ s'.m 402 = F6_K + 2 * 256 ∧
      s'.m 403 = F7_X + 22 * 256 ∧ s'.lomem = 404) ∧
    (∀ f, interpret f t = run f { t with pc := PROGSTART, sp := l, a := 0, b := 0 }) ∧
    (∃ t1 t2, step { t with pc := PROGSTART, sp := l, a := 0, b := 0 } = Res.ok (none, t1) ∧
      step t1 = Res.ok (none, t2) ∧
      t2.pc = st ∧ t2.sp = l + 2 ∧ t2.m (l + 2) = l ∧ t2.m (l + 3) = 403 ∧
      (∀ f, interpret (f + 2) t = run f t2) ∧
      ∀ (g : Nat) (u u1 : Machine), (∀ f, run (f + g) t2 = run f u) →
        fetch u = Res.ok u1 → u1.w % 8 = F7_X → u1.d = 4 → u.sp = l + 2 →
        u.m (l + 2) = l → u.m (l + 3) = 403 → u.m 403 = t.m 403 →
        ∃ u2 u3, step u = Res.ok (none, u2) ∧ u2.pc = 403 ∧ u2.sp = l ∧
          step u2 = Res.ok (some 0, u3) ∧
          ∀ f, interpret (f + 2 + g + 2) t = Res.ok (0, u3)) ∧
    (t.m st = F7_X + 4 * 256 → st < l →
      ∃ t', ∀ f, interpret (f + 4) t = Res.ok (0, t')) := by
  obtain ⟨s', i1, i2, i3, i4, i5, i6, -⟩ := init_spec s0
  obtain ⟨t1, t2, b1, b2, b3, b4, b5, b6, b7⟩ := boot_steps t l st h401 h402 h1 hst hl hl4
  have hlw : toWord l = l := by
    simp only [WORDCOUNT] at hl4; unfold toWord; omega
  have he : entry t = { t with pc := PROGSTART, sp := l, a := 0, b := 0 } := by
    unfold entry; rw [hl, hlw]; rfl
  rw [he] at b1
  have hi : ∀ f, interpret f t = run f { t with pc := PROGSTART, sp := l, a := 0, b := 0 } := by
    intro f; rw [interpret_entry, he]
  have hi2 : ∀ f, interpret (f + 2) t = run f t2 := by
    intro f
    rw [hi, show f + 2 = (f + 1) + 1 by ring, run, b1]
    simp only [Res.ok_bind]
    rw [run, b2]
    rfl
  refine ⟨⟨s', i1, i2, i3, i4, i5, i6⟩, hi, ⟨t1, t2, b1, b2, b3, b4, b5, b6, hi2, ?_⟩, ?_⟩
  · intro g u u1 hg hf hx h4 hsp hm0 hm1 hu
    obtain ⟨u2, u3, c1, c2, c3, c4, c5⟩ :=
      boot_return u u1 l hf hx h4 hsp hm0 hm1 (hu.trans h403) hl4
    refine ⟨u2, u3, c1, c2, c3, c4, fun f => ?_⟩
    rw [show f + 2 + g + 2 = (f + 2 + g) + 2 by ring, hi2, hg, c5]
  · intro hx4 hlt
    simp only [PROGSTART, WORDCOUNT, F7_X] at hst hl4 hx4
    norm_num at hx4
    have hm : t2.m st = 1031 := by
      rw [b7 st (by omega) (by omega), hx4]
    have hstw : toWord st = st := by unfold toWord; omega
    have hf : fetch t2 = Res.ok { t2 with w := 1031, d := 4, pc := toWord (st + 1) } := by
      have hin : inMem st := by simp only [inMem, WORDCOUNT]; omega
      simp only [fetch, rd, b3, hm, hin, if_true, Res.ok_bind]
      simp [hasBit, toWord]
    obtain ⟨u2, u3, c1, -, -, -, c5⟩ := boot_return t2 _ l hf rfl rfl b4 b5 b6
      (by rw [b7 403 (by omega) (by omega)]; exact h403) (by simpa using hl4)
    refine ⟨u3, fun f => ?_⟩
    rw [show f + 4 = (f + 2) + 2 by ring, hi2]
    exact c5 f

/-- Witness of C15: the image `bootDemo`, whose start routine at 404 is a single `X 4`;
`interpret` returns 0 on it. -/
theorem bootstrap_witness :
    ∃ t', ∀ f, interpret (f + 4) bootDemo = Res.ok (0, t') :=
  (bootstrap zeroMachine bootDemo 405 404 rfl rfl rfl rfl (by decide) rfl
    (by decide)).2.2.2 rfl (by decide)

/-! ## Sequences of instruction statements -/

theorem isSep_facts {c : Int} (h : isSep c) :
    ¬ isDigit c ∧ c ≠ ASC_CR ∧ c ≠ ASC_SLASH ∧ c ≠ ASC_I ∧ c ≠ ASC_P ∧ c ≠ ASC_G ∧ c ≠ ASC_L
      ∧ c ≠ ASC_MINUS := by
  simp only [isSep, ASC_DOLLAR, ASC_SPACE, ASC_LF] at h
  simp only [isDigit, ASC_0, ASC_9, ASC_CR, ASC_SLASH, ASC_I, ASC_P, ASC_G, ASC_L, ASC_MINUS]
  omega

/-- The function `rdn` on a machine whose current stream starts with a character that ends
a number: the number is 0 and nothing is read. -/
theorem rdn_rec0 (s : Machine) (c : Int) (r : List Int) (hc : ¬ isDigit c)
    (hm : c ≠ ASC_MINUS) :
    rdn { s with ch := c, inp := upd s.inp (s.cis - 1) r }
      = (([] : List Int).foldl addDigit 0,
          { s with ch := c, inp := upd s.inp (s.cis - 1) r }) :=
  rdn_none _ hm hc

/-- The function `rdn` on a minus sign followed by a character that ends a number. -/
theorem rdn_neg0 (s : Machine) (c : Int) (r : List Int) (hc : ¬ isDigit c)
    (h13 : c ≠ ASC_CR) (h47 : c ≠ ASC_SLASH) :
    rdn { s with ch := ASC_MINUS, inp := upd s.inp (s.cis - 1) (c :: r) }
      = (toShort (-(([] : List Int).foldl addDigit 0)),
          { s with ch := c, inp := upd s.inp (s.cis - 1) r }) := by
  unfold rdn
  simp only [decide_True, if_true]
  rw [rch_rec s _ c _ h13 h47, rdnLoop_stop _ _ _ hc]
  rfl

/-- An instruction statement with a numeric operand, whatever its suffix letters and sign
and however many digits it has, followed by a separator. -/
theorem asmInstr_stmt (s : Machine) (m : Int → Int) (L c0 n c : Int)
    (ds r : List Int) (fi fp fg neg : Bool)
    (h : At s m L c0 (flagText fi fp ++ (gText fg ++ (signText neg ++ (ds ++ c :: r)))))
    (hds : ∀ x ∈ ds, isDigit x) (hc : isSep c)
    (hL : 0 ≤ L ∧ L + 1 < WORDCOUNT) :
    ∃ s', asmInstr n s = Res.ok s' ∧
      At s' (emitted m L (withFlags n fi fp) (operand neg ds))
        (L + instrWords (operand neg ds)) c r ∧ s'.cp = 0 := by
  obtain ⟨rfl, rfl, hch, hi⟩ := h
  obtain ⟨cD, c13, c47, cI, cP, cG, cL, cM⟩ := isSep_facts hc
  have k1 := fun (x : Int) (r' : List Int) => rch_rec s x ASC_I r' (by decide) (by decide)
  have k2 := fun (x : Int) (r' : List Int) => rch_rec s x ASC_P r' (by decide) (by decide)
  have k3 := fun (x : Int) (r' : List Int) => rch_rec s x ASC_MINUS r' (by decide) (by decide)
  have k5 := fun (x : Int) (r' : List Int) => rch_rec s x ASC_G r' (by decide) (by decide)
  have k6 := fun (x : Int) (r' : List Int) => rch_rec s x c r' c13 c47
  have hs : s = { s with ch := s.ch, inp := upd s.inp (s.cis - 1) (s.inp (s.cis - 1)) } := by
    have : upd s.inp (s.cis - 1) (s.inp (s.cis - 1)) = s.inp := by
      funext j; unfold upd; split_ifs with hj
      · rw [hj]
      · rfl
    rw [this]
  have cI' : ASC_I ≠ c := Ne.symm cI
  unfold asmInstr
  rw [hs, hi]
  cases ds with
  | nil =>
    have hrd := rdn_rec0 s c r cD cM
    have hrn := rdn_neg0 s c r cD c13 c47
    cases fi <;> cases fp <;> cases fg <;> cases neg <;>
      simp only [flagText, gText, signText, withFlags, operand, if_true, if_false,
        Bool.false_eq_true, List.nil_append, List.cons_append, List.append_nil] <;>
      simp only [k1, k2, k3, k5, k6, cI, cP, cG, cL, cI', if_true, if_false, hrd, hrn,
        show ASC_I ≠ ASC_P from by decide, show ASC_I ≠ ASC_G from by decide,
        show ASC_I ≠ ASC_L from by decide, show ASC_P ≠ ASC_I from by decide,
        show ASC_P ≠ ASC_G from by decide, show ASC_P ≠ ASC_L from by decide,
        show ASC_G ≠ ASC_I from by decide, show ASC_G ≠ ASC_P from by decide,
        show ASC_G ≠ ASC_L from by decide,
        show ASC_MINUS ≠ ASC_I from by decide, show ASC_MINUS ≠ ASC_P from by decide,
        show ASC_MINUS ≠ ASC_G from by decide, show ASC_MINUS ≠ ASC_L from by decide] <;>
      exact emit_spec s _ _ c r hL
  | cons d0 tl =>
    have hd0 : isDigit d0 := hds d0 (List.mem_cons_self _ _)
    have htl : ∀ x ∈ tl, isDigit x := fun x hx => hds x (List.mem_cons_of_mem _ hx)
    obtain ⟨e13, e47, eI, eP, eG, eL, eM⟩ := isDigit_facts hd0
    have hrd := rdn_rec s d0 tl c r hd0 htl cD c13 c47
    have hrn := rdn_neg s d0 tl c r hd0 htl cD c13 c47
    have eI' : ASC_I ≠ d0 := Ne.symm eI
    have k4 := fun (x : Int) (r' : List Int) => rch_rec s x d0 r' e13 e47
    cases fi <;> cases fp <;> cases fg <;> cases neg <;>
      simp only [flagText, gText, signText, withFlags, operand, if_true, if_false,
        Bool.false_eq_true, List.nil_append, List.cons_append, List.append_nil] <;>
      simp only [k1, k2, k3, k4, k5, eI, eP, eG, eL, eI', if_true, if_false, hrd, hrn,
        show ASC_I ≠ ASC_P from by decide, show ASC_I ≠ ASC_G from by decide,
        show ASC_I ≠ ASC_L from by decide, show ASC_P ≠ ASC_I from by decide,
        show ASC_P ≠ ASC_G from by decide, show ASC_P ≠ ASC_L from by decide,
        show ASC_G ≠ ASC_I from by decide, show ASC_G ≠ ASC_P from by decide,
        show ASC_G ≠ ASC_L from by decide,
        show ASC_MINUS ≠ ASC_I from by decide, show ASC_MINUS ≠ ASC_P from by decide,
        show ASC_MINUS ≠ ASC_G from by decide, show ASC_MINUS ≠ ASC_L from by decide] <;>
      exact emit_spec s _ _ c r hL

/-- A run of separators: the assembler passes `sw` and `next` for each of them and changes
neither the memory nor `lomem`. -/
theorem asmGo_seps (more : List Int) : ∀ (f : Nat) (s : Machine) (m : Int → Int)
    (L c0 c : Int) (r : List Int), At s m L c0 (more ++ c :: r) → isSep c0 →
    (∀ x ∈ more, isSep x) → c ≠ ASC_CR → c ≠ ASC_SLASH →
    ∃ s', asmGo (f + (2 + 2 * more.length)) Lbl.sw s = asmGo f Lbl.sw s' ∧ At s' m L c r := by
  induction more with
  | nil =>
    intro f s m L c0 c r h h0 _ h13 h47
    exact asmGo_sep f s m L c0 c r h h0 h13 h47
  | cons x xs ih =>
    intro f s m L c0 c r h h0 hall h13 h47
    have hx : isSep x := hall x (List.mem_cons_self _ _)
    obtain ⟨-, x13, x47, -⟩ := isSep_facts hx
    obtain ⟨s1, g1, a1⟩ := asmGo_sep (f + (2 + 2 * xs.length)) s m L c0 x (xs ++ c :: r) h h0
      x13 x47
    obtain ⟨s2, g2, a2⟩ := ih f s1 m L x c r a1 hx
      (fun y hy => hall y (List.mem_cons_of_mem _ hy)) h13 h47
    refine ⟨s2, ?_, a2⟩
    rw [show f + (2 + 2 * (x :: xs).length) = f + (2 + 2 * xs.length) + 2 by
      simp only [List.length_cons]; omega, g1, g2]

theorem stmtsWords_range (mid : List Stmt) :
    0 ≤ stmtsWords mid ∧ stmtsWords mid ≤ 2 * mid.length := by
  induction mid with
  | nil => simp [stmtsWords]
  | cons i is ih =>
    have := instrWords_range (operand i.neg i.digits)
    simp only [stmtsWords, Stmt.words, List.length_cons]
    push_cast
    omega

theorem fnCode_facts {c n : Int} (h : fnCode c = some n) : c ≠ ASC_CR ∧ c ≠ ASC_SLASH := by
  have := (fnCode_some h).1
  simp only [ASC_L, ASC_S, ASC_A, ASC_J, ASC_T, ASC_F, ASC_K, ASC_X, ASC_CR,
    ASC_SLASH] at this ⊢
  omega

theorem stmtsText_head (mid : List Stmt) (hok : ∀ i ∈ mid, i.ok) (cf : Int) (fin : List Int)
    (h13 : cf ≠ ASC_CR) (h47 : cf ≠ ASC_SLASH) :
    ∃ c r, stmtsText mid ++ cf :: fin = c :: r ∧ c ≠ ASC_CR ∧ c ≠ ASC_SLASH := by
  cases mid with
  | nil => exact ⟨cf, fin, rfl, h13, h47⟩
  | cons j js =>
    obtain ⟨⟨nj, hnj⟩, -, -, -⟩ := hok j (List.mem_cons_self _ _)
    have := fnCode_facts hnj
    exact ⟨j.letter, _, rfl, this.1, this.2⟩

/-- A sequence of instruction statements with numeric operands: the assembler emits their
words from `L` on, touches no other word and comes back to `sw` at the character after them. -/
theorem asmGo_stmts (mid : List Stmt) : ∀ (f : Nat) (s : Machine) (m : Int → Int)
    (L c cf : Int) (rest fin : List Int),
    At s m L c rest → c :: rest = stmtsText mid ++ cf :: fin → (∀ i ∈ mid, i.ok) →
    0 ≤ L → L + stmtsWords mid + 1 < WORDCOUNT → cf ≠ ASC_CR → cf ≠ ASC_SLASH →
    ∃ s' m', asmGo (f + stmtsSteps mid) Lbl.sw s = asmGo f Lbl.sw s' ∧
      At s' m' (L + stmtsWords mid) cf fin ∧
      ∀ x, x < L ∨ L + stmtsWords mid ≤ x → m' x = m x := by
  induction mid with
  | nil =>
    intro f s m L c cf rest fin hat htext _ _ _ _ _
    simp only [stmtsText, List.nil_append, List.cons.injEq] at htext
    obtain ⟨rfl, rfl⟩ := htext
    exact ⟨s, m, rfl, by simpa [stmtsWords] using hat, fun _ _ => rfl⟩
  | cons i is ih =>
    intro f s m L c cf rest fin hat htext hok hL0 hL h13 h47
    obtain ⟨⟨n, hn⟩, hdig, hsep, hmore⟩ := hok i (List.mem_cons_self _ _)
    simp only [stmtsText, Stmt.text, List.cons_append, List.cons.injEq, List.append_assoc]
      at htext
    obtain ⟨rfl, rfl⟩ := htext
    have hsw := stmtsWords_range is
    have hwr := instrWords_range (operand i.neg i.digits)
    simp only [stmtsWords, Stmt.words, WORDCOUNT] at hL
    obtain ⟨c', r', hnext, hc13, hc47⟩ := stmtsText_head is
      (fun j hj => hok j (List.mem_cons_of_mem _ hj)) cf fin h13 h47
    have hch : fnCode s.ch = some n := by rw [hat.2.2.1]; exact hn
    obtain ⟨s1, h1, hat1, -⟩ := asmInstr_stmt s m L i.letter n i.sep i.digits
      (i.more ++ (stmtsText is ++ cf :: fin)) i.fi i.fp i.fg i.neg hat hdig hsep
      (by simp only [WORDCOUNT]; omega)
    rw [hnext] at hat1
    obtain ⟨s2, h2, hat2⟩ := asmGo_seps i.more (f + stmtsSteps is) s1 _ _ i.sep c' r' hat1 hsep
      hmore hc13 hc47
    obtain ⟨s3, m3, h3, hat3, hfr⟩ := ih f s2 _ _ c' cf r' fin hat2 hnext.symm
      (fun j hj => hok j (List.mem_cons_of_mem _ hj)) (by omega)
      (by simp only [WORDCOUNT]; omega) h13 h47
    refine ⟨s3, m3, ?_, ?_, ?_⟩
    · rw [show f + stmtsSteps (i :: is) = f + stmtsSteps is + (2 + 2 * i.more.length) + 1 by
        simp only [stmtsSteps, Stmt.steps]; omega, asmGo_instr _ s n hch, h1, Res.ok_bind, h2,
        h3]
    · simp only [stmtsWords, Stmt.words]
      rw [← add_assoc]; exact hat3
    · intro x hx
      simp only [stmtsWords, Stmt.words] at hx
      rw [hfr x (by omega), emitted_other _ _ _ _ _ (by omega)]

/-- C1, amended.  The input is `JL10` (the letter `L` and the label number directly after
the `J`), a blank, any sequence of instruction statements with numeric operands, and then
`10 S 0 $`.  Each statement of the sequence is a function letter, any of the suffix letters
`I`, `P`, `G` in this order, an optional minus sign, decimal digits (there may be none) and one
or more separators (blank, newline, `$`); the code is short enough for the `S` instruction to
lie below the label table.  Then assembly runs to its end without halting (for every bound on
the labels of `assemble` passed of at least 17 plus those the statements take), label 10 is
defined at the value `lomem` has then, `406 +` the words emitted in between, the operand word
of the `J` (address 405, after the function word at 404) holds that address, and one
interpreter step at the `J` sets `pc` to it. -/
theorem forward_reference (mid : List Stmt) (hok : ∀ i ∈ mid, i.ok)
    (hroom : 406 + stmtsWords mid + 1 < labv 0) (fuel : Nat)
    (hfuel : 17 + stmtsSteps mid ≤ fuel) :
    ∃ s', (loading (forwardText mid) >>= assemble fuel) = Res.ok s' ∧
      s'.m (labv 10) = -(406 + stmtsWords mid) ∧
      s'.m 404 = bitop Nat.lor F3_J FD_BIT ∧
      s'.m 405 = 406 + stmtsWords mid ∧
      ∀ t : Machine, t.m = s'.m → t.pc = 404 →
        ∃ t', step t = Res.ok (none, t') ∧ t'.pc = 406 + stmtsWords mid := by
  obtain ⟨f, rfl⟩ : ∃ f, fuel = f + (17 + stmtsSteps mid) :=
    ⟨fuel - (17 + stmtsSteps mid), by omega⟩
  have h0v : labv 0 = 19400 := by decide
  have h10v : labv 10 = 19410 := by decide
  rw [h0v] at hroom
  have hW := stmtsWords_range mid
  have e10 : ([49, 48] : List Int).foldl addDigit 0 = 10 := by decide
  obtain ⟨s0, hload, hlo, hinp⟩ := loading_ok (forwardText mid)
  have htext : forwardText mid
      = 74 :: 76 :: 49 :: 48 :: 32 :: (stmtsText mid ++ 49 :: [48, 32, 83, 32, 48, 32, 36]) := by
    have e1 : cbytes "JL10 " = [74, 76, 49, 48, 32] := by decide
    have e2 : cbytes "10 S 0 $" = [49, 48, 32, 83, 32, 48, 32, 36] := by decide
    unfold forwardText
    rw [e1, e2]
    rfl
  rw [htext] at hinp
  obtain ⟨s1, g1, a1⟩ := asmGo_clear (f + 15 + stmtsSteps mid) s0 74 _ hinp (by decide) (by decide)
  rw [hlo] at a1
  have hm1 : memclr s0.m (labv 10) = 0 := memclr_labv _ 10 (by decide)
  have hm0 : memclr s0.m (labv 0) = 0 := memclr_labv _ 0 (by decide)
  obtain ⟨s2, g2, a2⟩ := asmGo_instr_label (f + 14 + stmtsSteps mid) s1 _ 404 74 3 49 32 [48]
    (stmtsText mid ++ 49 :: [48, 32, 83, 32, 48, 32, 36]) a1 (by decide) (by decide) (by decide)
    (by decide) (by decide) (by decide) (by decide) (by rw [e10]; decide)
    (by rw [e10, hm1]) (by rw [e10, hm1]; decide)
  rw [e10, hm1] at a2
  obtain ⟨c', r', hnext, hc13, hc47⟩ := stmtsText_head mid hok 49 [48, 32, 83, 32, 48, 32, 36]
    (by decide) (by decide)
  rw [hnext] at a2
  obtain ⟨s3, g3, a3⟩ := asmGo_sep (f + 12 + stmtsSteps mid) s2 _ _ 32 c' r' a2 (by decide)
    hc13 hc47
  obtain ⟨s4, m4, g4, a4, hfr⟩ := asmGo_stmts mid (f + 12) s3 _ (404 + 2) c' 49 r'
    [48, 32, 83, 32, 48, 32, 36] a3 hnext.symm hok (by decide) (by simp only [WORDCOUNT]; omega)
    (by decide) (by decide)
  have hm4 : ∀ x, x < 406 ∨ 406 + stmtsWords mid ≤ x → m4 x
      = upd (upd (upd (upd (memclr s0.m) 404 (toShort (orBit 3 FD_BIT))) (404 + 1) 0)
          (labv 10) (404 + 1)) (404 + 1) 0 x := fun x hx => hfr x (by omega)
  have k10 : m4 (labv 10) = 405 := by
    rw [hm4 _ (by rw [h10v]; omega), upd_other _ _ (by decide), upd_same]; rfl
  have k405 : m4 405 = 0 := by
    rw [hm4 _ (by omega)]; exact upd_same _ _ _
  have k404 : m4 404 = 35 := by
    rw [hm4 _ (by omega), upd_other _ _ (by decide), upd_other _ _ (by decide),
      upd_other _ _ (by decide), upd_same]; decide
  have k0 : m4 (labv 0) = 0 := by
    rw [hm4 _ (by rw [h0v]; omega), upd_other _ _ (by decide), upd_other _ _ (by decide),
      upd_other _ _ (by decide), upd_other _ _ (by decide), hm0]
  have e406 : (404 : Int) + 2 + stmtsWords mid = 406 + stmtsWords mid := by ring
  rw [e406] at a4
  obtain ⟨s5, g5, r1, r2, r3⟩ := asmGo_tail f s4 m4 (406 + stmtsWords mid) [405] a4
    (by rw [h0v]; omega) (by simp) (by simp; omega)
    (by rw [k10]; exact ⟨rfl, by rw [k405]; rfl⟩) k0 (by simp)
  have hsL : toShort (406 + stmtsWords mid) = 406 + stmtsWords mid := by unfold toShort; omega
  have hsN : toShort (-(406 + stmtsWords mid)) = -(406 + stmtsWords mid) := by
    unfold toShort; omega
  have q405 : s5.m 405 = 406 + stmtsWords mid := by rw [r1 405 (by simp), hsL]
  have q404 : s5.m 404 = 35 := by rw [r3 404 (by omega) (by simp), k404]
  refine ⟨s5, ?_, by rw [r2, hsN], by rw [q404]; decide, q405, ?_⟩
  · rw [hload, Res.ok_bind, assemble,
      show f + (17 + stmtsSteps mid) = f + 15 + stmtsSteps mid + 2 by omega, g1,
      show f + 15 + stmtsSteps mid = f + 14 + stmtsSteps mid + 1 by omega, g2,
      show f + 14 + stmtsSteps mid = f + 12 + stmtsSteps mid + 2 by omega, g3, g4, g5]
  · intro t htm hpc
    exact step_jump_404 t _ hpc (by rw [htm, q404]) (by rw [htm, q405])
      (by unfold isWord; omega)

/-- Witness of C1 amended: `JL10 X22 LIP-300 $` and a newline, `SG `, `A-  `, then
`10 S 0 $`; the statements emit 1, 2, 1 and 1 words, so label 10 is defined at 411. -/
theorem forward_reference_witness :
    ∃ s', (loading (forwardText [⟨88, false, false, false, false, [50, 50], 32, []⟩,
            ⟨76, true, true, false, true, [51, 48, 48], 32, [36, 10]⟩,
            ⟨83, false, false, true, false, [], 32, []⟩,
            ⟨65, false, false, false, true, [], 32, [32]⟩])
          >>= assemble 38) = Res.ok s' ∧
      s'.m (labv 10) = -411 ∧ s'.m 404 = 35 ∧ s'.m 405 = 411 ∧
      ∀ t : Machine, t.m = s'.m → t.pc = 404 →
        ∃ t', step t = Res.ok (none, t') ∧ t'.pc = 411 :=
  forward_reference [⟨88, false, false, false, false, [50, 50], 32, []⟩,
      ⟨76, true, true, false, true, [51, 48, 48], 32, [36, 10]⟩,
      ⟨83, false, false, true, false, [], 32, []⟩,
      ⟨65, false, false, false, true, [], 32, [32]⟩]
    (by
      intro i hi
      simp only [List.mem_cons, List.mem_singleton, List.not_mem_nil, or_false] at hi
      rcases hi with rfl | rfl | rfl | rfl
      · exact ⟨⟨7, by decide⟩, by decide, by decide, by decide⟩
      · exact ⟨⟨0, by decide⟩, by decide, by decide, by decide⟩
      · exact ⟨⟨1, by decide⟩, by decide, by decide, by decide⟩
      · exact ⟨⟨2, by decide⟩, by decide, by decide, by decide⟩)
    (by decide) 38 (by decide)

/-! ## C12: a label defined twice -/

/-- A definition statement for a label whose slot is negative: the assembler halts with
`DUPLICATE LABEL` and leaves the memory, `lomem` and `cp` as they are. -/
theorem asmGo_dup (f : Nat) (s : Machine) (m : Int → Int) (L d0 c : Int)
    (tl r : List Int) (h : At s m L d0 (tl ++ c :: r)) (hd0 : isDigit d0)
    (htl : ∀ x ∈ tl, isDigit x) (hc : ¬ isDigit c) (h13 : c ≠ ASC_CR) (h47 : c ≠ ASC_SLASH)
    (hn : 0 ≤ (d0 :: tl).foldl addDigit 0 ∧ (d0 :: tl).foldl addDigit 0 < LABVCOUNT)
    (hdef : m (labv ((d0 :: tl).foldl addDigit 0)) < 0) :
    ∃ t, asmGo (f + 1) Lbl.sw s
        = Res.halted STR_DUPLICATE_LABEL ((d0 :: tl).foldl addDigit 0) t ∧
      t.m = m ∧ t.lomem = L ∧ t.cp = s.cp := by
  obtain ⟨rfl, rfl, hch, hi⟩ := h
  have hrdn := rdn_digits s tl c r (hch ▸ hd0) htl hc h13 h47 hi
  rw [hch] at hrdn
  generalize (d0 :: tl).foldl addDigit 0 = n at hn hdef hrdn ⊢
  obtain ⟨o, ho⟩ := defineLabel_dup f n { s with ch := c, inp := upd s.inp (s.cis - 1) r } hn hdef
  refine ⟨{ s with ch := c, inp := upd s.inp (s.cis - 1) r, cos := s.sysprint, out := o },
    ?_, rfl, rfl, rfl⟩
  rw [asmGo, asmSw_digit f s (hch ▸ hd0), hrdn, ho]
  rfl

/-- What follows a call of `halt` is not run. -/
theorem halt_bind {α β : Type} (msg : String) (n : Int) (s : Machine) (g : α → Res β) :
    ((halt msg n s : Res α) >>= g) = (halt msg n s : Res β) := by
  have key : ∀ r : Res Machine,
      (Res.bind r (fun s2 => (Res.halted msg n (newline s2) : Res α)) >>= g)
        = Res.bind r (fun s2 => (Res.halted msg n (newline s2) : Res β)) := by
    intro r
    cases r <;> rfl
  exact key _

/-- A definition statement for a label whose slot is negative ends in the call
`halt(STR_DUPLICATE_LABEL, n)`, made when the number has been read. -/
theorem asmGo_dup_halt (f : Nat) (s : Machine) (m : Int → Int) (L d0 c : Int)
    (tl r : List Int) (h : At s m L d0 (tl ++ c :: r)) (hd0 : isDigit d0)
    (htl : ∀ x ∈ tl, isDigit x) (hc : ¬ isDigit c) (h13 : c ≠ ASC_CR) (h47 : c ≠ ASC_SLASH)
    (hn : 0 ≤ (d0 :: tl).foldl addDigit 0 ∧ (d0 :: tl).foldl addDigit 0 < LABVCOUNT)
    (hdef : m (labv ((d0 :: tl).foldl addDigit 0)) < 0) :
    asmGo (f + 1) Lbl.sw s = halt STR_DUPLICATE_LABEL ((d0 :: tl).foldl addDigit 0)
      { s with ch := c, inp := upd s.inp (s.cis - 1) r } := by
  obtain ⟨rfl, rfl, hch, hi⟩ := h
  have hrdn := rdn_digits s tl c r (hch ▸ hd0) htl hc h13 h47 hi
  rw [hch] at hrdn
  generalize (d0 :: tl).foldl addDigit 0 = n at hn hdef hrdn ⊢
  have hlm : inMem (labv n) := by
    simp only [inMem, labv, WORDCOUNT, LABVCOUNT] at hn ⊢; omega
  have e : defineLabel f n { s with ch := c, inp := upd s.inp (s.cis - 1) r }
      = halt STR_DUPLICATE_LABEL n { s with ch := c, inp := upd s.inp (s.cis - 1) r } := by
    unfold defineLabel
    simp only [rd, hlm, if_true, Res.ok_bind, hdef]
  rw [asmGo, asmSw_digit f s (hch ▸ hd0), hrdn, e]
  show ((halt STR_DUPLICATE_LABEL n _ >>= fun s1 => Res.ok (some Lbl.sw, s1)) >>= _) = _
  rw [halt_bind, halt_bind]

/-- C12 as stated fails when the slot of the label is written between the two definitions:
on `5 G19405L9 5 ` label 5 is defined at 404 (after `5 ` its slot, the word 19405, holds
-404), the directive `G19405L9` sets the word 19405 to 0 and makes it the reference to
label 9, and the second `5`, with no `Z` in between, does not halt: the assembly runs to the
end of the input and the slot holds -404 again. -/
theorem duplicate_label_cleared :
    labv 5 = 19405 ∧
      (loading (cbytes "5 ") >>= assemble 40).get?.map (fun s => s.m (labv 5))
        = some (-404) ∧
      (loading (cbytes "5 G19405L9 ") >>= assemble 40).get?.map
        (fun s => (s.m (labv 5), s.m (labv 9))) = some (0, 19405) ∧
      (loading (cbytes "5 G19405L9 5 ") >>= assemble 40).haltInfo = none ∧
      (loading (cbytes "5 G19405L9 5 ") >>= assemble 40).get?.map
        (fun s => (s.m (labv 5), s.lomem)) = some (-404, 404) := by
  decide

/-- C12, amended: a label `n` in [0, 500) defined twice.  A definition statement for `n`
reached while the slot `labv[n]` is negative ends in the call `halt(STR_DUPLICATE_LABEL, n)`,
which writes the message and leaves with `exit(-1)`, whatever the bound; the machine left
has the memory, label slots included, and `lomem` and `cp` of before.  The slot is negative
when `n` was defined before and the slot has not been written since: a definition of `n` at
`lomem = L > 0`, with the chain `l` of its references pending, then separators and any
sequence of instruction statements with numeric operands whose code ends below the label
table, and then a definition statement for `n` again, halt with `DUPLICATE LABEL` and the
detail `n`, with `labv[n] = -L`.  In particular the input `5 A 0 $ 5 A 1 $` halts with
`DUPLICATE LABEL #5`, written to the stream `sysprint`. -/
theorem duplicate_label (d0 : Int) (tl : List Int) (hd0 : isDigit d0)
    (htl : ∀ x ∈ tl, isDigit x)
    (hn : 0 ≤ (d0 :: tl).foldl addDigit 0 ∧ (d0 :: tl).foldl addDigit 0 < LABVCOUNT) :
    (∀ (f : Nat) (s : Machine) (m : Int → Int) (L c : Int) (r : List Int),
      At s m L d0 (tl ++ c :: r) → ¬ isDigit c → c ≠ ASC_CR → c ≠ ASC_SLASH →
      m (labv ((d0 :: tl).foldl addDigit 0)) < 0 →
      asmGo (f + 1) Lbl.sw s = halt STR_DUPLICATE_LABEL ((d0 :: tl).foldl addDigit 0)
          { s with ch := c, inp := upd s.inp (s.cis - 1) r } ∧
        ∃ t, asmGo (f + 1) Lbl.sw s
            = Res.halted STR_DUPLICATE_LABEL ((d0 :: tl).foldl addDigit 0) t ∧
          t.m = m ∧ t.lomem = L ∧ t.cp = s.cp) ∧
    (∀ (f : Nat) (s : Machine) (m : Int → Int) (L p c : Int) (ps r l : List Int)
      (mid : List Stmt),
      At s m L d0 (tl ++ p :: (ps ++ (stmtsText mid ++ d0 :: (tl ++ c :: r)))) →
      isSep p → (∀ x ∈ ps, isSep x) → (∀ i ∈ mid, i.ok) →
      ¬ isDigit c → c ≠ ASC_CR → c ≠ ASC_SLASH →
      0 < L → L + stmtsWords mid + 1 < labv 0 →
      l.Nodup → (∀ a ∈ l, 0 < a ∧ a < labv 0) →
      linked m (m (labv ((d0 :: tl).foldl addDigit 0))) l → l.length ≤ f →
      ∃ t, asmGo (f + (4 + 2 * ps.length + stmtsSteps mid)) Lbl.sw s
          = Res.halted STR_DUPLICATE_LABEL ((d0 :: tl).foldl addDigit 0) t ∧
        t.m (labv ((d0 :: tl).foldl addDigit 0)) = -L ∧
        t.lomem = L + stmtsWords mid) ∧
    (loading (cbytes "5 A 0 $ 5 A 1 $") >>= assemble 40).haltInfo
      = some (STR_DUPLICATE_LABEL, 5) ∧
    (loading (cbytes "5 A 0 $ 5 A 1 $") >>= assemble 40).haltState.map (fun t => t.out 1)
      = some (cbytes "DUPLICATE LABEL #5" ++ [ASC_LF]) := by
  refine ⟨?_, ?_, by decide, by decide⟩
  · intro f s m L c r h hc h13 h47 hdef
    exact ⟨asmGo_dup_halt f s m L d0 c tl r h hd0 htl hc h13 h47 hn hdef,
      asmGo_dup f s m L d0 c tl r h hd0 htl hc h13 h47 hn hdef⟩
  · intro f s m L p c ps r l mid h hp hps hok hc h13 h47 hL hroom hnd hin hl hf
    have h0v : labv 0 = 19400 := by decide
    rw [h0v] at hroom
    have hW := stmtsWords_range mid
    have hlv : 19400 ≤ labv ((d0 :: tl).foldl addDigit 0) := by
      simp only [labv, WORDCOUNT, LABVCOUNT] at hn ⊢; omega
    obtain ⟨pD, p13, p47, -⟩ := isSep_facts hp
    obtain ⟨d13, d47, -⟩ := isDigit_facts hd0
    obtain ⟨s1, g1, a1⟩ := asmGo_label (f + (3 + 2 * ps.length + stmtsSteps mid)) s m L d0 p tl
      (ps ++ (stmtsText mid ++ d0 :: (tl ++ c :: r))) l h hd0 htl pD p13 p47 hn hnd hin hl
      (by omega)
    obtain ⟨c', r', hnext, hc13, hc47⟩ := stmtsText_head mid hok d0 (tl ++ c :: r) d13 d47
    rw [hnext] at a1
    obtain ⟨s2, g2, a2⟩ := asmGo_seps ps (f + 1 + stmtsSteps mid) s1 _ _ p c' r' a1 hp hps
      hc13 hc47
    obtain ⟨s3, m3, g3, a3, hfr⟩ := asmGo_stmts mid (f + 1) s2 _ L c' d0 r' (tl ++ c :: r) a2
      hnext.symm hok (by omega) (by simp only [WORDCOUNT]; omega) d13 d47
    have hslot : m3 (labv ((d0 :: tl).foldl addDigit 0)) = -L := by
      rw [hfr _ (by omega)]
      unfold defined
      rw [if_pos rfl]
      unfold toShort; omega
    obtain ⟨t, g4, t1, t2, -⟩ := asmGo_dup f s3 m3 _ d0 c tl r a3 hd0 htl hc h13 h47 hn
      (by rw [hslot]; omega)
    refine ⟨t, ?_, by rw [t1, hslot], t2⟩
    rw [show f + (4 + 2 * ps.length + stmtsSteps mid)
        = f + (3 + 2 * ps.length + stmtsSteps mid) + 1 by omega, g1,
      show f + (3 + 2 * ps.length + stmtsSteps mid)
        = f + 1 + stmtsSteps mid + (2 + 2 * ps.length) by omega, g2, g3, g4]

/-- Witness of C12 amended: the digit `7` read with label 7 defined at 404. -/
theorem duplicate_label_witness :
    ∃ t, asmGo (3 + 1) Lbl.sw (labelDemo (-404))
        = Res.halted STR_DUPLICATE_LABEL ((55 :: []).foldl addDigit 0) t ∧
      t.m = (labelDemo (-404)).m ∧ t.lomem = 410 ∧ t.cp = (labelDemo (-404)).cp :=
  ((duplicate_label 55 [] (by decide) (by decide) (by decide)).1 3 (labelDemo (-404))
    (labelDemo (-404)).m 410 32 [] ⟨rfl, rfl, rfl, rfl⟩ (by decide) (by decide) (by decide)
    (by decide)).2

/-! ## C16: the directive `G`, end to end -/

end Icint
